import Mathlib

/-!
# Verification development for `src/directoryEntries.h`

The header holds the in-memory result model (`directoryEntries`, its `entry`
and its cursor `iter`) and three variants of `directoryManager` (POSIX,
Windows, and a portable one built on `QDir`).  Each part is embedded below as
executable Lean definitions that keep the names of the source, followed by the
theorems about them.

Conventions of the embedding:

* `QString` is a Lean `String` (a sequence of Unicode scalar values);
  `QString::size()` counts UTF-16 code units and `QString::toUtf8()` yields
  bytes, which are natural numbers below 256.
* A `const char *` is the list of its bytes; `cstr` cuts it at the first NUL.
  The names that `readdir` hands out are such byte lists, and the conversion
  `QString( const char * )` is `QString.fromUtf8`.
* `qint64` timestamps are integers; they are only compared, never computed on.
* `std::sort`, the native calls (`opendir`, `readdir`, `stat`, `unlink`,
  `rmdir`, `FindFirstFileW`, ...) and the Qt file queries are not code of this
  header: they are parameters of the definitions that call them.
-/

set_option autoImplicit false

/-! ## `directoryEntries` -/

/-- The `entry` record of `directoryEntries`: creation timestamp and path. -/
structure directoryEntries.entry where
  dateCreated : Int
  path : String
deriving DecidableEq, Repr

/-- The two vectors of `directoryEntries`. -/
structure directoryEntries where
  m_folders : List directoryEntries.entry := []
  m_files : List directoryEntries.entry := []
deriving DecidableEq, Repr

namespace directoryEntries

/-- The shape of `std::sort` on a vector of entries: comparator, then range. -/
abbrev StdSort := (entry → entry → Bool) → List entry → List entry

/-- The comparator requirement of `std::sort`: a strict weak ordering. -/
def StrictWeakOrdering (comp : entry → entry → Bool) : Prop :=
  (∀ a, comp a a = false) ∧
  (∀ a b c, comp a b = true → comp b c = true → comp a c = true) ∧
  (∀ a b c, comp a b = false → comp b a = false → comp b c = false → comp c b = false →
    comp a c = false ∧ comp c a = false)

/-- What the C++ standard promises of `std::sort`: the range is rearranged
(a permutation) and no later element compares before an earlier one.  The
order of equivalent elements is not part of the promise. -/
structure StdSortContract (stdSort : StdSort) : Prop where
  perm : ∀ comp xs, StrictWeakOrdering comp → (stdSort comp xs).Perm xs
  sorted : ∀ comp xs, StrictWeakOrdering comp →
    (stdSort comp xs).Pairwise (fun a b => comp b a = false)

/-- The lambda handed to both `std::sort` calls of `sort()`. -/
def sortLambda (lhs rhs : entry) : Bool :=
  decide (rhs.dateCreated < lhs.dateCreated)

/-- `directoryEntries::clear`. -/
def clear (_s : directoryEntries) : directoryEntries :=
  { m_folders := [], m_files := [] }

/-- `directoryEntries::sort`: `std::sort` on the folders, then on the files. -/
def sort (stdSort : StdSort) (s : directoryEntries) : directoryEntries :=
  { m_folders := stdSort sortLambda s.m_folders
    m_files := stdSort sortLambda s.m_files }

/-- `directoryEntries::addFile`. -/
def addFile (s : directoryEntries) (dateCreated : Int) (path : String) : directoryEntries :=
  { s with m_files := s.m_files ++ [⟨dateCreated, path⟩] }

/-- `directoryEntries::addFolder`. -/
def addFolder (s : directoryEntries) (dateCreated : Int) (path : String) : directoryEntries :=
  { s with m_folders := s.m_folders ++ [⟨dateCreated, path⟩] }

/-- The cursor `directoryEntries::iter`.  `m_entries` is a pointer in the
source and is null in a default-constructed cursor. -/
structure iter where
  m_position : Nat := 0
  m_entries : Option (List entry) := none
deriving DecidableEq, Repr

namespace iter

/-- `iter::hasNext`; `none` stands for the dereference of a null `m_entries`. -/
def hasNext (it : iter) : Option Bool :=
  it.m_entries.map (fun e => decide (it.m_position < e.length))

/-- `iter::value`; `none` stands for a read through a null pointer or past
the end of the vector. -/
def value (it : iter) : Option String :=
  match it.m_entries with
  | none => none
  | some e => (e.get? it.m_position).map entry.path

/-- `iter::valueWithNext`: the value at the position, and the advanced cursor. -/
def valueWithNext (it : iter) : Option (String × iter) :=
  match it.m_entries with
  | none => none
  | some e => (e.get? it.m_position).map
      (fun x => (x.path, { it with m_position := it.m_position + 1 }))

/-- `iter::next`: an advanced copy. -/
def next (it : iter) : iter :=
  { it with m_position := it.m_position + 1 }

/-- The caller's loop `while( it.hasNext() ){ use( it.valueWithNext() ) ; }`,
collecting the values read and the cursor left at the end.  It gives `none`
when a read is out of range or when the loop is still running after `fuel`
rounds. -/
def drain : Nat → iter → Option (List String × iter)
  | 0, it =>
    match it.hasNext with
    | some false => some ([], it)
    | _ => none
  | fuel + 1, it =>
    match it.hasNext with
    | none => none
    | some false => some ([], it)
    | some true =>
      match it.valueWithNext with
      | none => none
      | some (v, it') =>
        match drain fuel it' with
        | none => none
        | some (vs, fin) => some (v :: vs, fin)

end iter

/-- `directoryEntries::directoryIter`. -/
def directoryIter (s : directoryEntries) : iter :=
  { m_entries := some s.m_folders }

/-- `directoryEntries::fileIter`. -/
def fileIter (s : directoryEntries) : iter :=
  { m_entries := some s.m_files }

/-- The order the specification asks of a sorted sequence: every entry's
timestamp is at least that of the entry right after it. -/
def AdjacentDescending (l : List entry) : Prop :=
  ∀ (i : Nat) (h : i + 1 < l.length),
    (l.get ⟨i + 1, h⟩).dateCreated ≤ (l.get ⟨i, Nat.lt_of_succ_lt h⟩).dateCreated

/-- One implementation that meets the `std::sort` contract: insertion sort. -/
def insertionStdSort : StdSort :=
  fun comp xs => List.insertionSort (fun a b => comp b a = false) xs

/-- Another implementation that meets the contract; it treats equivalent
elements differently from `insertionStdSort`. -/
def reversingStdSort : StdSort :=
  fun comp xs => List.insertionSort (fun a b => comp b a = false) xs.reverse

end directoryEntries

/-! ## Text: `QString`, UTF-16 sizes, UTF-8 bytes, C strings -/

namespace QString

/-- The number of UTF-16 code units of one character. -/
def utf16Units (c : Char) : Nat :=
  if c.toNat < 0x10000 then 1 else 2

/-- `QString::size()`: the number of UTF-16 code units. -/
def size (s : String) : Nat :=
  (s.data.map utf16Units).sum

/-- The UTF-8 bytes of one character. -/
def utf8Bytes (c : Char) : List Nat :=
  if c.toNat < 0x80 then [c.toNat]
  else if c.toNat < 0x800 then [0xC0 + c.toNat / 0x40, 0x80 + c.toNat % 0x40]
  else if c.toNat < 0x10000 then
    [0xE0 + c.toNat / 0x1000, 0x80 + c.toNat / 0x40 % 0x40, 0x80 + c.toNat % 0x40]
  else
    [0xF0 + c.toNat / 0x40000, 0x80 + c.toNat / 0x1000 % 0x40,
      0x80 + c.toNat / 0x40 % 0x40, 0x80 + c.toNat % 0x40]

/-- `QString::toUtf8()`. -/
def toUtf8 (s : String) : List Nat :=
  (s.data.map utf8Bytes).flatten

/-- `QString::endsWith( "/" )`. -/
def endsWithSlash (s : String) : Bool :=
  s.data.getLast? == some '/'

/-- A continuation byte of UTF-8. -/
def isCont (b : Nat) : Bool :=
  decide (0x80 ≤ b) && decide (b < 0xC0)

/-- The character of a decoded value; U+FFFD when the value is no character. -/
def charOf (n : Nat) : Char :=
  if n.isValidChar then Char.ofNat n else Char.ofNat 0xFFFD

/-- The value of a two-byte sequence. -/
def value2 (b c1 : Nat) : Nat :=
  (b - 0xC0) * 0x40 + (c1 - 0x80)

/-- The value of a three-byte sequence. -/
def value3 (b c1 c2 : Nat) : Nat :=
  (b - 0xE0) * 0x1000 + (c1 - 0x80) * 0x40 + (c2 - 0x80)

/-- The value of a four-byte sequence. -/
def value4 (b c1 c2 c3 : Nat) : Nat :=
  (b - 0xF0) * 0x40000 + (c1 - 0x80) * 0x1000 + (c2 - 0x80) * 0x40 + (c3 - 0x80)

/-- A well-formed two-byte sequence: a lead byte from `0xC2` on, so that the
value is not below `0x80`, and a continuation byte. -/
def wellFormed2 (b c1 : Nat) : Bool :=
  decide (0xC2 ≤ b) && decide (b < 0xE0) && isCont c1

/-- A well-formed three-byte sequence: the value is not below `0x800` and is
no surrogate. -/
def wellFormed3 (b c1 c2 : Nat) : Bool :=
  decide (0xE0 ≤ b) && decide (b < 0xF0) && isCont c1 && isCont c2 &&
    decide (0x800 ≤ value3 b c1 c2) &&
    !(decide (0xD800 ≤ value3 b c1 c2) && decide (value3 b c1 c2 < 0xE000))

/-- A well-formed four-byte sequence: the value is from `0x10000` to `0x10FFFF`. -/
def wellFormed4 (b c1 c2 c3 : Nat) : Bool :=
  decide (0xF0 ≤ b) && decide (b < 0xF5) && isCont c1 && isCont c2 && isCont c3 &&
    decide (0x10000 ≤ value4 b c1 c2 c3) && decide (value4 b c1 c2 c3 < 0x110000)

/-- One step of the decoder behind `QString( const char * )`: the character
at the head of the bytes and the number of bytes it takes.  A well-formed
sequence gives its character, any other byte gives U+FFFD. -/
def decodeStep : List Nat → Char × Nat
  | [] => (charOf 0xFFFD, 1)
  | b :: rest =>
    if b < 0x80 then (charOf b, 1)
    else
      match rest with
      | c1 :: c2 :: c3 :: _ =>
        if wellFormed2 b c1 then (charOf (value2 b c1), 2)
        else if wellFormed3 b c1 c2 then (charOf (value3 b c1 c2), 3)
        else if wellFormed4 b c1 c2 c3 then (charOf (value4 b c1 c2 c3), 4)
        else (charOf 0xFFFD, 1)
      | [c1, c2] =>
        if wellFormed2 b c1 then (charOf (value2 b c1), 2)
        else if wellFormed3 b c1 c2 then (charOf (value3 b c1 c2), 3)
        else (charOf 0xFFFD, 1)
      | [c1] =>
        if wellFormed2 b c1 then (charOf (value2 b c1), 2)
        else (charOf 0xFFFD, 1)
      | [] => (charOf 0xFFFD, 1)

/-- The decoder run over all the bytes; `fuel` bounds the number of characters. -/
def decodeLoop : Nat → List Nat → List Char
  | 0, _ => []
  | _ + 1, [] => []
  | fuel + 1, b :: rest =>
    (decodeStep (b :: rest)).1 :: decodeLoop fuel ((b :: rest).drop (decodeStep (b :: rest)).2)

/-- The characters of a byte string; no more characters than bytes. -/
def decodeUtf8 (bytes : List Nat) : List Char :=
  decodeLoop bytes.length bytes

/-- `QString( const char * )`, that is `QString::fromUtf8`. -/
def fromUtf8 (bytes : List Nat) : String :=
  String.mk (decodeUtf8 bytes)

/-- A text of ASCII characters other than NUL. -/
def isAscii (s : String) : Prop :=
  ∀ c ∈ s.data, 0 < c.toNat ∧ c.toNat < 0x80

instance (s : String) : Decidable (isAscii s) := by
  unfold isAscii
  infer_instance

end QString

/-- The bytes a `const char *` denotes: those before the first NUL. -/
def cstr (data : List Nat) : List Nat :=
  data.takeWhile (fun b => b != 0)

/-- The constant `PATH_MAX` of `<limits.h>` on Linux. -/
def PATH_MAX : Nat := 4096

/-! ## `directoryManager::pathManager` (POSIX variant)

`m_buffer` is an array of `PATH_MAX` chars that every write leaves
NUL-terminated; the embedding keeps the C string it holds, which is all that
`path()` and `setPath()` hand out.  A write whose extent leaves the array is
undefined behaviour and gives `none`. -/

/-- The two members of `pathManager`. -/
structure pathManager where
  m_basePathLocation : Nat
  m_buffer : List Nat
deriving DecidableEq, Repr

namespace pathManager

/-- `pathManager::append`, the call
`std::snprintf( m_buffer.data() + s,m_buffer.size() - s,"%s",data )`.  The size
argument is computed in `size_t`, so it wraps modulo `2^64`.  With a size of
zero nothing is written; otherwise at most `size - 1` bytes of `data` and a
NUL are written from offset `s` on.  The C string in the buffer changes only
when the write starts at or before its end. -/
def append (m_buffer : List Nat) (s : Nat) (data : List Nat) : Option (List Nat) :=
  let n := (PATH_MAX + 2 ^ 64 - s % 2 ^ 64) % 2 ^ 64
  if n = 0 then some m_buffer
  else
    let written := (cstr data).take (n - 1)
    if s + written.length < PATH_MAX then
      some (if s ≤ m_buffer.length then m_buffer.take s ++ written else m_buffer)
    else none

/-- `pathManager::init`, run by both constructors on a buffer whose content
`uninit` is whatever the memory held. -/
def init (uninit : List Nat) (path : String) : Option pathManager :=
  if QString.endsWithSlash path then
    (append uninit 0 (QString.toUtf8 path)).map
      (fun b => { m_basePathLocation := QString.size path, m_buffer := b })
  else
    (append uninit 0 (QString.toUtf8 path ++ [47])).map
      (fun b => { m_basePathLocation := QString.size path + 1, m_buffer := b })

/-- The constructor `pathManager( const QString& )`. -/
def ofQString (path : String) : Option pathManager :=
  init [] path

/-- The constructor `pathManager( const char * )`: the argument is converted
to a `QString` for `init`. -/
def ofCString (path : List Nat) : Option pathManager :=
  init [] (QString.fromUtf8 (cstr path))

/-- `pathManager::setPath`: rewrite from the cached offset on, return the buffer. -/
def setPath (pm : pathManager) (path : List Nat) : Option (pathManager × List Nat) :=
  (append pm.m_buffer pm.m_basePathLocation path).map
    (fun b => ({ pm with m_buffer := b }, b))

/-- `pathManager::path`. -/
def path (pm : pathManager) : List Nat :=
  pm.m_buffer

/-- What a caller reads after `pathManager pm( base ) ;` followed by one
`pm.setPath( name )` for each name of `earlier` and then `pm.setPath( last )`. -/
def composeAfter (base : String) (earlier : List String) (last : String) :
    Option (List Nat) :=
  match earlier.foldl
      (fun acc n => acc.bind (fun pm => (pm.setPath (QString.toUtf8 n)).map Prod.fst))
      (ofQString base) with
  | none => none
  | some pm => (pm.setPath (QString.toUtf8 last)).map Prod.snd

/-- The bytes of the base with its separator: the base itself when it ends
in `/`, the base and one `/` when not. -/
def basePrefix (base : String) : List Nat :=
  if QString.endsWithSlash base then QString.toUtf8 base else QString.toUtf8 base ++ [47]

/-- The path the code means to compose: the base, exactly one separator, the name. -/
def fullPath (base name : String) : List Nat :=
  basePrefix base ++ cstr (QString.toUtf8 name)

/-- The state of a path manager whose buffer starts with the bytes `B` of its
base and whose cached offset is their number; the buffer holds all of `B`, or
all but the last byte when `B` fills the array. -/
def Holds (B : List Nat) (pm : pathManager) : Prop :=
  pm.m_basePathLocation = B.length ∧
  ((B.length < PATH_MAX ∧ ∃ suf, pm.m_buffer = B ++ suf) ∨
   (B.length = PATH_MAX ∧ pm.m_buffer = B.take (PATH_MAX - 1)))

end pathManager

/-! ## The name filter -/

/-- Modelled from the spec: `directoryEntries::valid` is declared in the
header (for `const char *`, `const wchar_t *` and `const QString&`) and defined
elsewhere.  The specification has it reject exactly "." and "..".  This is
the filter on a text (`const wchar_t *`, `const QString&`). -/
def directoryEntries.valid (name : String) : Bool :=
  name != "." && name != ".."

/-- Modelled from the spec: the overload `directoryEntries::valid( const char * )`,
declared in the header and defined elsewhere.  The specification has it reject
exactly "." and "..": the C strings with the bytes `[46]` and `[46, 46]`. -/
def directoryEntries.valid_char (name : List Nat) : Bool :=
  cstr name != [46] && cstr name != [46, 46]

/-! ## Native calls, the cancellation flag, and the record of a run -/

/-- The fields of `struct stat` that the code reads. -/
structure Stat where
  st_mode : Nat
  st_ctime : Int
deriving DecidableEq, Repr

/-- The file-type mask of `st_mode`. -/
def S_IFMT : Nat := 0o170000

/-- The file type of a regular file. -/
def S_IFREG : Nat := 0o100000

/-- The file type of a directory. -/
def S_IFDIR : Nat := 0o040000

/-- The test `S_ISREG` of `<sys/stat.h>`. -/
def S_ISREG (m : Nat) : Bool :=
  (m &&& S_IFMT) == S_IFREG

/-- The test `S_ISDIR` of `<sys/stat.h>`. -/
def S_ISDIR (m : Nat) : Bool :=
  (m &&& S_IFMT) == S_IFDIR

/-- The record `WIN32_FIND_DATAW`, as far as the code reads it. -/
structure WIN32_FIND_DATAW where
  dwFileAttributes : Nat
  dwLowDateTime : Nat
  dwHighDateTime : Nat
  cFileName : String
deriving DecidableEq, Repr

/-- The attribute bit of a directory. -/
def FILE_ATTRIBUTE_DIRECTORY : Nat := 0x10

/-- What happens during a run, oldest first.  `enter` and `leave` mark the
start and the return of one call of `readAll` or of the `removeDirectory`
template; the others are native calls with their arguments and results, and
the reads of the cancellation flag. -/
inductive Event where
  | enter
  | leave
  | poll (value : Bool)
  | opendir (path : List Nat) (ok : Bool)
  | closedir
  | readdir (name : Option (List Nat))
  | stat (path : List Nat) (mode : Option Nat)
  | unlink (path : List Nat) (ok : Bool)
  | rmdir (path : List Nat) (ok : Bool)
  | FindFirstFileW (pattern : String) (name : Option String)
  | FindNextFileW (name : Option String)
  | FindClose (valid : Bool)
  | DeleteFileW (path : String) (ok : Bool)
  | RemoveDirectoryW (path : String) (ok : Bool)
deriving DecidableEq, Repr

/-- The cancellation flag as the running thread sees it: the value it reads
at its first poll, at its second poll, and so on. -/
abbrev Token := Nat → Bool

/-- The state a run threads along: the state of the system behind the native
calls, how often the flag has been read, and the events so far. -/
structure World (σ : Type) where
  sys : σ
  polls : Nat := 0
  trace : List Event := []

namespace World

variable {σ : Type}

/-- Record one event. -/
def log (w : World σ) (e : Event) : World σ :=
  { w with trace := w.trace ++ [e] }

/-- The loop condition on the flag: `*m_continue` when the manager was given
a flag, and nothing to read (the loops of the `else` branches) when not. -/
def poll (m_continue : Option Token) (w : World σ) : Bool × World σ :=
  match m_continue with
  | none => (true, w)
  | some t =>
    (t w.polls, { w with polls := w.polls + 1, trace := w.trace ++ [Event.poll (t w.polls)] })

end World

/-- The POSIX calls the code makes, as functions of the state of the system.
`opendir` gives the directory stream (the `d_name` of the entries `readdir`
will hand out, as bytes) or nothing for a null handle. -/
structure Posix (σ : Type) where
  opendir : σ → List Nat → Option (List (List Nat)) × σ
  stat : σ → List Nat → Option Stat × σ
  unlink : σ → List Nat → Bool × σ
  rmdir : σ → List Nat → Bool × σ

/-- The Windows calls the code makes.  `FindFirstFileW` gives the first
record and the records `FindNextFileW` will hand out, or nothing for
`INVALID_HANDLE_VALUE`. -/
structure Win32 (σ : Type) where
  FindFirstFileW : σ → String → Option (WIN32_FIND_DATAW × List WIN32_FIND_DATAW) × σ
  DeleteFileW : σ → String → Bool × σ
  RemoveDirectoryW : σ → String → Bool × σ

/-! ## `directoryManager`, POSIX variant -/

namespace Linux

variable {σ : Type}

/-- The call `opendir( path )`. -/
def opendir (os : Posix σ) (path : List Nat) (w : World σ) :
    Option (List (List Nat)) × World σ :=
  ((os.opendir w.sys (cstr path)).1,
    { w with sys := (os.opendir w.sys (cstr path)).2
             trace := w.trace ++ [Event.opendir (cstr path) (os.opendir w.sys (cstr path)).1.isSome] })

/-- Modelled from the spec: `utils::misc::unique_rsc( opendir,closedir,path )`
comes from `utils/miscellaneous.hpp`, which is not among the sources.  The
specification describes a scoped native directory resource, released exactly
once on every exit path: the handle is opened at the declaration, and
`closedir` runs when the scope is left if and only if the handle is not null.
This is the release. -/
def unique_rsc_release (handle : Option (List (List Nat))) (w : World σ) : World σ :=
  match handle with
  | none => w
  | some _ => w.log Event.closedir

/-- The call `readdir( dir )`: the `d_name` of the next entry of the stream,
and the stream after it. -/
def readdir (dir : List (List Nat)) (w : World σ) :
    Option (List Nat) × List (List Nat) × World σ :=
  match dir with
  | [] => (none, [], w.log (Event.readdir none))
  | name :: rest => (some name, rest, w.log (Event.readdir (some name)))

/-- The call `stat( path,&m )`. -/
def stat (os : Posix σ) (path : List Nat) (w : World σ) : Option Stat × World σ :=
  ((os.stat w.sys (cstr path)).1,
    { w with sys := (os.stat w.sys (cstr path)).2
             trace := w.trace ++
               [Event.stat (cstr path) ((os.stat w.sys (cstr path)).1.map Stat.st_mode)] })

/-- The call `unlink( path )`; its result is not looked at. -/
def unlink (os : Posix σ) (path : List Nat) (w : World σ) : World σ :=
  { w with sys := (os.unlink w.sys (cstr path)).2
           trace := w.trace ++ [Event.unlink (cstr path) (os.unlink w.sys (cstr path)).1] }

/-- The call `rmdir( path )`; its result is not looked at. -/
def rmdir (os : Posix σ) (path : List Nat) (w : World σ) : World σ :=
  { w with sys := (os.rmdir w.sys (cstr path)).2
           trace := w.trace ++ [Event.rmdir (cstr path) (os.rmdir w.sys (cstr path)).1] }

/-- The three lambdas the `removeDirectory` template is instantiated with:
`[](){}` and the two that call `rmdir` on a path. -/
inductive Function where
  | nothing
  | rmdir (path : List Nat)
deriving DecidableEq, Repr

/-- The call `function()`. -/
def Function.call (os : Posix σ) : Function → World σ → World σ
  | Function.nothing, w => w
  | Function.rmdir path, w => Linux.rmdir os path w

/-- The members of the POSIX `directoryManager`; `m_continue` is null when
the manager was built without a flag. -/
structure directoryManager where
  m_path : String
  m_continue : Option Token := none

namespace directoryManager

/-- `directoryManager::read`: one `readdir`, and for a name that passes the
filter one `stat` on the composed path; a regular file goes to the files, a
directory to the folders, with `st_ctime` and with the name converted from
`const char *` to the `QString` that `addFile` and `addFolder` take.  The
result is what `read` returns, with the store, the path manager and the stream
as the call leaves them. -/
def read (os : Posix σ) (entries : directoryEntries) (mm : pathManager)
    (dir : List (List Nat)) (w : World σ) :
    Option (Bool × directoryEntries × pathManager × List (List Nat) × World σ) :=
  match readdir dir w with
  | (none, dir, w) => some (false, entries, mm, dir, w)
  | (some name, dir, w) =>
    if directoryEntries.valid_char name then
      match mm.setPath name with
      | none => none
      | some (mm, pp) =>
        match stat os pp w with
        | (some m, w) =>
          if S_ISREG m.st_mode then
            some (true, entries.addFile m.st_ctime (QString.fromUtf8 (cstr name)), mm, dir, w)
          else if S_ISDIR m.st_mode then
            some (true, entries.addFolder m.st_ctime (QString.fromUtf8 (cstr name)), mm, dir, w)
          else some (true, entries, mm, dir, w)
        | (none, w) => some (true, entries, mm, dir, w)
    else some (true, entries, mm, dir, w)

/-- The loops `while( *m_continue && this->read( ... ) ){}` and
`while( this->read( ... ) ){}` of `readAll`; `fuel` bounds the rounds. -/
def readAllLoop (os : Posix σ) (m_continue : Option Token) :
    Nat → directoryEntries → pathManager → List (List Nat) → World σ →
      Option (directoryEntries × World σ)
  | 0, _, _, _, _ => none
  | fuel + 1, entries, mm, dir, w =>
    match World.poll m_continue w with
    | (false, w) => some (entries, w)
    | (true, w) =>
      match read os entries mm dir w with
      | none => none
      | some (false, entries, _, _, w) => some (entries, w)
      | some (true, entries, mm, dir, w) => readAllLoop os m_continue fuel entries mm dir w

/-- `directoryManager::readAll`.  The loop gets one round for each name of
the stream and one for the `readdir` that finds it empty. -/
def readAll (os : Posix σ) (stdSort : directoryEntries.StdSort) (self : directoryManager)
    (w : World σ) : Option (directoryEntries × World σ) :=
  match opendir os (QString.toUtf8 self.m_path) (w.log Event.enter) with
  | (some dir, w) =>
    match pathManager.ofQString self.m_path with
    | none => none
    | some mm =>
      match readAllLoop os self.m_continue (dir.length + 1) {} mm dir w with
      | none => none
      | some (entries, w) =>
        some (entries.sort stdSort, (unique_rsc_release (some dir) w).log Event.leave)
  | (none, w) => some ({}, (unique_rsc_release none w).log Event.leave)

/-- `directoryManager::removePath`; `recurse` stands for the `removeDirectory`
template it calls on a directory.  The two `std::strcmp` compare the C string
`name` with "." (the byte 46) and with "..". -/
def removePath (os : Posix σ)
    (recurse : pathManager → Function → World σ → Option (World σ))
    (pm : pathManager) (name : List Nat) (w : World σ) : Option (pathManager × World σ) :=
  if cstr name != [46] && cstr name != [46, 46] then
    match pm.setPath name with
    | none => none
    | some (pm, pp) =>
      match stat os pp w with
      | (some m, w) =>
        if S_ISREG m.st_mode then some (pm, unlink os pp w)
        else if S_ISDIR m.st_mode then
          match pathManager.ofCString pp with
          | none => none
          | some child => (recurse child (Function.rmdir pp) w).map (fun w => (pm, w))
        else some (pm, w)
      | (none, w) => some (pm, w)
  else some (pm, w)

/-- The loops of the `removeDirectory` template: poll the flag (when there is
one), `readdir`, `removePath`, until the flag says stop or the stream ends. -/
def removeLoop (m_continue : Option Token)
    (rmPath : pathManager → List Nat → World σ → Option (pathManager × World σ)) :
    Nat → pathManager → List (List Nat) → World σ → Option (pathManager × World σ)
  | 0, _, _, _ => none
  | fuel + 1, pm, dir, w =>
    match World.poll m_continue w with
    | (false, w) => some (pm, w)
    | (true, w) =>
      match readdir dir w with
      | (none, _, w) => some (pm, w)
      | (some name, dir, w) =>
        match rmPath pm name w with
        | none => none
        | some (pm, w) => removeLoop m_continue rmPath fuel pm dir w

/-- The private template `removeDirectory( pathManager pm,Function function )`.
`depth` bounds the nesting of its calls; `none` is a run that needs more, or
one with undefined behaviour. -/
def removeDirectoryTemplate (os : Posix σ) (m_continue : Option Token) :
    Nat → pathManager → Function → World σ → Option (World σ)
  | 0, _, _, _ => none
  | depth + 1, pm, function, w =>
    match opendir os pm.path (w.log Event.enter) with
    | (some dir, w) =>
      match removeLoop m_continue
          (removePath os (removeDirectoryTemplate os m_continue depth))
          (dir.length + 1) pm dir w with
      | none => none
      | some (_, w) =>
        some ((unique_rsc_release (some dir) (function.call os w)).log Event.leave)
    | (none, w) => some ((unique_rsc_release none w).log Event.leave)

/-- The public `removeDirectoryContents()`. -/
def removeDirectoryContents (os : Posix σ) (self : directoryManager) (depth : Nat)
    (w : World σ) : Option (World σ) :=
  match pathManager.ofQString self.m_path with
  | none => none
  | some pm => removeDirectoryTemplate os self.m_continue depth pm Function.nothing w

/-- The public `removeDirectory()`. -/
def removeDirectory (os : Posix σ) (self : directoryManager) (depth : Nat)
    (w : World σ) : Option (World σ) :=
  match pathManager.ofQString self.m_path with
  | none => none
  | some pm =>
    removeDirectoryTemplate os self.m_continue depth pm
      (Function.rmdir (QString.toUtf8 self.m_path)) w

end directoryManager

end Linux

/-! ## A file system behind the POSIX calls

Files and directories are kept by their path.  The calls resolve the path
they are given (a trailing `/` is dropped) and behave as the POSIX calls do
on regular files and directories: `unlink` removes a file, `rmdir` removes a
directory with no entry left in it, and both fail otherwise. -/

/-- One file or directory: the path of the directory that holds it, its
name, its kind and its change time. -/
structure FsNode where
  dir : String
  name : String
  isDir : Bool
  ctime : Int := 0
deriving DecidableEq, Repr

/-- The path of a node. -/
def FsNode.path (n : FsNode) : String :=
  n.dir ++ "/" ++ n.name

/-- A file system: its nodes, in the order in which a directory lists them. -/
abbrev Fs := List FsNode

namespace Fs

/-- Drop one trailing `/`. -/
def stripSlash (p : List Nat) : List Nat :=
  if p.getLast? = some 47 then p.dropLast else p

/-- Path resolution: the node a path names. -/
def resolve (fs : Fs) (p : List Nat) : Option FsNode :=
  fs.find? (fun n => QString.toUtf8 n.path == stripSlash p)

/-- The nodes held by the directory `d`. -/
def children (fs : Fs) (d : FsNode) : List FsNode :=
  fs.filter (fun c => c.dir == d.path)

/-- The POSIX calls on this file system. -/
def posix : Posix Fs where
  opendir fs p :=
    match resolve fs p with
    | some d =>
      if d.isDir then
        (some ([46] :: [46, 46] :: (children fs d).map (fun c => QString.toUtf8 c.name)), fs)
      else (none, fs)
    | none => (none, fs)
  stat fs p :=
    match resolve fs p with
    | some n => (some ⟨if n.isDir then S_IFDIR + 0o755 else S_IFREG + 0o644, n.ctime⟩, fs)
    | none => (none, fs)
  unlink fs p :=
    match resolve fs p with
    | some n => if n.isDir then (false, fs) else (true, fs.filter (fun c => c != n))
    | none => (false, fs)
  rmdir fs p :=
    match resolve fs p with
    | some d =>
      if d.isDir && (children fs d).isEmpty then (true, fs.filter (fun c => c != d))
      else (false, fs)
    | none => (false, fs)

end Fs

/-! ## `directoryManager`, Windows variant -/

namespace Windows

variable {σ : Type}

/-- `QDir::toNativeSeparators` on Windows: every `/` becomes `\`. -/
def toNativeSeparators (path : String) : String :=
  String.mk (path.data.map (fun c => if c = '/' then '\\' else c))

/-- `directoryManager::setPath`: put the long-path prefix in front unless it
is there, and use native separators. -/
def setPath (path : String) : String :=
  toNativeSeparators
    (if "\\\\?\\".data.isPrefixOf path.data then path else "\\\\?\\" ++ path)

/-- The class `handle`: after the constructor either `INVALID_HANDLE_VALUE`
(`none`) or the record in `m_data` with the records still to come. -/
abbrev handle := Option (WIN32_FIND_DATAW × List WIN32_FIND_DATAW)

/-- The constructor `handle( std::wstring s )`: append the pattern, call
`FindFirstFileW`. -/
def handle.open (os : Win32 σ) (s : String) (w : World σ) : handle × World σ :=
  let pattern := if s.data.getLast? = some '\\' then s ++ "*" else s ++ "\\*"
  ((os.FindFirstFileW w.sys pattern).1,
    { w with sys := (os.FindFirstFileW w.sys pattern).2
             trace := w.trace ++ [Event.FindFirstFileW pattern
               ((os.FindFirstFileW w.sys pattern).1.map (fun r => r.1.cFileName))] })

/-- `handle::valid`. -/
def handle.valid (h : handle) : Bool :=
  h.isSome

/-- `handle::findNext`: `FindNextFileW` moves `m_data` to the next record, or
fails when there is none. -/
def handle.findNext (h : handle) (w : World σ) : Bool × handle × World σ :=
  match h with
  | some (_, next :: rest) =>
    (true, some (next, rest), w.log (Event.FindNextFileW (some next.cFileName)))
  | _ => (false, h, w.log (Event.FindNextFileW none))

/-- The destructor `~handle`: `FindClose( m_handle )`, whatever the handle is. -/
def handle.close (h : handle) (w : World σ) : World σ :=
  w.log (Event.FindClose h.isSome)

/-- The call `DeleteFileW( path )`; its result is not looked at. -/
def DeleteFileW (os : Win32 σ) (path : String) (w : World σ) : World σ :=
  { w with sys := (os.DeleteFileW w.sys path).2
           trace := w.trace ++ [Event.DeleteFileW path (os.DeleteFileW w.sys path).1] }

/-- The call `RemoveDirectoryW( path )`; its result is not looked at. -/
def RemoveDirectoryW (os : Win32 σ) (path : String) (w : World σ) : World σ :=
  { w with sys := (os.RemoveDirectoryW w.sys path).2
           trace := w.trace ++ [Event.RemoveDirectoryW path (os.RemoveDirectoryW w.sys path).1] }

/-- The three lambdas the `removeDirectory` template is instantiated with. -/
inductive Function where
  | nothing
  | RemoveDirectoryW (path : String)
deriving DecidableEq, Repr

/-- The call `function()`. -/
def Function.call (os : Win32 σ) : Function → World σ → World σ
  | Function.nothing, w => w
  | Function.RemoveDirectoryW path, w => Windows.RemoveDirectoryW os path w

/-- `LARGE_INTEGER::QuadPart` after `LowPart` and `HighPart` were set: the
signed 64-bit value of the two 32-bit halves. -/
def QuadPart (low high : Nat) : Int :=
  if (high % 2 ^ 32) * 2 ^ 32 + low % 2 ^ 32 < 2 ^ 63 then
    ((high % 2 ^ 32) * 2 ^ 32 + low % 2 ^ 32 : Nat)
  else ((high % 2 ^ 32) * 2 ^ 32 + low % 2 ^ 32 : Nat) - 2 ^ 64

/-- The members of the Windows `directoryManager`. -/
structure directoryManager where
  m_path : String
  m_continue : Option Token := none

namespace directoryManager

/-- `directoryManager::add`: a record whose name passes the filter goes to
the folders when it has the directory attribute and to the files when not. -/
def add (entries : directoryEntries) (data : WIN32_FIND_DATAW) : directoryEntries :=
  if directoryEntries.valid data.cFileName then
    if data.dwFileAttributes &&& FILE_ATTRIBUTE_DIRECTORY != 0 then
      entries.addFolder (QuadPart data.dwLowDateTime data.dwHighDateTime) data.cFileName
    else
      entries.addFile (QuadPart data.dwLowDateTime data.dwHighDateTime) data.cFileName
  else entries

/-- The lambda `_read` of `readAll`. -/
def _read (entries : directoryEntries) (h : handle) (w : World σ) :
    Bool × directoryEntries × handle × World σ :=
  match handle.findNext h w with
  | (true, some (data, rest), w) => (true, add entries data, some (data, rest), w)
  | (_, h, w) => (false, entries, h, w)

/-- The loops `while( *m_continue && _read( entries,h ) ){}` and
`while( _read( entries,h ) ){}` of `readAll`. -/
def readAllLoop (m_continue : Option Token) :
    Nat → directoryEntries → handle → World σ → Option (directoryEntries × handle × World σ)
  | 0, _, _, _ => none
  | fuel + 1, entries, h, w =>
    match World.poll m_continue w with
    | (false, w) => some (entries, h, w)
    | (true, w) =>
      match _read entries h w with
      | (false, entries, h, w) => some (entries, h, w)
      | (true, entries, h, w) => readAllLoop m_continue fuel entries h w

/-- `directoryManager::readAll`. -/
def readAll (os : Win32 σ) (stdSort : directoryEntries.StdSort) (self : directoryManager)
    (w : World σ) : Option (directoryEntries × World σ) :=
  match handle.open os self.m_path (w.log Event.enter) with
  | (some (data, rest), w) =>
    match readAllLoop self.m_continue (rest.length + 1) (add {} data) (some (data, rest)) w with
    | none => none
    | some (entries, h, w) => some (entries.sort stdSort, (handle.close h w).log Event.leave)
  | (none, w) => some ({}, (handle.close none w).log Event.leave)

/-- `directoryManager::removePath`; `recurse` stands for the `removeDirectory`
template it calls on a record with the directory attribute. -/
def removePath (os : Win32 σ) (recurse : String → Function → World σ → Option (World σ))
    (wpath : String) (name : String) (data : WIN32_FIND_DATAW) (w : World σ) :
    Option (World σ) :=
  if name != "." && name != ".." then
    if data.dwFileAttributes &&& FILE_ATTRIBUTE_DIRECTORY != 0 then
      recurse (wpath ++ "\\" ++ name) (Function.RemoveDirectoryW (wpath ++ "\\" ++ name)) w
    else some (DeleteFileW os (wpath ++ "\\" ++ name) w)
  else some w

/-- The loops of the `removeDirectory` template: poll the flag (when there is
one), `findNext`, `removePath`, until the flag says stop or the records end. -/
def removeLoop (m_continue : Option Token)
    (rmPath : String → WIN32_FIND_DATAW → World σ → Option (World σ)) :
    Nat → handle → World σ → Option (handle × World σ)
  | 0, _, _ => none
  | fuel + 1, h, w =>
    match World.poll m_continue w with
    | (false, w) => some (h, w)
    | (true, w) =>
      match handle.findNext h w with
      | (true, some (data, rest), w) =>
        match rmPath data.cFileName data w with
        | none => none
        | some w => removeLoop m_continue rmPath fuel (some (data, rest)) w
      | (_, h, w) => some (h, w)

/-- The private template `removeDirectory( std::wstring w,Function function )`.
The record that `FindFirstFileW` returned goes to `removePath` first, then the
loop runs.  `depth` bounds the nesting of its calls. -/
def removeDirectoryTemplate (os : Win32 σ) (m_continue : Option Token) :
    Nat → String → Function → World σ → Option (World σ)
  | 0, _, _, _ => none
  | depth + 1, wpath, function, w =>
    match handle.open os wpath (w.log Event.enter) with
    | (some (mm, rest), w) =>
      match removePath os (removeDirectoryTemplate os m_continue depth)
          wpath mm.cFileName mm w with
      | none => none
      | some w =>
        match removeLoop m_continue
            (removePath os (removeDirectoryTemplate os m_continue depth) wpath)
            (rest.length + 1) (some (mm, rest)) w with
        | none => none
        | some (h, w) => some ((handle.close h (function.call os w)).log Event.leave)
    | (none, w) => some ((handle.close none w).log Event.leave)

/-- The public `removeDirectoryContents()`. -/
def removeDirectoryContents (os : Win32 σ) (self : directoryManager) (depth : Nat)
    (w : World σ) : Option (World σ) :=
  removeDirectoryTemplate os self.m_continue depth self.m_path Function.nothing w

/-- The public `removeDirectory()`. -/
def removeDirectory (os : Win32 σ) (self : directoryManager) (depth : Nat)
    (w : World σ) : Option (World σ) :=
  removeDirectoryTemplate os self.m_continue depth self.m_path
    (Function.RemoveDirectoryW self.m_path) w

end directoryManager

/-- A Windows system that answers `FindFirstFileW` from a table of patterns
and records and lets every deletion succeed. -/
def tableSystem (table : List (String × List WIN32_FIND_DATAW)) : Win32 Unit where
  FindFirstFileW _ pattern :=
    match table.lookup pattern with
    | some (first :: rest) => (some (first, rest), ())
    | _ => (none, ())
  DeleteFileW _ _ := (true, ())
  RemoveDirectoryW _ _ := (true, ())

end Windows

/-! ## `directoryManager`, portable variant -/

namespace Portable

/-- What the Qt classes answer: `QDir( path ).entryList( f )`, the queries of
`QFileInfo` on a path, and `QDir::fromNativeSeparators`. -/
structure Qt where
  entryList : String → List String
  isFile : String → Bool
  isDir : String → Bool
  createdTime : String → Int
  fromNativeSeparators : String → String

/-- The members of the portable `directoryManager` (`m_fileInfo` is set
anew before every use and is not kept here). -/
structure directoryManager where
  m_counter : Nat := 0
  m_path : String
  m_list : List String
  m_entries : directoryEntries := {}

namespace directoryManager

/-- The constructors: `m_list( QDir( m_path ).entryList( f ) )`; a flag is
accepted and dropped. -/
def create (qt : Qt) (path : String) : directoryManager :=
  { m_path := path, m_list := qt.entryList path }

/-- `directoryManager::supportsCancel`. -/
def supportsCancel : Bool := false

/-- `directoryManager::read`. -/
def read (qt : Qt) (self : directoryManager) : Bool × directoryManager :=
  if h : self.m_counter < self.m_list.length then
    let m := self.m_list.get ⟨self.m_counter, h⟩
    let self := { self with m_counter := self.m_counter + 1 }
    if directoryEntries.valid m then
      if qt.isFile (self.m_path ++ "/" ++ m) then
        (true, { self with
          m_entries := (self.m_entries.addFile (qt.createdTime (self.m_path ++ "/" ++ m))
            (qt.fromNativeSeparators m)) })
      else if qt.isDir (self.m_path ++ "/" ++ m) then
        (true, { self with
          m_entries := (self.m_entries.addFolder (qt.createdTime (self.m_path ++ "/" ++ m))
            (qt.fromNativeSeparators m)) })
      else (true, self)
    else (true, self)
  else (false, self)

/-- The loop `while( this->read() ){}`. -/
def readAllLoop (qt : Qt) : Nat → directoryManager → Option directoryManager
  | 0, _ => none
  | fuel + 1, self =>
    match read qt self with
    | (false, self) => some self
    | (true, self) => readAllLoop qt fuel self

/-- `directoryManager::readAll`: run the loop, hand out `m_entries`. -/
def readAll (qt : Qt) (self : directoryManager) : Option directoryEntries :=
  (readAllLoop qt (self.m_list.length + 1) self).map (fun self => self.m_entries)

end directoryManager

end Portable

/-! ## Definitions used by the statements -/

namespace Linux

/-- A system whose `opendir` hands out the stream `names` and whose `stat`
answers by the path it is asked about; nothing can be removed in it. -/
def listingSystem (names : List (List Nat)) (outcome : List Nat → Option Stat) :
    Posix Unit where
  opendir _ _ := (some names, ())
  stat _ path := (outcome path, ())
  unlink _ _ := (false, ())
  rmdir _ _ := (false, ())

/-- The path of the entry `name` of the directory `dir`, as the
specification means it: the path of the directory, one separator unless the
path ends in one, and the name. -/
def entryPath (dir : String) (name : List Nat) : List Nat :=
  pathManager.basePrefix dir ++ name

/-- The outcome of the metadata query of the entry `name` of `dir`: what
`stat` answers for the path of the entry. -/
def queryOutcome (outcome : List Nat → Option Stat) (dir : String) (name : List Nat) :
    Option Stat :=
  outcome (entryPath dir name)

/-- The query for `name` succeeded and reported a regular file. -/
def reportsFile (outcome : List Nat → Option Stat) (dir : String) (name : List Nat) : Bool :=
  match queryOutcome outcome dir name with
  | some m => S_ISREG m.st_mode
  | none => false

/-- The query for `name` succeeded and reported a directory. -/
def reportsFolder (outcome : List Nat → Option Stat) (dir : String) (name : List Nat) : Bool :=
  match queryOutcome outcome dir name with
  | some m => S_ISDIR m.st_mode
  | none => false

/-- A sample answer of `stat`: `/d/a.txt` is a regular file, `/d/sub` a
directory, `/d/pipe` something else, and every other path does not exist. -/
def sampleOutcome (path : List Nat) : Option Stat :=
  if path = QString.toUtf8 "/d/a.txt" then some ⟨S_IFREG + 0o644, 5⟩
  else if path = QString.toUtf8 "/d/sub" then some ⟨S_IFDIR + 0o755, 6⟩
  else if path = QString.toUtf8 "/d/pipe" then some ⟨0o010644, 7⟩
  else none

/-- The stream of the sample directory `/d`: ".", "..", `a.txt`, `sub`,
`pipe` and `gone`. -/
def sampleNames : List (List Nat) :=
  [".", "..", "a.txt", "sub", "pipe", "gone"].map QString.toUtf8

/-- An answer of `stat` by which every path is a regular file. -/
def allFiles (_ : List Nat) : Option Stat :=
  some ⟨S_IFREG + 0o644, 0⟩

/-- The entry of a regular file or of a directory that the store gets for
the name `name` of the directory `dir`; nothing for "." and "..", for a query
that fails, and for anything that is neither. -/
def classify (outcome : List Nat → Option Stat) (dir : String)
    (entries : directoryEntries) (name : List Nat) : directoryEntries :=
  if name != [46] && name != [46, 46] then
    match queryOutcome outcome dir name with
    | some m =>
      if S_ISREG m.st_mode then entries.addFile m.st_ctime (QString.fromUtf8 name)
      else if S_ISDIR m.st_mode then entries.addFolder m.st_ctime (QString.fromUtf8 name)
      else entries
    | none => entries
  else entries

end Linux

/-- The tree of the specification: `/root` holds `a.txt` and `sub`, and
`sub` holds `b.txt`. -/
def sampleTree : Fs :=
  [⟨"", "root", true, 0⟩, ⟨"/root", "a.txt", false, 5⟩, ⟨"/root", "sub", true, 6⟩,
    ⟨"/root/sub", "b.txt", false, 7⟩]

/-- The directory `/é` with the one file `a.txt`, and beside the directory
a file named `éa.txt`. -/
def accentTree : Fs :=
  [⟨"", "é", true, 0⟩, ⟨"/é", "a.txt", false, 5⟩, ⟨"", "éa.txt", false, 6⟩]

/-- The directory `/é` with the one file `a.txt`, and nothing else. -/
def accentOnly : Fs :=
  [⟨"", "é", true, 0⟩, ⟨"/é", "a.txt", false, 5⟩]

/-- The directory `/é` with the one file `a.txt`, and beside the directory
a directory named `éa.txt`. -/
def accentFolder : Fs :=
  [⟨"", "é", true, 0⟩, ⟨"/é", "a.txt", false, 5⟩, ⟨"", "éa.txt", true, 6⟩]

/-- The directory `/d` with the one file `a.txt`. -/
def oneFileTree : Fs :=
  [⟨"", "d", true, 0⟩, ⟨"/d", "a.txt", false, 5⟩]

/-- The events that remove something. -/
def Event.removal : Event → Bool
  | Event.unlink _ _ => true
  | Event.rmdir _ _ => true
  | Event.DeleteFileW _ _ => true
  | Event.RemoveDirectoryW _ _ => true
  | _ => false

/-- The root of a drive as Windows lists it: one file `a.txt`, and no
records for "." and "..". -/
def driveRoot : Win32 Unit :=
  Windows.tableSystem [("\\\\?\\D:\\*", [⟨0x20, 5, 0, "a.txt"⟩])]

/-- Answers of the Qt classes for a directory `/d` that lists the files `a`
and `b`, `a` created at time 1 and `b` at time 2. -/
def twoFilesQt : Portable.Qt where
  entryList _ := ["a", "b"]
  isFile _ := true
  isDir _ := false
  createdTime p := if p = "/d/a" then 1 else 2
  fromNativeSeparators m := m

/-- The handle discipline, checked along a sequence of events: `active`
counts the calls of `readAll` and of the `removeDirectory` template that have
started and not returned, `opened` the directory handles that are open.  The
check fails when a handle is opened beyond one for each active call, when a
handle is closed that is not open, or when a call returns while a handle of its
own is open; it gives the two counts at the end. -/
def handleScan : Nat → Nat → List Event → Option (Nat × Nat)
  | active, opened, [] => some (active, opened)
  | active, opened, Event.enter :: t => handleScan (active + 1) opened t
  | active, opened, Event.leave :: t =>
    if 0 < active ∧ opened ≤ active - 1 then handleScan (active - 1) opened t else none
  | active, opened, Event.opendir _ true :: t =>
    if opened + 1 ≤ active then handleScan active (opened + 1) t else none
  | active, opened, Event.FindFirstFileW _ (some _) :: t =>
    if opened + 1 ≤ active then handleScan active (opened + 1) t else none
  | active, opened, Event.closedir :: t =>
    if 0 < opened then handleScan active (opened - 1) t else none
  | active, opened, Event.FindClose true :: t =>
    if 0 < opened then handleScan active (opened - 1) t else none
  | active, opened, _ :: t => handleScan active opened t

/-- The events that neither start or end a call nor open or close a handle. -/
def Event.inert : Event → Bool
  | Event.enter => false
  | Event.leave => false
  | Event.opendir _ true => false
  | Event.FindFirstFileW _ (some _) => false
  | Event.closedir => false
  | Event.FindClose true => false
  | _ => true

/-- A sequence of events that keeps the discipline from any state that keeps
it, and ends in the state it started from. -/
def Neutral (t : List Event) : Prop :=
  ∀ active opened, opened ≤ active → handleScan active opened t = some (active, opened)

/-- The run from `w` to `w'` added a neutral sequence of events. -/
def Extends {σ : Type} (w w' : World σ) : Prop :=
  ∃ t, w'.trace = w.trace ++ t ∧ Neutral t

/-- The events that may follow a poll that read "stop": further polls that
read "stop", the removal of a directory whose processing had begun, and the
release of handles and return of calls. -/
def Event.allowedAfterStop : Event → Bool
  | Event.poll false => true
  | Event.rmdir _ _ => true
  | Event.closedir => true
  | Event.leave => true
  | Event.RemoveDirectoryW _ _ => true
  | Event.FindClose _ => true
  | _ => false

/-- The cancellation discipline, checked along a sequence of events.
`stopped` says that a poll has read "stop", `fresh` that the last event was a
poll that read "continue".  The check fails when a directory entry is handed
out (by `readdir`, `FindNextFileW`, or `FindFirstFileW` with its first record)
and the event before was not a poll that read "continue", when a poll reads
"continue" after one read "stop", and when anything but an event of
`allowedAfterStop` follows a poll that read "stop". -/
def cancelScan : Bool → Bool → List Event → Option (Bool × Bool)
  | stopped, fresh, [] => some (stopped, fresh)
  | stopped, _, Event.poll true :: t => if stopped then none else cancelScan false true t
  | _, _, Event.poll false :: t => cancelScan true false t
  | stopped, fresh, Event.readdir _ :: t =>
    if fresh && !stopped then cancelScan false false t else none
  | stopped, fresh, Event.FindNextFileW _ :: t =>
    if fresh && !stopped then cancelScan false false t else none
  | stopped, fresh, Event.FindFirstFileW _ (some _) :: t =>
    if fresh && !stopped then cancelScan false false t else none
  | stopped, _, e :: t =>
    if stopped && !e.allowedAfterStop then none else cancelScan stopped false t

/-- The events that neither read the flag nor hand out a directory entry. -/
def Event.plain : Event → Bool
  | Event.poll _ => false
  | Event.readdir _ => false
  | Event.FindNextFileW _ => false
  | Event.FindFirstFileW _ (some _) => false
  | _ => true

/-- The run from `w` to `w'` read no flag and no directory entry. -/
def Plain {σ : Type} (w w' : World σ) : Prop :=
  ∃ t, w'.trace = w.trace ++ t ∧ w'.polls = w.polls ∧ ∀ e ∈ t, e.plain = true

/-- The run from `w` to `w'` only did what may follow a "stop". -/
def Late {σ : Type} (w w' : World σ) : Prop :=
  ∃ t, w'.trace = w.trace ++ t ∧ w'.polls = w.polls ∧
    ∀ e ∈ t, e.plain = true ∧ e.allowedAfterStop = true

/-- The flag keeps reading "stop" once it has read "stop". -/
def Token.Monotone (token : Token) : Prop :=
  ∀ k, token k = false → token (k + 1) = false

/-- The state `stopped` of the check agrees with the flag: when a poll has
read "stop", the next poll will. -/
def StopSeen {σ : Type} (token : Token) (stopped : Bool) (w : World σ) : Prop :=
  stopped = true → token w.polls = false

/-- The run from `w` to `w'` added events that pass the cancellation check
from every state in which no poll has read "stop" yet. -/
def Respects {σ : Type} (token : Token) (w w' : World σ) : Prop :=
  ∃ t, w'.trace = w.trace ++ t ∧ ∀ fresh, ∃ r,
    cancelScan false fresh t = some r ∧ StopSeen token r.1 w'

/-- The run from `w` to `w'` added events that pass the cancellation check
from every state that agrees with the flag. -/
def RespectsAlways {σ : Type} (token : Token) (w w' : World σ) : Prop :=
  ∃ t, w'.trace = w.trace ++ t ∧ ∀ stopped fresh, StopSeen token stopped w → ∃ r,
    cancelScan stopped fresh t = some r ∧ StopSeen token r.1 w'

/-- The events of a call made with nothing active and no handle open keep the
discipline at every step and end with every handle closed. -/
def HandleDiscipline (t : List Event) : Prop :=
  handleScan 0 0 t = some (0, 0)

/-! ## Directory trees -/

mutual
/-- A regular file with its change time, or a directory with its entries. -/
inductive FsTree where
  | file (name : String) (ctime : Int)
  | dir (name : String) (children : FsForest)
/-- The entries of a directory, in the order in which the directory lists them. -/
inductive FsForest where
  | nil
  | cons (head : FsTree) (tail : FsForest)
end

/-- The name of an entry. -/
def FsTree.name : FsTree → String
  | FsTree.file name _ => name
  | FsTree.dir name _ => name

/-- The names of the entries of a directory. -/
def FsForest.names : FsForest → List String
  | FsForest.nil => []
  | FsForest.cons t ts => t.name :: ts.names

mutual
/-- The nodes of a tree placed in the directory `parent`: a directory comes
before what it holds. -/
def FsTree.layout (parent : String) : FsTree → Fs
  | FsTree.file name ctime => [⟨parent, name, false, ctime⟩]
  | FsTree.dir name children =>
    ⟨parent, name, true, 0⟩ :: children.layout (parent ++ "/" ++ name)
/-- The nodes of the entries of the directory `parent`. -/
def FsForest.layout (parent : String) : FsForest → Fs
  | FsForest.nil => []
  | FsForest.cons t ts => t.layout parent ++ ts.layout parent
end

mutual
/-- The removals that delete a tree in post-order: what a directory holds,
entry by entry, and then the directory. -/
def FsTree.removals (parent : String) : FsTree → List Event
  | FsTree.file name _ => [Event.unlink (QString.toUtf8 (parent ++ "/" ++ name)) true]
  | FsTree.dir name children =>
    children.removals (parent ++ "/" ++ name)
      ++ [Event.rmdir (QString.toUtf8 (parent ++ "/" ++ name)) true]
/-- The removals that delete the entries of the directory `parent` in order. -/
def FsForest.removals (parent : String) : FsForest → List Event
  | FsForest.nil => []
  | FsForest.cons t ts => t.removals parent ++ ts.removals parent
end

mutual
/-- The number of nested directories of a tree. -/
def FsTree.height : FsTree → Nat
  | FsTree.file _ _ => 0
  | FsTree.dir _ children => children.height + 1
/-- The largest height among the entries. -/
def FsForest.height : FsForest → Nat
  | FsForest.nil => 0
  | FsForest.cons t ts => max t.height ts.height
end

/-- A name an entry can have: ASCII, not empty, without `/`, and neither
"." nor "..". -/
def nameOk (name : String) : Prop :=
  QString.isAscii name ∧ name.data ≠ [] ∧ '/' ∉ name.data ∧ name ≠ "." ∧ name ≠ ".."

mutual
/-- A tree placed in `parent` whose names are entry names, whose paths fit
the path buffer (a file path has fewer than `PATH_MAX` bytes, a directory path
leaves room for the separator as well), and whose directories hold no name
twice. -/
def FsTree.ok (parent : String) : FsTree → Prop
  | FsTree.file name _ => nameOk name ∧ QString.size (parent ++ "/" ++ name) < PATH_MAX
  | FsTree.dir name children =>
    nameOk name ∧ QString.size (parent ++ "/" ++ name) + 1 < PATH_MAX ∧
      children.ok (parent ++ "/" ++ name)
/-- The entries of `parent` are such trees and have pairwise distinct names. -/
def FsForest.ok (parent : String) : FsForest → Prop
  | FsForest.nil => True
  | FsForest.cons t ts => t.ok parent ∧ t.name ∉ ts.names ∧ ts.ok parent
end

/-- The path `s` lies strictly below the directory path `P`. -/
def Under (P s : String) : Prop :=
  ∃ r : List Char, s.data = P.data ++ '/' :: r

/-- The path `s` is the directory path `Q` or lies below it. -/
def AtOrUnder (Q s : String) : Prop :=
  s = Q ∨ Under Q s

/-- A node whose directory path and name are ASCII. -/
def NodeAscii (m : FsNode) : Prop :=
  QString.isAscii m.dir ∧ QString.isAscii m.name

/-- The nodes of `L` are ASCII and none of them lies strictly below `P`. -/
def Outside (P : String) (L : Fs) : Prop :=
  ∀ a ∈ L, NodeAscii a ∧ ¬ Under P a.path

/-- The entries of the root in the tree of the specification: `a.txt` and
`sub`, which holds `b.txt`. -/
def specTree : FsForest :=
  FsForest.cons (FsTree.file "a.txt" 5)
    (FsForest.cons (FsTree.dir "sub" (FsForest.cons (FsTree.file "b.txt" 7) FsForest.nil))
      FsForest.nil)

/-! # Theorems -/

namespace directoryEntries

/-! ## The comparator and the two reference sorts -/

theorem sortLambda_strictWeak : StrictWeakOrdering sortLambda := by
  refine ⟨?_, ?_, ?_⟩
  · intro a; simp [sortLambda]
  · intro a b c h1 h2
    simp only [sortLambda, decide_eq_true_eq] at *
    omega
  · intro a b c h1 h2 h3 h4
    simp only [sortLambda, decide_eq_false_iff_not, not_lt] at *
    constructor <;> omega

theorem strictWeak_asymm {comp : entry → entry → Bool} (h : StrictWeakOrdering comp)
    (a b : entry) (hab : comp a b = true) : comp b a = false := by
  cases hba : comp b a with
  | false => rfl
  | true =>
    have := h.2.1 a b a hab hba
    rw [h.1 a] at this
    exact absurd this (by simp)

theorem strictWeak_negTrans {comp : entry → entry → Bool} (h : StrictWeakOrdering comp)
    (a b c : entry) (hba : comp b a = false) (hcb : comp c b = false) : comp c a = false := by
  cases hca : comp c a with
  | false => rfl
  | true =>
    cases hbc : comp b c with
    | true =>
      have := h.2.1 b c a hbc hca
      rw [hba] at this
      exact absurd this (by simp)
    | false =>
      cases hab : comp a b with
      | true =>
        have := h.2.1 c a b hca hab
        rw [hcb] at this
        exact absurd this (by simp)
      | false =>
        have := (h.2.2 a b c hab hba hbc hcb).2
        rw [hca] at this
        exact absurd this (by simp)

theorem insertionSort_sorted_of_strictWeak {comp : entry → entry → Bool}
    (h : StrictWeakOrdering comp) (xs : List entry) :
    (List.insertionSort (fun a b => comp b a = false) xs).Pairwise
      (fun a b => comp b a = false) := by
  haveI : IsTotal entry (fun a b => comp b a = false) := ⟨fun a b => by
    cases hba : comp b a with
    | false => exact Or.inl rfl
    | true => exact Or.inr (strictWeak_asymm h b a hba)⟩
  haveI : IsTrans entry (fun a b => comp b a = false) :=
    ⟨fun a b c hab hbc => strictWeak_negTrans h a b c hab hbc⟩
  exact List.sorted_insertionSort (fun a b => comp b a = false) xs

theorem insertionStdSort_contract : StdSortContract insertionStdSort where
  perm := fun comp xs _ => List.perm_insertionSort (fun a b => comp b a = false) xs
  sorted := fun _ xs h => insertionSort_sorted_of_strictWeak h xs

theorem reversingStdSort_contract : StdSortContract reversingStdSort where
  perm := fun comp xs _ =>
    (List.perm_insertionSort (fun a b => comp b a = false) xs.reverse).trans
      (List.reverse_perm xs)
  sorted := fun _ xs h => insertionSort_sorted_of_strictWeak h xs.reverse

end directoryEntries

namespace directoryEntries

/-! ## `sort()` -/

theorem descending_of_sorted {l : List entry}
    (h : l.Pairwise (fun a b => sortLambda b a = false)) :
    l.Pairwise (fun a b => b.dateCreated ≤ a.dateCreated) := by
  refine h.imp ?_
  intro a b hab
  simpa [sortLambda] using hab

theorem adjacent_of_pairwise {l : List entry}
    (h : l.Pairwise (fun a b => b.dateCreated ≤ a.dateCreated)) : AdjacentDescending l := by
  intro i hi
  exact (List.pairwise_iff_get.mp h) ⟨i, Nat.lt_of_succ_lt hi⟩ ⟨i + 1, hi⟩ (by simp)

theorem stdSort_descending {stdSort : StdSort} (h : StdSortContract stdSort) (l : List entry) :
    (stdSort sortLambda l).Pairwise (fun a b => b.dateCreated ≤ a.dateCreated) :=
  descending_of_sorted (h.sorted sortLambda l sortLambda_strictWeak)

/-- Two descending arrangements of the same entries carry the same sequence of
timestamps. -/
theorem dates_eq_of_perm_of_descending {l₁ l₂ : List entry} (hp : l₁.Perm l₂)
    (h₁ : l₁.Pairwise (fun a b => b.dateCreated ≤ a.dateCreated))
    (h₂ : l₂.Pairwise (fun a b => b.dateCreated ≤ a.dateCreated)) :
    l₁.map entry.dateCreated = l₂.map entry.dateCreated := by
  have s₁ : (l₁.map entry.dateCreated).Sorted (fun x y : Int => y ≤ x) :=
    List.pairwise_map.mpr h₁
  have s₂ : (l₂.map entry.dateCreated).Sorted (fun x y : Int => y ≤ x) :=
    List.pairwise_map.mpr h₂
  haveI : IsAntisymm Int (fun x y : Int => y ≤ x) := ⟨fun a b h1 h2 => le_antisymm h2 h1⟩
  exact List.eq_of_perm_of_sorted (hp.map _) s₁ s₂

theorem eq_of_map_eq_of_injOn {α β : Type} (f : α → β) :
    ∀ (l₁ l₂ : List α), l₁.map f = l₂.map f →
      (∀ x ∈ l₁, ∀ y ∈ l₂, f x = f y → x = y) → l₁ = l₂
  | [], [], _, _ => rfl
  | [], _ :: _, h, _ => by simp at h
  | _ :: _, [], h, _ => by simp at h
  | a :: l₁, b :: l₂, h, inj => by
    simp only [List.map_cons, List.cons.injEq] at h
    have hab : a = b := inj a (List.mem_cons_self _ _) b (List.mem_cons_self _ _) h.1
    have ht : l₁ = l₂ := eq_of_map_eq_of_injOn f l₁ l₂ h.2
      (fun x hx y hy => inj x (List.mem_cons_of_mem _ hx) y (List.mem_cons_of_mem _ hy))
    rw [hab, ht]

/-- Two descending arrangements of the same entries are equal when the
timestamps are pairwise distinct. -/
theorem eq_of_perm_of_descending_of_nodup {l₁ l₂ : List entry} (hp : l₁.Perm l₂)
    (h₁ : l₁.Pairwise (fun a b => b.dateCreated ≤ a.dateCreated))
    (h₂ : l₂.Pairwise (fun a b => b.dateCreated ≤ a.dateCreated))
    (hn : (l₂.map entry.dateCreated).Nodup) : l₁ = l₂ := by
  refine eq_of_map_eq_of_injOn entry.dateCreated l₁ l₂
    (dates_eq_of_perm_of_descending hp h₁ h₂) ?_
  intro x hx y hy hxy
  exact List.inj_on_of_nodup_map hn (hp.subset hx) hy hxy

/-- C3: after `sort()` each of the two sequences is a permutation of what it
was before the call (so no entry changes sequence) and is descending by
timestamp, both for adjacent entries and for every earlier/later pair, whatever
implementation of `std::sort` meeting the standard's contract is linked. -/
theorem sort_perm_descending (stdSort : StdSort) (hs : StdSortContract stdSort)
    (s : directoryEntries) :
    (s.sort stdSort).m_folders.Perm s.m_folders ∧
    (s.sort stdSort).m_files.Perm s.m_files ∧
    AdjacentDescending (s.sort stdSort).m_folders ∧
    AdjacentDescending (s.sort stdSort).m_files ∧
    (s.sort stdSort).m_folders.Pairwise (fun a b => b.dateCreated ≤ a.dateCreated) ∧
    (s.sort stdSort).m_files.Pairwise (fun a b => b.dateCreated ≤ a.dateCreated) :=
  ⟨hs.perm _ _ sortLambda_strictWeak, hs.perm _ _ sortLambda_strictWeak,
    adjacent_of_pairwise (stdSort_descending hs _),
    adjacent_of_pairwise (stdSort_descending hs _),
    stdSort_descending hs _, stdSort_descending hs _⟩

/-- Witness of C3: insertion sort as `std::sort`, on a store with a tie. -/
theorem sort_perm_descending_witness :
    StdSortContract insertionStdSort ∧
    (sort insertionStdSort ⟨[⟨1, "x"⟩, ⟨3, "y"⟩], [⟨5, "a"⟩, ⟨9, "b"⟩, ⟨5, "c"⟩]⟩
      = ⟨[⟨3, "y"⟩, ⟨1, "x"⟩], [⟨9, "b"⟩, ⟨5, "a"⟩, ⟨5, "c"⟩]⟩) ∧
    AdjacentDescending
      (sort insertionStdSort ⟨[⟨1, "x"⟩, ⟨3, "y"⟩], [⟨5, "a"⟩, ⟨9, "b"⟩, ⟨5, "c"⟩]⟩).m_files :=
  ⟨insertionStdSort_contract, by decide,
    (sort_perm_descending insertionStdSort insertionStdSort_contract
      ⟨[⟨1, "x"⟩, ⟨3, "y"⟩], [⟨5, "a"⟩, ⟨9, "b"⟩, ⟨5, "c"⟩]⟩).2.2.2.1⟩

/-- C6, refuted as stated: an implementation of `std::sort` that meets the
standard's contract, and a store with two files of equal timestamp, for which a
second `sort()` does not leave the files as the first one did. -/
theorem sort_twice_differs_on_ties :
    StdSortContract reversingStdSort ∧
    sort reversingStdSort (sort reversingStdSort ⟨[], [⟨1, "a"⟩, ⟨1, "b"⟩]⟩)
      ≠ sort reversingStdSort ⟨[], [⟨1, "a"⟩, ⟨1, "b"⟩]⟩ :=
  ⟨reversingStdSort_contract, by decide⟩

/-- C6, amended: a second `sort()` keeps in each sequence the entries and the
sequence of timestamps that the first one produced, and leaves exactly as it
was every sequence whose timestamps are pairwise distinct. -/
theorem sort_idempotent_up_to_ties (stdSort : StdSort) (hs : StdSortContract stdSort)
    (s : directoryEntries) :
    ((s.sort stdSort).sort stdSort).m_folders.Perm (s.sort stdSort).m_folders ∧
    ((s.sort stdSort).sort stdSort).m_files.Perm (s.sort stdSort).m_files ∧
    ((s.sort stdSort).sort stdSort).m_folders.map entry.dateCreated
      = (s.sort stdSort).m_folders.map entry.dateCreated ∧
    ((s.sort stdSort).sort stdSort).m_files.map entry.dateCreated
      = (s.sort stdSort).m_files.map entry.dateCreated ∧
    ((s.m_folders.map entry.dateCreated).Nodup →
      ((s.sort stdSort).sort stdSort).m_folders = (s.sort stdSort).m_folders) ∧
    ((s.m_files.map entry.dateCreated).Nodup →
      ((s.sort stdSort).sort stdSort).m_files = (s.sort stdSort).m_files) := by
  have pf := hs.perm sortLambda (stdSort sortLambda s.m_folders) sortLambda_strictWeak
  have pg := hs.perm sortLambda (stdSort sortLambda s.m_files) sortLambda_strictWeak
  have df := stdSort_descending hs s.m_folders
  have dg := stdSort_descending hs s.m_files
  have df2 := stdSort_descending hs (stdSort sortLambda s.m_folders)
  have dg2 := stdSort_descending hs (stdSort sortLambda s.m_files)
  refine ⟨pf, pg, dates_eq_of_perm_of_descending pf df2 df,
    dates_eq_of_perm_of_descending pg dg2 dg, ?_, ?_⟩
  · intro hn
    refine eq_of_perm_of_descending_of_nodup pf df2 df ?_
    exact ((hs.perm sortLambda s.m_folders sortLambda_strictWeak).map _).nodup_iff.mpr hn
  · intro hn
    refine eq_of_perm_of_descending_of_nodup pg dg2 dg ?_
    exact ((hs.perm sortLambda s.m_files sortLambda_strictWeak).map _).nodup_iff.mpr hn

/-- Witness of the amended C6: with insertion sort as `std::sort`, a store
with distinct timestamps is a fixed point of a second `sort()`. -/
theorem sort_idempotent_up_to_ties_witness :
    StdSortContract insertionStdSort ∧
    (([⟨2, "p"⟩, ⟨7, "q"⟩] : List entry).map entry.dateCreated).Nodup ∧
    ((sort insertionStdSort (sort insertionStdSort ⟨[], [⟨2, "p"⟩, ⟨7, "q"⟩]⟩)).m_files
      = (sort insertionStdSort ⟨[], [⟨2, "p"⟩, ⟨7, "q"⟩]⟩).m_files) :=
  ⟨insertionStdSort_contract, by decide,
    (sort_idempotent_up_to_ties insertionStdSort insertionStdSort_contract
      ⟨[], [⟨2, "p"⟩, ⟨7, "q"⟩]⟩).2.2.2.2.2 (by decide)⟩

end directoryEntries

namespace directoryEntries

/-! ## The cursor -/

theorem iter.drain_from (e : List entry) :
    ∀ (k p fuel : Nat), p + k = e.length → k ≤ fuel →
      iter.drain fuel ⟨p, some e⟩ = some ((e.drop p).map entry.path, ⟨e.length, some e⟩)
  | 0, p, fuel, hp, _ => by
    have hpe : p = e.length := by omega
    subst hpe
    cases fuel <;> simp [iter.drain, iter.hasNext]
  | k + 1, p, 0, _, hf => by omega
  | k + 1, p, fuel + 1, hp, hf => by
    have hlt : p < e.length := by omega
    have ih := iter.drain_from e k (p + 1) fuel (by omega) (by omega)
    unfold iter.drain
    simp only [iter.hasNext, Option.map_some', hlt, decide_True, iter.valueWithNext,
      List.get?_eq_getElem?, List.getElem?_eq_getElem hlt, ih]
    rw [List.drop_eq_getElem_cons hlt, List.map_cons]

/-- C7: driven by `valueWithNext()` while `hasNext()` holds, the cursor of
`fileIter()` (of `directoryIter()`) yields the paths of the file (folder)
sequence, each once and in sequence order; every read is in range (the loop
never meets an out-of-range read, which the embedding reports as `none`); the
cursor it ends on answers `hasNext() == false`; and on an empty sequence
`hasNext()` is false at once. -/
theorem cursor_yields_sequence (s : directoryEntries) :
    (∀ fuel, s.m_files.length ≤ fuel →
      iter.drain fuel s.fileIter
        = some (s.m_files.map entry.path, ⟨s.m_files.length, some s.m_files⟩)) ∧
    (∀ fuel, s.m_folders.length ≤ fuel →
      iter.drain fuel s.directoryIter
        = some (s.m_folders.map entry.path, ⟨s.m_folders.length, some s.m_folders⟩)) ∧
    iter.hasNext ⟨s.m_files.length, some s.m_files⟩ = some false ∧
    iter.hasNext ⟨s.m_folders.length, some s.m_folders⟩ = some false ∧
    (∀ p, p < s.m_files.length →
      iter.hasNext ⟨p, some s.m_files⟩ = some true ∧
      (iter.value ⟨p, some s.m_files⟩).isSome = true) ∧
    (∀ p, p < s.m_folders.length →
      iter.hasNext ⟨p, some s.m_folders⟩ = some true ∧
      (iter.value ⟨p, some s.m_folders⟩).isSome = true) ∧
    (s.m_files = [] → s.fileIter.hasNext = some false) ∧
    (s.m_folders = [] → s.directoryIter.hasNext = some false) := by
  refine ⟨?_, ?_, ?_, ?_, ?_, ?_, ?_, ?_⟩
  · intro fuel hf
    simpa [fileIter] using iter.drain_from s.m_files s.m_files.length 0 fuel (by omega) hf
  · intro fuel hf
    simpa [directoryIter] using
      iter.drain_from s.m_folders s.m_folders.length 0 fuel (by omega) hf
  · simp [iter.hasNext]
  · simp [iter.hasNext]
  · intro p hp
    simp [iter.hasNext, iter.value, hp, List.getElem?_eq_getElem hp]
  · intro p hp
    simp [iter.hasNext, iter.value, hp, List.getElem?_eq_getElem hp]
  · intro h
    simp [fileIter, iter.hasNext, h]
  · intro h
    simp [directoryIter, iter.hasNext, h]

end directoryEntries

/-! ## `pathManager` -/

namespace QString

theorem utf8Bytes_ascii {c : Char} (h : c.toNat < 0x80) : utf8Bytes c = [c.toNat] := by
  simp [utf8Bytes, h]

theorem utf16Units_ascii {c : Char} (h : c.toNat < 0x80) : utf16Units c = 1 := by
  have : c.toNat < 0x10000 := by omega
  simp [utf16Units, this]

theorem flatten_utf8_ascii : ∀ (l : List Char), (∀ c ∈ l, 0 < c.toNat ∧ c.toNat < 0x80) →
    (l.map utf8Bytes).flatten = l.map Char.toNat
  | [], _ => rfl
  | c :: l, h => by
    have hc := h c (List.mem_cons_self _ _)
    have ih := flatten_utf8_ascii l (fun d hd => h d (List.mem_cons_of_mem _ hd))
    simp [utf8Bytes_ascii hc.2, ih]

theorem sum_utf16_ascii : ∀ (l : List Char), (∀ c ∈ l, 0 < c.toNat ∧ c.toNat < 0x80) →
    (l.map utf16Units).sum = l.length
  | [], _ => rfl
  | c :: l, h => by
    have hc := h c (List.mem_cons_self _ _)
    have ih := sum_utf16_ascii l (fun d hd => h d (List.mem_cons_of_mem _ hd))
    simp [utf16Units_ascii hc.2, ih]
    omega

theorem toUtf8_ascii {s : String} (h : isAscii s) : toUtf8 s = s.data.map Char.toNat :=
  flatten_utf8_ascii s.data h

theorem size_ascii {s : String} (h : isAscii s) : size s = s.data.length :=
  sum_utf16_ascii s.data h

theorem toUtf8_ascii_length {s : String} (h : isAscii s) : (toUtf8 s).length = size s := by
  rw [toUtf8_ascii h, size_ascii h, List.length_map]

theorem toUtf8_ascii_ne_zero {s : String} (h : isAscii s) : ∀ b ∈ toUtf8 s, b ≠ 0 := by
  rw [toUtf8_ascii h]
  intro b hb
  obtain ⟨c, hc, rfl⟩ := List.mem_map.mp hb
  have := (h c hc).1
  omega

end QString

theorem cstr_eq_self {l : List Nat} (h : ∀ b ∈ l, b ≠ 0) : cstr l = l := by
  unfold cstr
  rw [List.takeWhile_eq_self_iff]
  intro b hb
  simpa using h b hb

namespace pathManager

theorem append_inside (buf : List Nat) (s : Nat) (data : List Nat) (hs : s < PATH_MAX) :
    append buf s data
      = some (if s ≤ buf.length then buf.take s ++ (cstr data).take (PATH_MAX - 1 - s)
              else buf) := by
  have h64 : s % 2 ^ 64 = s := Nat.mod_eq_of_lt (by unfold PATH_MAX at hs; omega)
  have hn : (PATH_MAX + 2 ^ 64 - s % 2 ^ 64) % 2 ^ 64 = PATH_MAX - s := by
    rw [h64]; unfold PATH_MAX at *; omega
  have hlen : s + ((cstr data).take (PATH_MAX - s - 1)).length < PATH_MAX := by
    rw [List.length_take]; omega
  have hne : PATH_MAX - s ≠ 0 := by omega
  have he : PATH_MAX - 1 - s = PATH_MAX - s - 1 := by omega
  simp only [append, hn, hne, if_false, hlen, if_true, he]

theorem append_atEnd (buf : List Nat) (data : List Nat) :
    append buf PATH_MAX data = some buf := by
  have hn : (PATH_MAX + 2 ^ 64 - PATH_MAX % 2 ^ 64) % 2 ^ 64 = 0 := by
    unfold PATH_MAX; norm_num
  simp only [append, hn, if_true]

theorem append_outside (buf : List Nat) (s : Nat) (data : List Nat)
    (hs : PATH_MAX < s) (hs64 : s < 2 ^ 64) : append buf s data = none := by
  have h64 : s % 2 ^ 64 = s := Nat.mod_eq_of_lt hs64
  have hn : (PATH_MAX + 2 ^ 64 - s % 2 ^ 64) % 2 ^ 64 = PATH_MAX + 2 ^ 64 - s := by
    rw [h64]; unfold PATH_MAX at *; omega
  have hne : PATH_MAX + 2 ^ 64 - s ≠ 0 := by omega
  have hlen : ¬ s + ((cstr data).take (PATH_MAX + 2 ^ 64 - s - 1)).length < PATH_MAX := by
    omega
  simp only [append, hn, hne, if_false, hlen]

end pathManager

namespace pathManager

theorem basePrefix_ascii {base : String} (hb : QString.isAscii base) :
    (∀ b ∈ basePrefix base, b ≠ 0) ∧
    (basePrefix base).length
      = (if QString.endsWithSlash base then QString.size base else QString.size base + 1) := by
  unfold basePrefix
  split
  · exact ⟨QString.toUtf8_ascii_ne_zero hb, QString.toUtf8_ascii_length hb⟩
  · refine ⟨?_, by simp [QString.toUtf8_ascii_length hb]⟩
    intro b hb'
    rcases List.mem_append.mp hb' with h | h
    · exact QString.toUtf8_ascii_ne_zero hb b h
    · simp at h; omega

theorem init_holds {base : String} (hb : QString.isAscii base)
    (hlen : QString.size base < PATH_MAX) :
    ∃ pm, ofQString base = some pm ∧ Holds (basePrefix base) pm := by
  obtain ⟨hnz, hl⟩ := basePrefix_ascii hb
  have hw : init [] base
      = (append [] 0 (basePrefix base)).map
          (fun b => pathManager.mk
            (if QString.endsWithSlash base then QString.size base else QString.size base + 1)
            b) := by
    unfold init basePrefix
    split <;> rfl
  have h0 : (0 : Nat) < PATH_MAX := by unfold PATH_MAX; omega
  refine ⟨_, by rw [ofQString, hw, append_inside _ _ _ h0]; rfl, ?_⟩
  simp only [Holds, cstr_eq_self hnz, List.length_nil, le_refl, if_true, List.take_zero,
    List.nil_append, Nat.sub_zero]
  refine ⟨hl.symm, ?_⟩
  have hle : (basePrefix base).length ≤ PATH_MAX := by
    rw [hl]; split <;> omega
  rcases Nat.lt_or_eq_of_le hle with h | h
  · exact Or.inl ⟨h, [], by rw [List.append_nil, List.take_of_length_le (by omega)]⟩
  · exact Or.inr ⟨h, trivial⟩

theorem setPath_holds {B : List Nat} {pm : pathManager} (h : Holds B pm) (data : List Nat) :
    ∃ pm', setPath pm data = some (pm', (B ++ cstr data).take (PATH_MAX - 1)) ∧
      Holds B pm' := by
  obtain ⟨hloc, hcase⟩ := h
  rcases hcase with ⟨hlt, suf, hbuf⟩ | ⟨heq, hbuf⟩
  · have hs : pm.m_basePathLocation < PATH_MAX := by omega
    have hle : pm.m_basePathLocation ≤ pm.m_buffer.length := by
      rw [hbuf, List.length_append]; omega
    have ht : pm.m_buffer.take pm.m_basePathLocation = B := by
      rw [hbuf, hloc, List.take_left']
      rfl
    have hres : (B ++ cstr data).take (PATH_MAX - 1)
        = B ++ (cstr data).take (PATH_MAX - 1 - pm.m_basePathLocation) := by
      rw [List.take_append_eq_append_take, List.take_of_length_le (by omega), hloc]
    refine ⟨{ pm with m_buffer := B ++ (cstr data).take (PATH_MAX - 1 - pm.m_basePathLocation) },
      ?_, hloc, Or.inl ⟨hlt, _, rfl⟩⟩
    simp only [setPath, append_inside _ _ _ hs, hle, if_true, ht, Option.map_some', hres]
  · have hres : (B ++ cstr data).take (PATH_MAX - 1) = B.take (PATH_MAX - 1) := by
      rw [List.take_append_of_le_length (by omega)]
    refine ⟨pm, ?_, hloc, Or.inr ⟨heq, hbuf⟩⟩
    cases pm with
    | mk loc buf =>
      simp only at hloc hbuf
      subst hloc
      simp only [setPath, heq, append_atEnd, Option.map_some', hres, hbuf]

end pathManager

namespace pathManager

theorem replicate_a_ascii (n : Nat) : QString.isAscii (String.mk (List.replicate n 'a')) := by
  intro c hc
  have : c = 'a' := List.eq_of_mem_replicate hc
  subst this
  decide

theorem replicate_a_noSlash (n : Nat) (hn : 0 < n) :
    QString.endsWithSlash (String.mk (List.replicate n 'a')) = false := by
  obtain ⟨m, rfl⟩ : ∃ m, n = m + 1 := ⟨n - 1, by omega⟩
  simp [QString.endsWithSlash, List.replicate_succ']

theorem replicate_a_bytes (n : Nat) :
    QString.toUtf8 (String.mk (List.replicate n 'a')) = List.replicate n 97 := by
  rw [QString.toUtf8_ascii (replicate_a_ascii n)]
  simp

theorem replicate_a_size (n : Nat) : QString.size (String.mk (List.replicate n 'a')) = n := by
  rw [QString.size_ascii (replicate_a_ascii n)]
  simp

theorem replicate_a_outside (n : Nat) (hn : PATH_MAX ≤ n) (h64 : n + 1 < 2 ^ 64) :
    ∃ pm, ofQString (String.mk (List.replicate n 'a')) = some pm ∧
      pm.m_basePathLocation = n + 1 ∧ pm.setPath (QString.toUtf8 "b") = none := by
  have h0 : (0 : Nat) < PATH_MAX := by unfold PATH_MAX; omega
  have hpos : 0 < n := by unfold PATH_MAX at hn; omega
  have hinit : ofQString (String.mk (List.replicate n 'a'))
      = some ⟨n + 1, (cstr (List.replicate n 97 ++ [47])).take (PATH_MAX - 1 - 0)⟩ := by
    simp only [ofQString, init, replicate_a_noSlash n hpos, append_inside _ _ _ h0,
      replicate_a_size, replicate_a_bytes, Bool.false_eq_true, if_false, Option.map_some',
      List.length_nil, le_refl, if_true, List.take_zero, List.nil_append]
  refine ⟨_, hinit, rfl, ?_⟩
  simp only [setPath]
  rw [append_outside _ _ _ (by omega) h64]
  rfl

/-- C9, at the failing input: with the base `/é` (one character of two UTF-8
bytes) `setPath( "a.txt" )` returns the bytes of `/éa.txt`, with no separator,
where base, separator and name are the bytes of `/é/a.txt`; with the base `/é/`
the separator, the last byte of the base prefix, is overwritten by the name;
and with the base `/日` the name starts inside the bytes of `日`. -/
theorem setPath_nonAscii_base :
    composeAfter "/é" [] "a.txt" = some (QString.toUtf8 "/éa.txt") ∧
    fullPath "/é" "a.txt" = QString.toUtf8 "/é/a.txt" ∧
    composeAfter "/é/" [] "a.txt" = some (QString.toUtf8 "/éa.txt") ∧
    fullPath "/é/" "a.txt" = QString.toUtf8 "/é/a.txt" ∧
    composeAfter "/日" [] "a" = some [47, 230, 151, 97] ∧
    fullPath "/日" "a" = [47, 230, 151, 165, 47, 97] := by
  decide

/-- The slip beside the design: a base of 4096 letters puts the cached offset
past the end of the array, and the write of `setPath` leaves the array. -/
theorem setPath_outside_the_array :
    ∃ pm, ofQString (String.mk (List.replicate 4096 'a')) = some pm ∧
      pm.m_basePathLocation = 4097 ∧ pm.setPath (QString.toUtf8 "b") = none :=
  replicate_a_outside 4096 (by unfold PATH_MAX; omega) (by omega)

end pathManager
/-! ## POSIX `readAll`: what the store holds -/

namespace Linux

open directoryEntries

theorem S_ISREG_not_S_ISDIR (m : Nat) (h : S_ISREG m = true) : S_ISDIR m = false := by
  simp only [S_ISREG, S_ISDIR, beq_iff_eq] at *
  rw [h]
  decide

theorem poll_go {σ : Type} (m_continue : Option Token)
    (hgo : ∀ t, m_continue = some t → ∀ k, t k = true) (w : World σ) :
    ∃ w', World.poll m_continue w = (true, w') := by
  cases m_continue with
  | none => exact ⟨w, rfl⟩
  | some t =>
    exact ⟨{ w with polls := w.polls + 1, trace := w.trace ++ [Event.poll true] },
      by simp only [World.poll, hgo t rfl]⟩

/-- In an ASCII directory, for a name without NUL whose path fits the
buffer, `setPath` composes the path of the entry, and that is the C string
`stat` is called on. -/
theorem setPath_entryPath {dir : String} (hd : QString.isAscii dir) {pm : pathManager}
    (hh : pathManager.Holds (pathManager.basePrefix dir) pm) (n : List Nat)
    (hz : 0 ∉ n) (hfit : (entryPath dir n).length < PATH_MAX) :
    ∃ pm', pm.setPath n = some (pm', entryPath dir n) ∧
      pathManager.Holds (pathManager.basePrefix dir) pm' ∧
      cstr (entryPath dir n) = entryPath dir n ∧ cstr n = n := by
  have hc : cstr n = n := cstr_eq_self (fun b hb h0 => hz (h0 ▸ hb))
  obtain ⟨pm', hs, hh'⟩ := pathManager.setPath_holds hh n
  refine ⟨pm', ?_, hh', ?_, hc⟩
  · rw [hs, hc]
    unfold entryPath at hfit ⊢
    rw [List.take_of_length_le (by omega)]
  · apply cstr_eq_self
    intro b hb
    rcases List.mem_append.mp hb with h | h
    · exact (pathManager.basePrefix_ascii hd).1 b h
    · exact fun h0 => hz (h0 ▸ h)

theorem read_listing (names : List (List Nat)) (outcome : List Nat → Option Stat)
    (dir : String) (hd : QString.isAscii dir) (entries : directoryEntries)
    (pm : pathManager) (hh : pathManager.Holds (pathManager.basePrefix dir) pm)
    (n : List Nat) (rest : List (List Nat)) (hz : 0 ∉ n)
    (hfit : (entryPath dir n).length < PATH_MAX) (w : World Unit) :
    ∃ pm' w', directoryManager.read (listingSystem names outcome) entries pm (n :: rest) w
        = some (true, classify outcome dir entries n, pm', rest, w') ∧
      pathManager.Holds (pathManager.basePrefix dir) pm' := by
  obtain ⟨pm', hs, hh', hcp, hc⟩ := setPath_entryPath hd hh n hz hfit
  simp only [directoryManager.read, readdir, classify, directoryEntries.valid_char, hc,
    queryOutcome]
  by_cases hv : (n != [46] && n != [46, 46]) = true
  · simp only [hv, if_true, hs, stat, listingSystem, hcp]
    cases ho : outcome (entryPath dir n) with
    | none => exact ⟨pm', _, rfl, hh'⟩
    | some m =>
      by_cases hr : S_ISREG m.st_mode = true
      · simp only [hr, if_true]
        exact ⟨pm', _, rfl, hh'⟩
      · by_cases hdd : S_ISDIR m.st_mode = true
        · simp only [hr, hdd, if_true, if_false]
          exact ⟨pm', _, rfl, hh'⟩
        · simp only [hr, hdd, if_false]
          exact ⟨pm', _, rfl, hh'⟩
  · simp only [hv, if_false]
    exact ⟨pm, _, rfl, hh⟩

theorem readAllLoop_listing (names : List (List Nat)) (outcome : List Nat → Option Stat)
    (dir : String) (hd : QString.isAscii dir) (m_continue : Option Token)
    (hgo : ∀ t, m_continue = some t → ∀ k, t k = true) :
    ∀ (stream : List (List Nat)) (fuel : Nat) (entries : directoryEntries) (pm : pathManager)
      (w : World Unit), stream.length < fuel →
      pathManager.Holds (pathManager.basePrefix dir) pm →
      (∀ n ∈ stream, 0 ∉ n ∧ (entryPath dir n).length < PATH_MAX) →
      ∃ w', directoryManager.readAllLoop (listingSystem names outcome) m_continue fuel
          entries pm stream w = some (stream.foldl (classify outcome dir) entries, w')
  | _, 0, _, _, _, hlt, _, _ => by omega
  | [], fuel + 1, entries, pm, w, _, _, _ => by
    obtain ⟨w₁, hp⟩ := poll_go m_continue hgo w
    exact ⟨w₁.log (Event.readdir none), by
      simp only [directoryManager.readAllLoop, hp, directoryManager.read, readdir,
        List.foldl_nil]⟩
  | n :: rest, fuel + 1, entries, pm, w, hlt, hh, hall => by
    obtain ⟨w₁, hp⟩ := poll_go m_continue hgo w
    obtain ⟨pm', w₂, hr, hh'⟩ :=
      read_listing names outcome dir hd entries pm hh n rest
        (hall n (List.mem_cons_self _ _)).1 (hall n (List.mem_cons_self _ _)).2 w₁
    obtain ⟨w₃, hl⟩ := readAllLoop_listing names outcome dir hd m_continue hgo
      rest fuel (classify outcome dir entries n) pm' w₂
      (by simp only [List.length_cons] at hlt; omega) hh'
      (fun m hm => hall m (List.mem_cons_of_mem _ hm))
    exact ⟨w₃, by simp only [directoryManager.readAllLoop, hp, hr, hl, List.foldl_cons]⟩

theorem classify_files (outcome : List Nat → Option Stat) (dir : String) :
    ∀ (stream : List (List Nat)) (entries : directoryEntries),
      (stream.foldl (classify outcome dir) entries).m_files.map entry.path
        = entries.m_files.map entry.path
          ++ (stream.filter
            (fun n => (n != [46] && n != [46, 46]) && reportsFile outcome dir n)).map
              QString.fromUtf8
  | [], entries => by simp
  | n :: rest, entries => by
    rw [List.foldl_cons, classify_files outcome dir rest]
    simp only [classify, reportsFile, List.filter_cons]
    by_cases hv : (n != [46] && n != [46, 46]) = true
    · cases hq : queryOutcome outcome dir n with
      | none => simp [hv]
      | some m =>
        by_cases hr : S_ISREG m.st_mode = true
        · simp [hv, hr, addFile]
        · by_cases hdd : S_ISDIR m.st_mode = true
          · simp [hv, hr, hdd, addFolder]
          · simp [hv, hr, hdd]
    · simp [hv]

theorem classify_folders (outcome : List Nat → Option Stat) (dir : String) :
    ∀ (stream : List (List Nat)) (entries : directoryEntries),
      (stream.foldl (classify outcome dir) entries).m_folders.map entry.path
        = entries.m_folders.map entry.path
          ++ (stream.filter
            (fun n => (n != [46] && n != [46, 46]) && reportsFolder outcome dir n)).map
              QString.fromUtf8
  | [], entries => by simp
  | n :: rest, entries => by
    rw [List.foldl_cons, classify_folders outcome dir rest]
    simp only [classify, reportsFolder, List.filter_cons]
    by_cases hv : (n != [46] && n != [46, 46]) = true
    · cases hq : queryOutcome outcome dir n with
      | none => simp [hv]
      | some m =>
        by_cases hr : S_ISREG m.st_mode = true
        · simp [hv, hr, addFile, S_ISREG_not_S_ISDIR m.st_mode hr]
        · by_cases hdd : S_ISDIR m.st_mode = true
          · simp [hv, hr, hdd, addFolder]
          · simp [hv, hr, hdd]
    · simp [hv]

theorem reportsFile_not_reportsFolder (outcome : List Nat → Option Stat) (dir : String)
    (n : List Nat) (h : reportsFile outcome dir n = true) :
    reportsFolder outcome dir n = false := by
  unfold reportsFile at h
  unfold reportsFolder
  cases hq : queryOutcome outcome dir n with
  | none => rfl
  | some m =>
    rw [hq] at h
    exact S_ISREG_not_S_ISDIR _ h

/-- The POSIX `readAll()` on an ASCII directory path: for every stream of
names that stay pairwise distinct as `QString`s, have no NUL and compose to
paths that fit the buffer, every answer of `stat` and no cancellation, the run
returns a store whose files are the names other than "." and ".." whose entry
`stat` reports as a regular file, whose folders are those it reports as a
directory, without a name twice or in both. -/
theorem readAll_ascii_dir (stdSort : StdSort) (hs : StdSortContract stdSort)
    (m_path : String) (hd : QString.isAscii m_path) (hlen : QString.size m_path < PATH_MAX)
    (names : List (List Nat)) (hnd : (names.map QString.fromUtf8).Nodup)
    (hall : ∀ n ∈ names, 0 ∉ n ∧ (entryPath m_path n).length < PATH_MAX)
    (outcome : List Nat → Option Stat)
    (m_continue : Option Token) (hgo : ∀ t, m_continue = some t → ∀ k, t k = true)
    (w : World Unit) :
    ∃ store w',
      directoryManager.readAll (listingSystem names outcome) stdSort ⟨m_path, m_continue⟩ w
        = some (store, w') ∧
      (store.m_files.map entry.path).Perm
        ((names.filter
          (fun n => (n != [46] && n != [46, 46]) && reportsFile outcome m_path n)).map
            QString.fromUtf8) ∧
      (store.m_folders.map entry.path).Perm
        ((names.filter
          (fun n => (n != [46] && n != [46, 46]) && reportsFolder outcome m_path n)).map
            QString.fromUtf8) ∧
      (store.m_files.map entry.path).Nodup ∧
      (store.m_folders.map entry.path).Nodup ∧
      (∀ n, n ∈ store.m_files.map entry.path → n ∉ store.m_folders.map entry.path) := by
  obtain ⟨pm₀, h₀, hh₀⟩ := pathManager.init_holds hd hlen
  obtain ⟨w', hl⟩ := readAllLoop_listing names outcome m_path hd m_continue hgo
    names (names.length + 1) {} pm₀
    { w with trace := w.trace ++ [Event.enter, Event.opendir (cstr (QString.toUtf8 m_path)) true] }
    (Nat.lt_succ_self _) hh₀ hall
  have hrun : directoryManager.readAll (listingSystem names outcome) stdSort
      ⟨m_path, m_continue⟩ w
      = some ((names.foldl (classify outcome m_path) {}).sort stdSort,
          (unique_rsc_release (some names) w').log Event.leave) := by
    simp only [directoryManager.readAll, opendir, listingSystem, World.log, Option.isSome_some,
      List.append_assoc, List.singleton_append, h₀]
    simp only [listingSystem] at hl
    rw [hl]
  have hfiles := classify_files outcome m_path names {}
  have hfolders := classify_folders outcome m_path names {}
  simp only [List.map_nil, List.nil_append] at hfiles hfolders
  have pf : (((names.foldl (classify outcome m_path) {}).sort stdSort).m_files.map
      entry.path).Perm
      ((names.filter
        (fun n => (n != [46] && n != [46, 46]) && reportsFile outcome m_path n)).map
          QString.fromUtf8) := by
    rw [← hfiles]
    exact (hs.perm sortLambda _ sortLambda_strictWeak).map _
  have pd : (((names.foldl (classify outcome m_path) {}).sort stdSort).m_folders.map
      entry.path).Perm
      ((names.filter
        (fun n => (n != [46] && n != [46, 46]) && reportsFolder outcome m_path n)).map
          QString.fromUtf8) := by
    rw [← hfolders]
    exact (hs.perm sortLambda _ sortLambda_strictWeak).map _
  have hsub : ∀ p : List Nat → Bool,
      ((names.filter p).map QString.fromUtf8).Nodup := fun p =>
    ((List.filter_sublist names).map QString.fromUtf8).nodup hnd
  refine ⟨_, _, hrun, pf, pd, pf.nodup_iff.mpr (hsub _), pd.nodup_iff.mpr (hsub _), ?_⟩
  intro s hs₁ hs₂
  obtain ⟨n₁, hn₁, e₁⟩ := List.mem_map.mp (pf.subset hs₁)
  obtain ⟨n₂, hn₂, e₂⟩ := List.mem_map.mp (pd.subset hs₂)
  have hm₁ := List.mem_filter.mp hn₁
  have hm₂ := List.mem_filter.mp hn₂
  have heq : n₁ = n₂ :=
    List.inj_on_of_nodup_map hnd hm₁.1 hm₂.1 (e₁.trans e₂.symm)
  have h1 := hm₁.2
  have h2 := hm₂.2
  simp only [Bool.and_eq_true] at h1 h2
  have := reportsFile_not_reportsFolder outcome m_path n₁ h1.2
  rw [heq, h2.2] at this
  exact absurd this (by simp)

end Linux

namespace Linux

open directoryEntries

/-- The sample directory `/d` is an instance of `readAll_ascii_dir`: its
names decode to ".", "..", `a.txt`, `sub`, `pipe` and `gone`, where `gone`
cannot be queried and `pipe` is neither a file nor a directory. -/
theorem readAll_ascii_dir_sample :
    sampleNames.map QString.fromUtf8 = [".", "..", "a.txt", "sub", "pipe", "gone"] ∧
    ∃ store w',
      directoryManager.readAll (listingSystem sampleNames sampleOutcome) insertionStdSort
          ⟨"/d", none⟩ ⟨(), 0, []⟩ = some (store, w') ∧
      (store.m_files.map entry.path).Perm
        ((sampleNames.filter
          (fun n => (n != [46] && n != [46, 46]) && reportsFile sampleOutcome "/d" n)).map
            QString.fromUtf8) ∧
      (store.m_folders.map entry.path).Perm
        ((sampleNames.filter
          (fun n => (n != [46] && n != [46, 46]) && reportsFolder sampleOutcome "/d" n)).map
            QString.fromUtf8) ∧
      (store.m_files.map entry.path).Nodup ∧
      (store.m_folders.map entry.path).Nodup ∧
      (∀ n, n ∈ store.m_files.map entry.path → n ∉ store.m_folders.map entry.path) :=
  ⟨by decide,
    readAll_ascii_dir insertionStdSort insertionStdSort_contract "/d" (by decide) (by decide)
      sampleNames (by decide) (by decide) sampleOutcome none (fun _ h => nomatch h)
      ⟨(), 0, []⟩⟩

/-- Names that are not UTF-8 lose their identity in the store: the entries
with the one-byte names `0xFF` and `0xFE`, both regular files, are both stored
under the replacement character U+FFFD. -/
theorem readAll_undecodable_names :
    (directoryManager.readAll (listingSystem [[0xFF], [0xFE]] allFiles)
        insertionStdSort ⟨"/d", none⟩ ⟨(), 0, []⟩).map Prod.fst
      = some ⟨[], [⟨0, "\uFFFD"⟩, ⟨0, "\uFFFD"⟩]⟩ := by
  decide

/-- C1: the POSIX `readAll()` does what the claim says when the directory
path is ASCII: for every stream of names that are pairwise distinct as the
`QString`s the store keeps, every answer of `stat` and no cancellation (no
flag, or a flag that always reads "continue"), it returns a store whose file
sequence holds, up to order, exactly the names other than "." and ".." for
which `stat` of the path of the entry succeeded and reported a regular file,
whose folder sequence holds exactly those reported as a directory, with no
name twice in a sequence and none in both (the names have no NUL and their
paths fit the path buffer).  The sample directory `/d` is listed so.  On the
directory `/é` that holds the regular file `a.txt` the store comes back empty:
the path queried for `a.txt` is `/éa.txt`, which does not exist.  With a
directory `/éa.txt` beside `/é`, the file `a.txt` is listed as a folder, with
the change time of that directory. -/
theorem readAll_contents_ascii_only :
    (∀ (stdSort : StdSort), StdSortContract stdSort →
      ∀ (m_path : String), QString.isAscii m_path → QString.size m_path < PATH_MAX →
      ∀ (names : List (List Nat)), (names.map QString.fromUtf8).Nodup →
        (∀ n ∈ names, 0 ∉ n ∧ (entryPath m_path n).length < PATH_MAX) →
      ∀ (outcome : List Nat → Option Stat) (m_continue : Option Token),
        (∀ t, m_continue = some t → ∀ k, t k = true) →
      ∀ (w : World Unit), ∃ store w',
        directoryManager.readAll (listingSystem names outcome) stdSort
            ⟨m_path, m_continue⟩ w = some (store, w') ∧
        (store.m_files.map entry.path).Perm
          ((names.filter
            (fun n => (n != [46] && n != [46, 46]) && reportsFile outcome m_path n)).map
              QString.fromUtf8) ∧
        (store.m_folders.map entry.path).Perm
          ((names.filter
            (fun n => (n != [46] && n != [46, 46]) && reportsFolder outcome m_path n)).map
              QString.fromUtf8) ∧
        (store.m_files.map entry.path).Nodup ∧
        (store.m_folders.map entry.path).Nodup ∧
        (∀ n, n ∈ store.m_files.map entry.path → n ∉ store.m_folders.map entry.path)) ∧
    (directoryManager.readAll (listingSystem sampleNames sampleOutcome)
        insertionStdSort ⟨"/d", none⟩ ⟨(), 0, []⟩).map Prod.fst
      = some ⟨[⟨6, "sub"⟩], [⟨5, "a.txt"⟩]⟩ ∧
    (directoryManager.readAll Fs.posix insertionStdSort ⟨"/é", none⟩
        ⟨accentOnly, 0, []⟩).map (fun r => (r.1, r.2.trace))
      = some (⟨[], []⟩,
          [Event.enter, Event.opendir (QString.toUtf8 "/é") true,
            Event.readdir (some (QString.toUtf8 ".")),
            Event.readdir (some (QString.toUtf8 "..")),
            Event.readdir (some (QString.toUtf8 "a.txt")),
            Event.stat (QString.toUtf8 "/éa.txt") none,
            Event.readdir none, Event.closedir, Event.leave]) ∧
    reportsFile (fun p => (Fs.posix.stat accentOnly p).1) "/é" (QString.toUtf8 "a.txt")
      = true ∧
    (directoryManager.readAll Fs.posix insertionStdSort ⟨"/é", none⟩
        ⟨accentFolder, 0, []⟩).map Prod.fst
      = some ⟨[⟨6, "a.txt"⟩], []⟩ ∧
    reportsFile (fun p => (Fs.posix.stat accentFolder p).1) "/é" (QString.toUtf8 "a.txt")
      = true :=
  ⟨fun stdSort hs m_path hd hlen names hnd hall outcome m_continue hgo w =>
      readAll_ascii_dir stdSort hs m_path hd hlen names hnd hall outcome m_continue hgo w,
    by decide, by decide, by decide, by decide, by decide⟩

end Linux

/-! ## The handle discipline -/

theorem handleScan_append : ∀ (t₁ t₂ : List Event) (active opened : Nat),
    handleScan active opened (t₁ ++ t₂)
      = (handleScan active opened t₁).bind (fun r => handleScan r.1 r.2 t₂)
  | [], t₂, active, opened => by simp [handleScan]
  | e :: t₁, t₂, active, opened => by
    cases e with
    | opendir p ok =>
      cases ok <;> simp only [List.cons_append, handleScan] <;>
        first
          | exact handleScan_append t₁ t₂ _ _
          | (split
             · exact handleScan_append t₁ t₂ _ _
             · rfl)
    | FindFirstFileW p n =>
      cases n <;> simp only [List.cons_append, handleScan] <;>
        first
          | exact handleScan_append t₁ t₂ _ _
          | (split
             · exact handleScan_append t₁ t₂ _ _
             · rfl)
    | FindClose v =>
      cases v <;> simp only [List.cons_append, handleScan] <;>
        first
          | exact handleScan_append t₁ t₂ _ _
          | (split
             · exact handleScan_append t₁ t₂ _ _
             · rfl)
    | enter => simp only [List.cons_append, handleScan]; exact handleScan_append t₁ t₂ _ _
    | leave =>
      simp only [List.cons_append, handleScan]
      split
      · exact handleScan_append t₁ t₂ _ _
      · rfl
    | closedir =>
      simp only [List.cons_append, handleScan]
      split
      · exact handleScan_append t₁ t₂ _ _
      · rfl
    | poll v => simp only [List.cons_append, handleScan]; exact handleScan_append t₁ t₂ _ _
    | readdir n => simp only [List.cons_append, handleScan]; exact handleScan_append t₁ t₂ _ _
    | stat p m => simp only [List.cons_append, handleScan]; exact handleScan_append t₁ t₂ _ _
    | unlink p ok => simp only [List.cons_append, handleScan]; exact handleScan_append t₁ t₂ _ _
    | rmdir p ok => simp only [List.cons_append, handleScan]; exact handleScan_append t₁ t₂ _ _
    | FindNextFileW n =>
      simp only [List.cons_append, handleScan]; exact handleScan_append t₁ t₂ _ _
    | DeleteFileW p ok =>
      simp only [List.cons_append, handleScan]; exact handleScan_append t₁ t₂ _ _
    | RemoveDirectoryW p ok =>
      simp only [List.cons_append, handleScan]; exact handleScan_append t₁ t₂ _ _

theorem neutral_nil : Neutral [] := fun _ _ _ => rfl

theorem neutral_append {t₁ t₂ : List Event} (h₁ : Neutral t₁) (h₂ : Neutral t₂) :
    Neutral (t₁ ++ t₂) := by
  intro d o h
  rw [handleScan_append, h₁ d o h]
  exact h₂ d o h

theorem neutral_inert (e : Event) (h : e.inert = true) : Neutral [e] := by
  intro d o _
  cases e with
  | opendir p ok => cases ok <;> simp_all [Event.inert, handleScan]
  | FindFirstFileW p n => cases n <;> simp_all [Event.inert, handleScan]
  | FindClose v => cases v <;> simp_all [Event.inert, handleScan]
  | enter => simp [Event.inert] at h
  | leave => simp [Event.inert] at h
  | closedir => simp [Event.inert] at h
  | poll v => simp [handleScan]
  | readdir n => simp [handleScan]
  | stat p m => simp [handleScan]
  | unlink p ok => simp [handleScan]
  | rmdir p ok => simp [handleScan]
  | FindNextFileW n => simp [handleScan]
  | DeleteFileW p ok => simp [handleScan]
  | RemoveDirectoryW p ok => simp [handleScan]

/-- A call that opens a handle, runs a neutral body, closes the handle and
returns is neutral. -/
theorem neutral_call (o c : Event) (ho : o = Event.closedir ∨ o = Event.FindClose true)
    (hc : (∃ p, c = Event.opendir p true) ∨ (∃ p n, c = Event.FindFirstFileW p (some n)))
    {t : List Event} (h : Neutral t) :
    Neutral (Event.enter :: c :: (t ++ [o, Event.leave])) := by
  intro d op hle
  have hbody := h (d + 1) (op + 1) (by omega)
  have hopen : handleScan d op (Event.enter :: c :: (t ++ [o, Event.leave]))
      = handleScan (d + 1) (op + 1) (t ++ [o, Event.leave]) := by
    rcases hc with ⟨p, rfl⟩ | ⟨p, n, rfl⟩ <;>
      simp only [handleScan] <;> rw [if_pos (by omega)]
  rw [hopen, handleScan_append, hbody]
  rcases ho with rfl | rfl <;> simp [handleScan, hle]

/-- A call whose handle could not be opened is neutral when the body is. -/
theorem neutral_call_failed (c : Event) (hc : c.inert = true) {t : List Event}
    (h : Neutral t) : Neutral (Event.enter :: c :: (t ++ [Event.leave])) := by
  intro d op hle
  have h1 : Neutral ([c] ++ t) := neutral_append (neutral_inert c hc) h
  have hbody := h1 (d + 1) op (by omega)
  have : Event.enter :: c :: (t ++ [Event.leave]) = Event.enter :: (([c] ++ t) ++ [Event.leave]) := by
    simp
  rw [this]
  simp only [handleScan]
  rw [handleScan_append, hbody]
  simp [handleScan, hle]

namespace Extends

variable {σ : Type}

theorem refl (w : World σ) : Extends w w := ⟨[], by simp, neutral_nil⟩

theorem trans {w₁ w₂ w₃ : World σ} (h₁ : Extends w₁ w₂) (h₂ : Extends w₂ w₃) :
    Extends w₁ w₃ := by
  obtain ⟨t₁, e₁, n₁⟩ := h₁
  obtain ⟨t₂, e₂, n₂⟩ := h₂
  exact ⟨t₁ ++ t₂, by rw [e₂, e₁, List.append_assoc], neutral_append n₁ n₂⟩

theorem of_trace {w w' : World σ} (e : Event) (he : e.inert = true)
    (h : w'.trace = w.trace ++ [e]) : Extends w w' :=
  ⟨[e], h, neutral_inert e he⟩

theorem poll (m_continue : Option Token) (w : World σ) :
    Extends w (World.poll m_continue w).2 := by
  cases m_continue with
  | none => exact refl w
  | some t => exact of_trace (Event.poll (t w.polls)) rfl rfl

end Extends

namespace Linux

variable {σ : Type}

theorem extends_readdir (dir : List (List Nat)) (w : World σ) : Extends w (readdir dir w).2.2 := by
  cases dir with
  | nil => exact Extends.of_trace (Event.readdir none) rfl rfl
  | cons n rest => exact Extends.of_trace (Event.readdir (some n)) rfl rfl

theorem extends_stat (os : Posix σ) (p : List Nat) (w : World σ) :
    Extends w (stat os p w).2 :=
  Extends.of_trace (Event.stat (cstr p) ((os.stat w.sys (cstr p)).1.map Stat.st_mode)) rfl rfl

theorem extends_unlink (os : Posix σ) (p : List Nat) (w : World σ) :
    Extends w (unlink os p w) :=
  Extends.of_trace (Event.unlink (cstr p) (os.unlink w.sys (cstr p)).1) rfl rfl

theorem extends_rmdir (os : Posix σ) (p : List Nat) (w : World σ) :
    Extends w (rmdir os p w) :=
  Extends.of_trace (Event.rmdir (cstr p) (os.rmdir w.sys (cstr p)).1) rfl rfl

theorem extends_call (os : Posix σ) (f : Function) (w : World σ) :
    Extends w (f.call os w) := by
  cases f with
  | nothing => exact Extends.refl w
  | rmdir p => exact extends_rmdir os p w

namespace directoryManager

theorem extends_removePath (os : Posix σ)
    (recurse : pathManager → Function → World σ → Option (World σ))
    (hrec : ∀ pm f w w', recurse pm f w = some w' → Extends w w')
    (pm : pathManager) (name : List Nat) (w : World σ) (r : pathManager × World σ)
    (h : removePath os recurse pm name w = some r) : Extends w r.2 := by
  unfold removePath at h
  split at h
  · split at h
    · exact absurd h (by simp)
    · rename_i pm' pp _
      have hst := extends_stat os pp w
      split at h
      · rename_i m w₁ heq
        have hw₁ : w₁ = (stat os pp w).2 := by rw [heq]
        subst hw₁
        split at h
        · cases h
          exact hst.trans (extends_unlink os pp _)
        · split at h
          · split at h
            · exact absurd h (by simp)
            · rename_i child _
              cases hr : recurse child (Function.rmdir pp) (stat os pp w).2 with
              | none => rw [hr] at h; exact absurd h (by simp)
              | some w₂ =>
                rw [hr] at h
                cases h
                exact hst.trans (hrec _ _ _ _ hr)
          · cases h
            exact hst
      · rename_i w₁ heq
        have hw₁ : w₁ = (stat os pp w).2 := by rw [heq]
        subst hw₁
        cases h
        exact hst
  · cases h
    exact Extends.refl w

theorem extends_removeLoop (m_continue : Option Token)
    (rmPath : pathManager → List Nat → World σ → Option (pathManager × World σ))
    (hrm : ∀ pm n w r, rmPath pm n w = some r → Extends w r.2) :
    ∀ (fuel : Nat) (pm : pathManager) (dir : List (List Nat)) (w : World σ)
      (r : pathManager × World σ),
      removeLoop m_continue rmPath fuel pm dir w = some r → Extends w r.2
  | 0, _, _, _, _, h => by simp [removeLoop] at h
  | fuel + 1, pm, dir, w, r, h => by
    unfold removeLoop at h
    have hp := Extends.poll m_continue w
    split at h
    · rename_i w₁ heq
      have : w₁ = (World.poll m_continue w).2 := by rw [heq]
      subst this
      cases h
      exact hp
    · rename_i w₁ heq
      have : w₁ = (World.poll m_continue w).2 := by rw [heq]
      subst this
      have hrd := extends_readdir dir (World.poll m_continue w).2
      split at h
      · rename_i d₂ w₂ heq₂
        have : w₂ = (readdir dir (World.poll m_continue w).2).2.2 := by rw [heq₂]
        subst this
        cases h
        exact hp.trans hrd
      · rename_i name d₂ w₂ heq₂
        have : w₂ = (readdir dir (World.poll m_continue w).2).2.2 := by rw [heq₂]
        subst this
        split at h
        · exact absurd h (by simp)
        · rename_i pm₃ w₃ heq₃
          have h3 := hrm _ _ _ _ heq₃
          have h4 := extends_removeLoop m_continue rmPath hrm fuel pm₃ d₂ w₃ r h
          exact (hp.trans hrd).trans (h3.trans h4)

theorem extends_template (os : Posix σ) (m_continue : Option Token) :
    ∀ (depth : Nat) (pm : pathManager) (f : Function) (w w' : World σ),
      removeDirectoryTemplate os m_continue depth pm f w = some w' → Extends w w'
  | 0, _, _, _, _, h => by simp [removeDirectoryTemplate] at h
  | depth + 1, pm, f, w, w', h => by
    unfold removeDirectoryTemplate at h
    split at h
    · rename_i dir w₁ heq
      have hw₁ : w₁ = (opendir os pm.path (w.log Event.enter)).2 := by rw [heq]
      have hok : (os.opendir w.sys (cstr pm.path)).1.isSome = true := by
        have : (opendir os pm.path (w.log Event.enter)).1 = some dir := by rw [heq]
        simp only [opendir, World.log] at this
        rw [this]; rfl
      split at h
      · exact absurd h (by simp)
      · rename_i pm₂ w₂ heq₂
        have hloop := extends_removeLoop m_continue
          (removePath os (removeDirectoryTemplate os m_continue depth))
          (fun pm n w r hr => extends_removePath os _
            (extends_template os m_continue depth) pm n w r hr)
          _ _ _ _ _ heq₂
        have hcall := extends_call os f w₂
        obtain ⟨t, ht, hn⟩ := hloop.trans hcall
        cases h
        refine ⟨Event.enter :: Event.opendir (cstr pm.path) true :: (t ++ [Event.closedir, Event.leave]),
          ?_, neutral_call _ _ (Or.inl rfl) (Or.inl ⟨_, rfl⟩) hn⟩
        simp only [unique_rsc_release, World.log, ht, hw₁, opendir, hok]
        simp
    · rename_i w₁ heq
      have hw₁ : w₁ = (opendir os pm.path (w.log Event.enter)).2 := by rw [heq]
      have hok : (os.opendir w.sys (cstr pm.path)).1.isSome = false := by
        have : (opendir os pm.path (w.log Event.enter)).1 = none := by rw [heq]
        simp only [opendir, World.log] at this
        rw [this]; rfl
      cases h
      refine ⟨Event.enter :: Event.opendir (cstr pm.path) false :: ([] ++ [Event.leave]),
        ?_, neutral_call_failed (Event.opendir (cstr pm.path) false) rfl neutral_nil⟩
      simp only [unique_rsc_release, World.log, hw₁, opendir, hok]
      simp

end directoryManager

end Linux

namespace Linux.directoryManager

variable {σ : Type}

theorem extends_read (os : Posix σ) (entries : directoryEntries) (mm : pathManager)
    (dir : List (List Nat)) (w : World σ)
    (r : Bool × directoryEntries × pathManager × List (List Nat) × World σ)
    (h : read os entries mm dir w = some r) : Extends w r.2.2.2.2 := by
  unfold read at h
  have hrd := extends_readdir dir w
  split at h
  · rename_i d₁ w₁ heq
    have : w₁ = (readdir dir w).2.2 := by rw [heq]
    subst this
    cases h
    exact hrd
  · rename_i name d₁ w₁ heq
    have : w₁ = (readdir dir w).2.2 := by rw [heq]
    subst this
    split at h
    · split at h
      · exact absurd h (by simp)
      · rename_i mm' pp _
        have hst := extends_stat os pp (readdir dir w).2.2
        split at h
        · rename_i m w₂ heq₂
          have : w₂ = (stat os pp (readdir dir w).2.2).2 := by rw [heq₂]
          subst this
          split at h
          · cases h; exact hrd.trans hst
          · split at h
            · cases h; exact hrd.trans hst
            · cases h; exact hrd.trans hst
        · rename_i w₂ heq₂
          have : w₂ = (stat os pp (readdir dir w).2.2).2 := by rw [heq₂]
          subst this
          cases h
          exact hrd.trans hst
    · cases h
      exact hrd

theorem extends_readAllLoop (os : Posix σ) (m_continue : Option Token) :
    ∀ (fuel : Nat) (entries : directoryEntries) (mm : pathManager) (dir : List (List Nat))
      (w : World σ) (r : directoryEntries × World σ),
      readAllLoop os m_continue fuel entries mm dir w = some r → Extends w r.2
  | 0, _, _, _, _, _, h => by simp [readAllLoop] at h
  | fuel + 1, entries, mm, dir, w, r, h => by
    unfold readAllLoop at h
    have hp := Extends.poll m_continue w
    split at h
    · rename_i w₁ heq
      have : w₁ = (World.poll m_continue w).2 := by rw [heq]
      subst this
      cases h
      exact hp
    · rename_i w₁ heq
      have : w₁ = (World.poll m_continue w).2 := by rw [heq]
      subst this
      split at h
      · exact absurd h (by simp)
      · rename_i e₂ _ _ w₂ heq₂
        cases h
        exact hp.trans (extends_read os _ _ _ _ _ heq₂)
      · rename_i e₂ mm₂ d₂ w₂ heq₂
        exact (hp.trans (extends_read os _ _ _ _ _ heq₂)).trans
          (extends_readAllLoop os m_continue fuel e₂ mm₂ d₂ w₂ r h)

theorem extends_readAll (os : Posix σ) (stdSort : directoryEntries.StdSort)
    (self : directoryManager) (w : World σ) (r : directoryEntries × World σ)
    (h : readAll os stdSort self w = some r) : Extends w r.2 := by
  unfold readAll at h
  split at h
  · rename_i dir w₁ heq
    have hw₁ : w₁ = (opendir os (QString.toUtf8 self.m_path) (w.log Event.enter)).2 := by
      rw [heq]
    have hok : (os.opendir w.sys (cstr (QString.toUtf8 self.m_path))).1.isSome = true := by
      have : (opendir os (QString.toUtf8 self.m_path) (w.log Event.enter)).1 = some dir := by
        rw [heq]
      simp only [opendir, World.log] at this
      rw [this]; rfl
    split at h
    · exact absurd h (by simp)
    · split at h
      · exact absurd h (by simp)
      · rename_i entries w₂ heq₂
        obtain ⟨t, ht, hn⟩ := extends_readAllLoop os _ _ _ _ _ _ _ heq₂
        simp only at ht
        cases h
        refine ⟨Event.enter :: Event.opendir (cstr (QString.toUtf8 self.m_path)) true
            :: (t ++ [Event.closedir, Event.leave]),
          ?_, neutral_call _ _ (Or.inl rfl) (Or.inl ⟨_, rfl⟩) hn⟩
        simp only [unique_rsc_release, World.log, ht, hw₁, opendir, hok]
        simp
  · rename_i w₁ heq
    have hw₁ : w₁ = (opendir os (QString.toUtf8 self.m_path) (w.log Event.enter)).2 := by
      rw [heq]
    have hok : (os.opendir w.sys (cstr (QString.toUtf8 self.m_path))).1.isSome = false := by
      have : (opendir os (QString.toUtf8 self.m_path) (w.log Event.enter)).1 = none := by
        rw [heq]
      simp only [opendir, World.log] at this
      rw [this]; rfl
    cases h
    refine ⟨Event.enter :: Event.opendir (cstr (QString.toUtf8 self.m_path)) false
        :: ([] ++ [Event.leave]),
      ?_, neutral_call_failed (Event.opendir (cstr (QString.toUtf8 self.m_path)) false) rfl
        neutral_nil⟩
    simp only [unique_rsc_release, World.log, hw₁, opendir, hok]
    simp

end Linux.directoryManager

namespace Windows

variable {σ : Type}

theorem extends_findNext (h : handle) (w : World σ) :
    Extends w (handle.findNext h w).2.2 ∧
    (h.isSome = true → (handle.findNext h w).2.1.isSome = true) := by
  unfold handle.findNext
  split
  · exact ⟨Extends.of_trace (Event.FindNextFileW (some _)) rfl rfl, fun _ => rfl⟩
  · exact ⟨Extends.of_trace (Event.FindNextFileW none) rfl rfl, fun h => h⟩

theorem extends_DeleteFileW (os : Win32 σ) (p : String) (w : World σ) :
    Extends w (DeleteFileW os p w) :=
  Extends.of_trace (Event.DeleteFileW p (os.DeleteFileW w.sys p).1) rfl rfl

theorem extends_RemoveDirectoryW (os : Win32 σ) (p : String) (w : World σ) :
    Extends w (RemoveDirectoryW os p w) :=
  Extends.of_trace (Event.RemoveDirectoryW p (os.RemoveDirectoryW w.sys p).1) rfl rfl

theorem extends_call_win (os : Win32 σ) (f : Function) (w : World σ) :
    Extends w (f.call os w) := by
  cases f with
  | nothing => exact Extends.refl w
  | RemoveDirectoryW p => exact extends_RemoveDirectoryW os p w

namespace directoryManager

theorem extends_removePath_win (os : Win32 σ)
    (recurse : String → Function → World σ → Option (World σ))
    (hrec : ∀ p f w w', recurse p f w = some w' → Extends w w')
    (wpath name : String) (data : WIN32_FIND_DATAW) (w w' : World σ)
    (h : removePath os recurse wpath name data w = some w') : Extends w w' := by
  unfold removePath at h
  split at h
  · split at h
    · exact hrec _ _ _ _ h
    · cases h
      exact extends_DeleteFileW os _ w
  · cases h
    exact Extends.refl w

theorem extends_removeLoop_win (m_continue : Option Token)
    (rmPath : String → WIN32_FIND_DATAW → World σ → Option (World σ))
    (hrm : ∀ n d w w', rmPath n d w = some w' → Extends w w') :
    ∀ (fuel : Nat) (h : handle) (w : World σ) (r : handle × World σ),
      removeLoop m_continue rmPath fuel h w = some r →
        Extends w r.2 ∧ (h.isSome = true → r.1.isSome = true)
  | 0, _, _, _, hr => by simp [removeLoop] at hr
  | fuel + 1, h, w, r, hr => by
    unfold removeLoop at hr
    have hp := Extends.poll m_continue w
    split at hr
    · rename_i w₁ heq
      have : w₁ = (World.poll m_continue w).2 := by rw [heq]
      subst this
      cases hr
      exact ⟨hp, fun h => h⟩
    · rename_i w₁ heq
      have : w₁ = (World.poll m_continue w).2 := by rw [heq]
      subst this
      have hfn := extends_findNext h (World.poll m_continue w).2
      split at hr
      · rename_i data rest w₂ heq₂
        have hw₂ : w₂ = (handle.findNext h (World.poll m_continue w).2).2.2 := by rw [heq₂]
        subst hw₂
        split at hr
        · exact absurd hr (by simp)
        · rename_i w₃ heq₃
          have h3 := hrm _ _ _ _ heq₃
          have h4 := extends_removeLoop_win m_continue rmPath hrm fuel (some (data, rest)) w₃ r hr
          exact ⟨(hp.trans hfn.1).trans (h3.trans h4.1), fun _ => h4.2 rfl⟩
      · rename_i b h₂ w₂ _ heq₂
        have hw₂ : w₂ = (handle.findNext h (World.poll m_continue w).2).2.2 := by rw [heq₂]
        have hh₂ : h₂ = (handle.findNext h (World.poll m_continue w).2).2.1 := by rw [heq₂]
        subst hw₂ hh₂
        cases hr
        exact ⟨hp.trans hfn.1, hfn.2⟩

theorem extends_template_win (os : Win32 σ) (m_continue : Option Token) :
    ∀ (depth : Nat) (wpath : String) (f : Function) (w w' : World σ),
      removeDirectoryTemplate os m_continue depth wpath f w = some w' → Extends w w'
  | 0, _, _, _, _, h => by simp [removeDirectoryTemplate] at h
  | depth + 1, wpath, f, w, w', h => by
    unfold removeDirectoryTemplate at h
    split at h
    · rename_i mm rest w₁ heq
      have hw₁ : w₁ = (handle.open os wpath (w.log Event.enter)).2 := by rw [heq]
      have hfst : (handle.open os wpath (w.log Event.enter)).1 = some (mm, rest) := by rw [heq]
      split at h
      · exact absurd h (by simp)
      · rename_i w₂ heq₂
        have hfirst := extends_removePath_win os _ (extends_template_win os m_continue depth)
          _ _ _ _ _ heq₂
        split at h
        · exact absurd h (by simp)
        · rename_i h₃ w₃ heq₃
          have hloop := extends_removeLoop_win m_continue
            (removePath os (removeDirectoryTemplate os m_continue depth) wpath)
            (fun n d w w' hr => extends_removePath_win os _
              (extends_template_win os m_continue depth) wpath n d w w' hr)
            _ _ _ _ heq₃
          have hcall := extends_call_win os f w₃
          obtain ⟨t, ht, hn⟩ := (hfirst.trans hloop.1).trans hcall
          have hsome : h₃.isSome = true := hloop.2 rfl
          cases h
          simp only [handle.open, World.log] at hfst hw₁
          refine ⟨Event.enter :: Event.FindFirstFileW
              (if wpath.data.getLast? = some '\\' then wpath ++ "*" else wpath ++ "\\*") (some mm.cFileName)
              :: (t ++ [Event.FindClose true, Event.leave]),
            ?_, neutral_call _ _ (Or.inr rfl) (Or.inr ⟨_, _, rfl⟩) hn⟩
          simp only [handle.close, World.log, ht, hw₁, hsome, hfst, Option.map_some']
          simp
    · rename_i w₁ heq
      have hw₁ : w₁ = (handle.open os wpath (w.log Event.enter)).2 := by rw [heq]
      have hfst : (handle.open os wpath (w.log Event.enter)).1 = none := by rw [heq]
      cases h
      simp only [handle.open, World.log] at hfst hw₁
      refine ⟨Event.enter :: Event.FindFirstFileW
          (if wpath.data.getLast? = some '\\' then wpath ++ "*" else wpath ++ "\\*") none
          :: ([Event.FindClose false] ++ [Event.leave]),
        ?_, neutral_call_failed (Event.FindFirstFileW _ none) rfl
          (neutral_inert (Event.FindClose false) rfl)⟩
      simp only [handle.close, World.log, hw₁, hfst, Option.map_none', Option.isSome_none]
      simp

end directoryManager

end Windows

namespace Windows.directoryManager

variable {σ : Type}

theorem extends_readAllLoop_win (m_continue : Option Token) :
    ∀ (fuel : Nat) (entries : directoryEntries) (h : handle) (w : World σ)
      (r : directoryEntries × handle × World σ),
      readAllLoop m_continue fuel entries h w = some r →
        Extends w r.2.2 ∧ (h.isSome = true → r.2.1.isSome = true)
  | 0, _, _, _, _, hr => by simp [readAllLoop] at hr
  | fuel + 1, entries, h, w, r, hr => by
    unfold readAllLoop at hr
    have hp := Extends.poll m_continue w
    split at hr
    · rename_i w₁ heq
      have : w₁ = (World.poll m_continue w).2 := by rw [heq]
      subst this
      cases hr
      exact ⟨hp, fun h => h⟩
    · rename_i w₁ heq
      have : w₁ = (World.poll m_continue w).2 := by rw [heq]
      subst this
      have hfn := extends_findNext h (World.poll m_continue w).2
      have hrd : ∀ (b : Bool) (e₂ : directoryEntries) (h₂ : handle) (w₂ : World σ),
          _read entries h (World.poll m_continue w).2 = (b, e₂, h₂, w₂) →
          Extends (World.poll m_continue w).2 w₂ ∧ (h.isSome = true → h₂.isSome = true) := by
        intro b e₂ h₂ w₂ he
        unfold _read at he
        split at he
        · rename_i data rest w₃ heq₃
          cases he
          have : w₂ = (handle.findNext h (World.poll m_continue w).2).2.2 := by rw [heq₃]
          subst this
          exact ⟨hfn.1, fun _ => rfl⟩
        · rename_i b₃ h₃ w₃ _ heq₃
          cases he
          have h1 : w₂ = (handle.findNext h (World.poll m_continue w).2).2.2 := by rw [heq₃]
          have h2 : h₂ = (handle.findNext h (World.poll m_continue w).2).2.1 := by rw [heq₃]
          subst h1 h2
          exact hfn
      split at hr
      · rename_i e₂ h₂ w₂ heq₂
        cases hr
        have := hrd _ _ _ _ heq₂
        exact ⟨hp.trans this.1, this.2⟩
      · rename_i e₂ h₂ w₂ heq₂
        have h3 := hrd _ _ _ _ heq₂
        have h4 := extends_readAllLoop_win m_continue fuel e₂ h₂ w₂ r hr
        exact ⟨(hp.trans h3.1).trans h4.1, fun hs => h4.2 (h3.2 hs)⟩

theorem extends_readAll_win (os : Win32 σ) (stdSort : directoryEntries.StdSort)
    (self : directoryManager) (w : World σ) (r : directoryEntries × World σ)
    (h : readAll os stdSort self w = some r) : Extends w r.2 := by
  unfold readAll at h
  split at h
  · rename_i data rest w₁ heq
    have hw₁ : w₁ = (handle.open os self.m_path (w.log Event.enter)).2 := by rw [heq]
    have hfst : (handle.open os self.m_path (w.log Event.enter)).1 = some (data, rest) := by
      rw [heq]
    split at h
    · exact absurd h (by simp)
    · rename_i entries h₂ w₂ heq₂
      have hloop := extends_readAllLoop_win _ _ _ _ _ _ heq₂
      obtain ⟨t, ht, hn⟩ := hloop.1
      have hsome : h₂.isSome = true := hloop.2 rfl
      simp only at ht
      cases h
      simp only [handle.open, World.log] at hfst hw₁
      refine ⟨Event.enter :: Event.FindFirstFileW
          (if self.m_path.data.getLast? = some '\\' then self.m_path ++ "*" else self.m_path ++ "\\*")
          (some data.cFileName) :: (t ++ [Event.FindClose true, Event.leave]),
        ?_, neutral_call _ _ (Or.inr rfl) (Or.inr ⟨_, _, rfl⟩) hn⟩
      simp only [handle.close, World.log, ht, hw₁, hsome, hfst, Option.map_some']
      simp
  · rename_i w₁ heq
    have hw₁ : w₁ = (handle.open os self.m_path (w.log Event.enter)).2 := by rw [heq]
    have hfst : (handle.open os self.m_path (w.log Event.enter)).1 = none := by rw [heq]
    cases h
    simp only [handle.open, World.log] at hfst hw₁
    refine ⟨Event.enter :: Event.FindFirstFileW
        (if self.m_path.data.getLast? = some '\\' then self.m_path ++ "*" else self.m_path ++ "\\*") none
        :: ([Event.FindClose false] ++ [Event.leave]),
      ?_, neutral_call_failed (Event.FindFirstFileW _ none) rfl
        (neutral_inert (Event.FindClose false) rfl)⟩
    simp only [handle.close, World.log, hw₁, hfst, Option.map_none', Option.isSome_none]
    simp

end Windows.directoryManager

theorem discipline_of_extends {σ : Type} {w w' : World σ} (h : Extends w w') :
    ∃ t, w'.trace = w.trace ++ t ∧ HandleDiscipline t := by
  obtain ⟨t, ht, hn⟩ := h
  exact ⟨t, ht, hn 0 0 (le_refl 0)⟩

/-- C8: whenever `readAll()`, `removeDirectoryContents()` or
`removeDirectory()` returns, in the POSIX and in the Windows variant, for every
behaviour of the native calls (any tree, any failure of `opendir`, `stat` or the
find calls at any moment) and every behaviour of the cancellation flag, the
events the call added keep the handle discipline: a handle is only opened when
fewer handles are open than calls of `readAll` or of the `removeDirectory`
template are active, only open handles are closed, each call returns with its
own handle closed, and at the end as many handles are open as before. -/
theorem handles_released {σ : Type} :
    (∀ (os : Posix σ) (stdSort : directoryEntries.StdSort) (self : Linux.directoryManager)
      (w : World σ) (r : directoryEntries × World σ),
      Linux.directoryManager.readAll os stdSort self w = some r →
        ∃ t, r.2.trace = w.trace ++ t ∧ HandleDiscipline t) ∧
    (∀ (os : Posix σ) (self : Linux.directoryManager) (depth : Nat) (w w' : World σ),
      Linux.directoryManager.removeDirectoryContents os self depth w = some w' →
        ∃ t, w'.trace = w.trace ++ t ∧ HandleDiscipline t) ∧
    (∀ (os : Posix σ) (self : Linux.directoryManager) (depth : Nat) (w w' : World σ),
      Linux.directoryManager.removeDirectory os self depth w = some w' →
        ∃ t, w'.trace = w.trace ++ t ∧ HandleDiscipline t) ∧
    (∀ (os : Win32 σ) (stdSort : directoryEntries.StdSort) (self : Windows.directoryManager)
      (w : World σ) (r : directoryEntries × World σ),
      Windows.directoryManager.readAll os stdSort self w = some r →
        ∃ t, r.2.trace = w.trace ++ t ∧ HandleDiscipline t) ∧
    (∀ (os : Win32 σ) (self : Windows.directoryManager) (depth : Nat) (w w' : World σ),
      Windows.directoryManager.removeDirectoryContents os self depth w = some w' →
        ∃ t, w'.trace = w.trace ++ t ∧ HandleDiscipline t) ∧
    (∀ (os : Win32 σ) (self : Windows.directoryManager) (depth : Nat) (w w' : World σ),
      Windows.directoryManager.removeDirectory os self depth w = some w' →
        ∃ t, w'.trace = w.trace ++ t ∧ HandleDiscipline t) := by
  refine ⟨?_, ?_, ?_, ?_, ?_, ?_⟩
  · intro os stdSort self w r h
    exact discipline_of_extends (Linux.directoryManager.extends_readAll os stdSort self w r h)
  · intro os self depth w w' h
    unfold Linux.directoryManager.removeDirectoryContents at h
    split at h
    · exact absurd h (by simp)
    · exact discipline_of_extends
        (Linux.directoryManager.extends_template os _ _ _ _ _ _ h)
  · intro os self depth w w' h
    unfold Linux.directoryManager.removeDirectory at h
    split at h
    · exact absurd h (by simp)
    · exact discipline_of_extends
        (Linux.directoryManager.extends_template os _ _ _ _ _ _ h)
  · intro os stdSort self w r h
    exact discipline_of_extends (Windows.directoryManager.extends_readAll_win os stdSort self w r h)
  · intro os self depth w w' h
    exact discipline_of_extends
      (Windows.directoryManager.extends_template_win os _ _ _ _ _ _ h)
  · intro os self depth w w' h
    exact discipline_of_extends
      (Windows.directoryManager.extends_template_win os _ _ _ _ _ _ h)

/-- Witness of C8: `removeDirectory()` on the tree of the specification,
cancelled after four polls, returns; two handles were opened, one inside the
other, and both were closed. -/
theorem handles_released_witness :
    ∃ w', Linux.directoryManager.removeDirectory Fs.posix
        ⟨"/root", some (fun k => decide (k < 4))⟩ 2 ⟨sampleTree, 0, []⟩ = some w' ∧
      (w'.trace.filter (fun e => !e.inert)
        = [Event.enter, Event.opendir (QString.toUtf8 "/root/") true,
            Event.enter, Event.opendir (QString.toUtf8 "/root/sub/") true,
            Event.closedir, Event.leave, Event.closedir, Event.leave]) ∧
      ∃ t, w'.trace = [] ++ t ∧ HandleDiscipline t := by
  have hrun : (Linux.directoryManager.removeDirectory Fs.posix
      ⟨"/root", some (fun k => decide (k < 4))⟩ 2 ⟨sampleTree, 0, []⟩).isSome = true := by
    decide
  obtain ⟨w', hw'⟩ := Option.isSome_iff_exists.mp hrun
  refine ⟨w', hw', ?_, handles_released.2.2.1 Fs.posix _ 2 _ w' hw'⟩
  have hf : (Linux.directoryManager.removeDirectory Fs.posix
      ⟨"/root", some (fun k => decide (k < 4))⟩ 2 ⟨sampleTree, 0, []⟩).map
        (fun w => w.trace.filter (fun e => !e.inert))
      = some [Event.enter, Event.opendir (QString.toUtf8 "/root/") true,
            Event.enter, Event.opendir (QString.toUtf8 "/root/sub/") true,
            Event.closedir, Event.leave, Event.closedir, Event.leave] := by
    decide
  rw [hw'] at hf
  simpa using hf

/-! ## Runs on concrete inputs -/

theorem readAll_sorted_posix {σ : Type} (os : Posix σ) (stdSort : directoryEntries.StdSort)
    (hs : directoryEntries.StdSortContract stdSort) (self : Linux.directoryManager)
    (w : World σ) (r : directoryEntries × World σ)
    (h : Linux.directoryManager.readAll os stdSort self w = some r) :
    directoryEntries.AdjacentDescending r.1.m_folders ∧
    directoryEntries.AdjacentDescending r.1.m_files := by
  unfold Linux.directoryManager.readAll at h
  split at h
  · split at h
    · exact absurd h (by simp)
    · split at h
      · exact absurd h (by simp)
      · cases h
        exact ⟨directoryEntries.adjacent_of_pairwise (directoryEntries.stdSort_descending hs _),
          directoryEntries.adjacent_of_pairwise (directoryEntries.stdSort_descending hs _)⟩
  · cases h
    exact ⟨fun i hi => absurd hi (by simp), fun i hi => absurd hi (by simp)⟩

theorem readAll_sorted_windows {σ : Type} (os : Win32 σ) (stdSort : directoryEntries.StdSort)
    (hs : directoryEntries.StdSortContract stdSort) (self : Windows.directoryManager)
    (w : World σ) (r : directoryEntries × World σ)
    (h : Windows.directoryManager.readAll os stdSort self w = some r) :
    directoryEntries.AdjacentDescending r.1.m_folders ∧
    directoryEntries.AdjacentDescending r.1.m_files := by
  unfold Windows.directoryManager.readAll at h
  split at h
  · split at h
    · exact absurd h (by simp)
    · cases h
      exact ⟨directoryEntries.adjacent_of_pairwise (directoryEntries.stdSort_descending hs _),
        directoryEntries.adjacent_of_pairwise (directoryEntries.stdSort_descending hs _)⟩
  · cases h
    exact ⟨fun i hi => absurd hi (by simp), fun i hi => absurd hi (by simp)⟩

/-- C4, at the failing input: the POSIX and the Windows `readAll()` return a
store whose two sequences are descending by timestamp, cancelled or not; the
portable `readAll()` does not sort: for a directory that lists `a` (created at
1) before `b` (created at 2) it returns the files in that order, which is not
descending. -/
theorem readAll_sorted_except_portable :
    (∀ (σ : Type) (os : Posix σ) (stdSort : directoryEntries.StdSort),
      directoryEntries.StdSortContract stdSort →
      ∀ (self : Linux.directoryManager) (w : World σ) (r : directoryEntries × World σ),
        Linux.directoryManager.readAll os stdSort self w = some r →
          directoryEntries.AdjacentDescending r.1.m_folders ∧
          directoryEntries.AdjacentDescending r.1.m_files) ∧
    (∀ (σ : Type) (os : Win32 σ) (stdSort : directoryEntries.StdSort),
      directoryEntries.StdSortContract stdSort →
      ∀ (self : Windows.directoryManager) (w : World σ) (r : directoryEntries × World σ),
        Windows.directoryManager.readAll os stdSort self w = some r →
          directoryEntries.AdjacentDescending r.1.m_folders ∧
          directoryEntries.AdjacentDescending r.1.m_files) ∧
    Portable.directoryManager.readAll twoFilesQt
        (Portable.directoryManager.create twoFilesQt "/d")
      = some ⟨[], [⟨1, "a"⟩, ⟨2, "b"⟩]⟩ ∧
    ¬ directoryEntries.AdjacentDescending [⟨1, "a"⟩, ⟨2, "b"⟩] := by
  refine ⟨fun σ os stdSort hs self w r h => readAll_sorted_posix os stdSort hs self w r h,
    fun σ os stdSort hs self w r h => readAll_sorted_windows os stdSort hs self w r h,
    by decide, ?_⟩
  intro h
  have := h 0 (by decide)
  revert this
  decide

/-! ## Cancellation in the POSIX variant -/

theorem cancelScan_append : ∀ (t₁ t₂ : List Event) (stopped fresh : Bool),
    cancelScan stopped fresh (t₁ ++ t₂)
      = (cancelScan stopped fresh t₁).bind (fun r => cancelScan r.1 r.2 t₂)
  | [], t₂, stopped, fresh => by simp [cancelScan]
  | e :: t₁, t₂, stopped, fresh => by
    cases e with
    | poll v =>
      cases v <;> simp only [List.cons_append, cancelScan]
      · exact cancelScan_append t₁ t₂ _ _
      · split
        · rfl
        · exact cancelScan_append t₁ t₂ _ _
    | readdir n =>
      simp only [List.cons_append, cancelScan]
      split
      · exact cancelScan_append t₁ t₂ _ _
      · rfl
    | enter =>
      simp only [List.cons_append, cancelScan]
      split
      · rfl
      · exact cancelScan_append t₁ t₂ _ _
    | leave =>
      simp only [List.cons_append, cancelScan]
      split
      · rfl
      · exact cancelScan_append t₁ t₂ _ _
    | opendir p ok =>
      simp only [List.cons_append, cancelScan]
      split
      · rfl
      · exact cancelScan_append t₁ t₂ _ _
    | closedir =>
      simp only [List.cons_append, cancelScan]
      split
      · rfl
      · exact cancelScan_append t₁ t₂ _ _
    | stat p m =>
      simp only [List.cons_append, cancelScan]
      split
      · rfl
      · exact cancelScan_append t₁ t₂ _ _
    | unlink p ok =>
      simp only [List.cons_append, cancelScan]
      split
      · rfl
      · exact cancelScan_append t₁ t₂ _ _
    | rmdir p ok =>
      simp only [List.cons_append, cancelScan]
      split
      · rfl
      · exact cancelScan_append t₁ t₂ _ _
    | FindFirstFileW p n =>
      cases n with
      | none =>
        simp only [List.cons_append, cancelScan]
        split
        · rfl
        · exact cancelScan_append t₁ t₂ _ _
      | some n =>
        simp only [List.cons_append, cancelScan]
        split
        · exact cancelScan_append t₁ t₂ _ _
        · rfl
    | FindNextFileW n =>
      simp only [List.cons_append, cancelScan]
      split
      · exact cancelScan_append t₁ t₂ _ _
      · rfl
    | FindClose v =>
      simp only [List.cons_append, cancelScan]
      split
      · rfl
      · exact cancelScan_append t₁ t₂ _ _
    | DeleteFileW p ok =>
      simp only [List.cons_append, cancelScan]
      split
      · rfl
      · exact cancelScan_append t₁ t₂ _ _
    | RemoveDirectoryW p ok =>
      simp only [List.cons_append, cancelScan]
      split
      · rfl
      · exact cancelScan_append t₁ t₂ _ _

theorem cancelScan_plain : ∀ (t : List Event), (∀ e ∈ t, e.plain = true) →
    ∀ fresh, ∃ fresh', cancelScan false fresh t = some (false, fresh')
  | [], _, fresh => ⟨fresh, rfl⟩
  | e :: t, h, fresh => by
    have he := h e (List.mem_cons_self _ _)
    have ht := cancelScan_plain t (fun x hx => h x (List.mem_cons_of_mem _ hx)) false
    rcases e with _ | _ | _ | _ | _ | _ | _ | _ | _ | ⟨_, _ | _⟩ | _ | _ | _ | _ <;> first
      | (simp [Event.plain] at he; done)
      | (simpa [cancelScan] using ht)

theorem cancelScan_late : ∀ (t : List Event),
    (∀ e ∈ t, e.plain = true ∧ e.allowedAfterStop = true) →
    ∀ stopped fresh, ∃ fresh', cancelScan stopped fresh t = some (stopped, fresh')
  | [], _, stopped, fresh => ⟨fresh, rfl⟩
  | e :: t, h, stopped, fresh => by
    have he := h e (List.mem_cons_self _ _)
    have ht := cancelScan_late t (fun x hx => h x (List.mem_cons_of_mem _ hx)) stopped false
    rcases e with _ | _ | _ | _ | _ | _ | _ | _ | _ | ⟨_, _ | _⟩ | _ | _ | _ | _ <;> first
      | (simp [Event.plain] at he; done)
      | (simp [Event.allowedAfterStop] at he; done)
      | (simpa [cancelScan, Event.allowedAfterStop] using ht)

namespace Plain

variable {σ : Type}

theorem idle (w : World σ) : Plain w w := ⟨[], by simp, rfl, by simp⟩

theorem chain {w₁ w₂ w₃ : World σ} (h₁ : Plain w₁ w₂) (h₂ : Plain w₂ w₃) : Plain w₁ w₃ := by
  obtain ⟨t₁, e₁, p₁, a₁⟩ := h₁
  obtain ⟨t₂, e₂, p₂, a₂⟩ := h₂
  refine ⟨t₁ ++ t₂, by rw [e₂, e₁, List.append_assoc], by rw [p₂, p₁], ?_⟩
  intro e he
  rcases List.mem_append.mp he with h | h
  · exact a₁ e h
  · exact a₂ e h

theorem single {w w' : World σ} (e : Event) (he : e.plain = true)
    (ht : w'.trace = w.trace ++ [e]) (hp : w'.polls = w.polls) : Plain w w' :=
  ⟨[e], ht, hp, by simpa using he⟩

theorem toRespects {token : Token} {w w' : World σ} (h : Plain w w') : Respects token w w' := by
  obtain ⟨t, e, _, a⟩ := h
  refine ⟨t, e, fun fresh => ?_⟩
  obtain ⟨fr', hfr⟩ := cancelScan_plain t a fresh
  exact ⟨(false, fr'), hfr, fun h => absurd h (by simp)⟩

theorem andThen {token : Token} {w₁ w₂ w₃ : World σ} (h₁ : Plain w₁ w₂)
    (h₂ : Respects token w₂ w₃) : Respects token w₁ w₃ := by
  obtain ⟨t₁, e₁, _, a₁⟩ := h₁
  obtain ⟨t₂, e₂, s₂⟩ := h₂
  refine ⟨t₁ ++ t₂, by rw [e₂, e₁, List.append_assoc], fun fresh => ?_⟩
  obtain ⟨fr', hfr⟩ := cancelScan_plain t₁ a₁ fresh
  obtain ⟨r, hr, hs⟩ := s₂ fr'
  exact ⟨r, by rw [cancelScan_append, hfr]; exact hr, hs⟩

end Plain

namespace Late

variable {σ : Type}

theorem still (w : World σ) : Late w w := ⟨[], by simp, rfl, by simp⟩

theorem join {w₁ w₂ w₃ : World σ} (h₁ : Late w₁ w₂) (h₂ : Late w₂ w₃) : Late w₁ w₃ := by
  obtain ⟨t₁, e₁, p₁, a₁⟩ := h₁
  obtain ⟨t₂, e₂, p₂, a₂⟩ := h₂
  refine ⟨t₁ ++ t₂, by rw [e₂, e₁, List.append_assoc], by rw [p₂, p₁], ?_⟩
  intro e he
  rcases List.mem_append.mp he with h | h
  · exact a₁ e h
  · exact a₂ e h

theorem one {w w' : World σ} (e : Event) (he : e.plain = true)
    (hl : e.allowedAfterStop = true)
    (ht : w'.trace = w.trace ++ [e]) (hp : w'.polls = w.polls) : Late w w' :=
  ⟨[e], ht, hp, by simpa using ⟨he, hl⟩⟩

/-- What respects the flag still does so when followed by late events. -/
theorem after {token : Token} {w₁ w₂ w₃ : World σ}
    (h₁ : ∃ t, w₂.trace = w₁.trace ++ t ∧ ∀ fresh, ∃ r,
      cancelScan false fresh t = some r ∧ StopSeen token r.1 w₂)
    (h₂ : Late w₂ w₃) : Respects token w₁ w₃ := by
  obtain ⟨t₁, e₁, s₁⟩ := h₁
  obtain ⟨t₂, e₂, p₂, a₂⟩ := h₂
  refine ⟨t₁ ++ t₂, by rw [e₂, e₁, List.append_assoc], fun fresh => ?_⟩
  obtain ⟨r, hr, hs⟩ := s₁ fresh
  obtain ⟨fr', hfr⟩ := cancelScan_late t₂ a₂ r.1 r.2
  refine ⟨(r.1, fr'), by rw [cancelScan_append, hr]; exact hfr, ?_⟩
  intro h
  have := hs h
  rw [p₂]
  exact this

end Late

theorem RespectsAlways.respects {σ : Type} {token : Token} {w w' : World σ}
    (h : RespectsAlways token w w') : Respects token w w' := by
  obtain ⟨t, e, s⟩ := h
  exact ⟨t, e, fun fresh => s false fresh (fun h => absurd h (by simp))⟩

namespace Linux

variable {σ : Type}

theorem plain_stat (os : Posix σ) (p : List Nat) (w : World σ) : Plain w (stat os p w).2 :=
  Plain.single (Event.stat (cstr p) ((os.stat w.sys (cstr p)).1.map Stat.st_mode))
    rfl rfl rfl

theorem plain_unlink (os : Posix σ) (p : List Nat) (w : World σ) : Plain w (unlink os p w) :=
  Plain.single (Event.unlink (cstr p) (os.unlink w.sys (cstr p)).1) rfl rfl rfl

theorem late_rmdir (os : Posix σ) (p : List Nat) (w : World σ) : Late w (rmdir os p w) :=
  Late.one (Event.rmdir (cstr p) (os.rmdir w.sys (cstr p)).1) rfl rfl rfl rfl

theorem late_call (os : Posix σ) (f : Function) (w : World σ) : Late w (f.call os w) := by
  cases f with
  | nothing => exact Late.still w
  | rmdir p => exact late_rmdir os p w

namespace directoryManager

theorem respects_removePath (token : Token) (os : Posix σ)
    (recurse : pathManager → Function → World σ → Option (World σ))
    (hrec : ∀ pm f w w', recurse pm f w = some w' → Respects token w w')
    (pm : pathManager) (name : List Nat) (w : World σ) (r : pathManager × World σ)
    (h : removePath os recurse pm name w = some r) : Respects token w r.2 := by
  unfold removePath at h
  split at h
  · split at h
    · exact absurd h (by simp)
    · rename_i pm' pp _
      have hst := plain_stat os pp w
      split at h
      · rename_i m w₁ heq
        have hw₁ : w₁ = (stat os pp w).2 := by rw [heq]
        subst hw₁
        split at h
        · cases h
          exact (hst.chain (plain_unlink os pp _)).toRespects
        · split at h
          · split at h
            · exact absurd h (by simp)
            · rename_i child _
              cases hr : recurse child (Function.rmdir pp) (stat os pp w).2 with
              | none => rw [hr] at h; exact absurd h (by simp)
              | some w₂ =>
                rw [hr] at h
                cases h
                exact hst.andThen (hrec _ _ _ _ hr)
          · cases h
            exact hst.toRespects
      · rename_i w₁ heq
        have hw₁ : w₁ = (stat os pp w).2 := by rw [heq]
        subst hw₁
        cases h
        exact hst.toRespects
  · cases h
    exact (Plain.idle w).toRespects

theorem respects_removeLoop (token : Token) (hmono : token.Monotone)
    (rmPath : pathManager → List Nat → World σ → Option (pathManager × World σ))
    (hrm : ∀ pm n w r, rmPath pm n w = some r → Respects token w r.2) :
    ∀ (fuel : Nat) (pm : pathManager) (dir : List (List Nat)) (w : World σ)
      (r : pathManager × World σ),
      removeLoop (some token) rmPath fuel pm dir w = some r → RespectsAlways token w r.2
  | 0, _, _, _, _, h => by simp [removeLoop] at h
  | fuel + 1, pm, dir, w, r, h => by
    unfold removeLoop at h
    simp only [World.poll] at h
    cases hb : token w.polls with
    | false =>
      simp only [hb] at h
      cases h
      refine ⟨[Event.poll false], rfl, fun stopped fresh _ => ⟨(true, false), rfl, ?_⟩⟩
      intro _
      exact hmono _ hb
    | true =>
      simp only [hb] at h
      have hst : ∀ stopped, StopSeen token stopped w → stopped = false := by
        intro stopped hs
        cases stopped with
        | false => rfl
        | true => have := hs rfl; rw [hb] at this; exact absurd this (by simp)
      cases dir with
      | nil =>
        simp only [readdir] at h
        cases h
        refine ⟨[Event.poll true, Event.readdir none], by simp [World.log],
          fun stopped fresh hs => ?_⟩
        rw [hst stopped hs]
        exact ⟨(false, false), rfl, fun h => absurd h (by simp)⟩
      | cons name rest =>
        simp only [readdir] at h
        split at h
        · exact absurd h (by simp)
        · rename_i pm₃ w₃ heq₃
          obtain ⟨t₃, e₃, s₃⟩ := hrm _ _ _ _ heq₃
          obtain ⟨t₄, e₄, s₄⟩ :=
            respects_removeLoop token hmono rmPath hrm fuel pm₃ rest w₃ r h
          refine ⟨[Event.poll true, Event.readdir (some name)] ++ t₃ ++ t₄, ?_,
            fun stopped fresh hs => ?_⟩
          · rw [e₄]
            simp only at e₃
            rw [e₃]
            simp [World.log]
          · rw [hst stopped hs]
            obtain ⟨r₃, hr₃, hs₃⟩ := s₃ false
            obtain ⟨r₄, hr₄, hs₄⟩ := s₄ r₃.1 r₃.2 hs₃
            refine ⟨r₄, ?_, hs₄⟩
            rw [cancelScan_append, cancelScan_append]
            simp only [cancelScan, Bool.false_eq_true, if_false, Bool.not_false, Bool.and_self,
              if_true, Option.some_bind, hr₃]
            exact hr₄

theorem respects_template (token : Token) (hmono : token.Monotone) (os : Posix σ) :
    ∀ (depth : Nat) (pm : pathManager) (f : Function) (w w' : World σ),
      removeDirectoryTemplate os (some token) depth pm f w = some w' → Respects token w w'
  | 0, _, _, _, _, h => by simp [removeDirectoryTemplate] at h
  | depth + 1, pm, f, w, w', h => by
    unfold removeDirectoryTemplate at h
    have hopen : Plain w (opendir os pm.path (w.log Event.enter)).2 :=
      ⟨[Event.enter, Event.opendir (cstr pm.path) (os.opendir w.sys (cstr pm.path)).1.isSome],
        by simp [opendir, World.log], rfl, by simp [Event.plain]⟩
    split at h
    · rename_i dir w₁ heq
      have hw₁ : w₁ = (opendir os pm.path (w.log Event.enter)).2 := by rw [heq]
      subst hw₁
      split at h
      · exact absurd h (by simp)
      · rename_i pm₂ w₂ heq₂
        have hloop := (respects_removeLoop token hmono
          (removePath os (removeDirectoryTemplate os (some token) depth))
          (fun pm n w r hr => respects_removePath token os _
            (respects_template token hmono os depth) pm n w r hr)
          _ _ _ _ _ heq₂).respects
        have hlate : Late w₂
            ((unique_rsc_release (some dir) (f.call os w₂)).log Event.leave) :=
          (late_call os f w₂).join
            ⟨[Event.closedir, Event.leave], by simp [unique_rsc_release, World.log], rfl,
              by simp [Event.plain, Event.allowedAfterStop]⟩
        cases h
        exact hopen.andThen (Late.after hloop hlate)
    · rename_i w₁ heq
      have hw₁ : w₁ = (opendir os pm.path (w.log Event.enter)).2 := by rw [heq]
      subst hw₁
      cases h
      have hleave : Plain (opendir os pm.path (w.log Event.enter)).2
          ((unique_rsc_release none (opendir os pm.path (w.log Event.enter)).2).log
            Event.leave) :=
        ⟨[Event.leave], by simp [unique_rsc_release, World.log], rfl, by simp [Event.plain]⟩
      exact (hopen.chain hleave).toRespects

end directoryManager

end Linux

/-- The POSIX variant keeps the cancellation discipline. -/
theorem posix_cancellation {σ : Type} (os : Posix σ) (token : Token)
    (hmono : token.Monotone) (m_path : String) (depth : Nat) (w w' : World σ) :
    (Linux.directoryManager.removeDirectoryContents os ⟨m_path, some token⟩ depth w = some w' →
      ∃ t r, w'.trace = w.trace ++ t ∧ cancelScan false false t = some r) ∧
    (Linux.directoryManager.removeDirectory os ⟨m_path, some token⟩ depth w = some w' →
      ∃ t r, w'.trace = w.trace ++ t ∧ cancelScan false false t = some r) := by
  constructor
  · intro h
    unfold Linux.directoryManager.removeDirectoryContents at h
    split at h
    · exact absurd h (by simp)
    · obtain ⟨t, e, s⟩ :=
        Linux.directoryManager.respects_template token hmono os _ _ _ _ _ h
      obtain ⟨r, hr, _⟩ := s false
      exact ⟨t, r, e, hr⟩
  · intro h
    unfold Linux.directoryManager.removeDirectory at h
    split at h
    · exact absurd h (by simp)
    · obtain ⟨t, e, s⟩ :=
        Linux.directoryManager.respects_template token hmono os _ _ _ _ _ h
      obtain ⟨r, hr, _⟩ := s false
      exact ⟨t, r, e, hr⟩

/-- C5, at the failing input.  The POSIX variant does what the claim says:
for every behaviour of the native calls and every flag that keeps reading
"stop" once it has, whenever `removeDirectoryContents()` or `removeDirectory()`
returns, every `readdir` of the run came right after a poll that read
"continue", and after the first poll that read "stop" the run only polled
again, removed directories whose processing had begun, closed handles and
returned.  The Windows variant does not: with a flag that reads "stop" at
every poll, `removeDirectoryContents()` on a drive root whose first record is
the file `a.txt` deletes the file before it reads the flag for the first time,
and its events fail the check; the POSIX variant on a directory with the same
content reads the flag first and removes nothing. -/
theorem cancellation_polled_posix_only :
    (∀ (σ : Type) (os : Posix σ) (token : Token), token.Monotone →
      ∀ (m_path : String) (depth : Nat) (w w' : World σ),
        (Linux.directoryManager.removeDirectoryContents os ⟨m_path, some token⟩ depth w
            = some w' →
          ∃ t r, w'.trace = w.trace ++ t ∧ cancelScan false false t = some r) ∧
        (Linux.directoryManager.removeDirectory os ⟨m_path, some token⟩ depth w = some w' →
          ∃ t r, w'.trace = w.trace ++ t ∧ cancelScan false false t = some r)) ∧
    (Windows.directoryManager.removeDirectoryContents driveRoot
        ⟨Windows.setPath "D:", some (fun _ => false)⟩ 1 ⟨(), 0, []⟩).map World.trace
      = some [Event.enter, Event.FindFirstFileW "\\\\?\\D:\\*" (some "a.txt"),
          Event.DeleteFileW "\\\\?\\D:\\a.txt" true, Event.poll false,
          Event.FindClose true, Event.leave] ∧
    cancelScan false false
        [Event.enter, Event.FindFirstFileW "\\\\?\\D:\\*" (some "a.txt"),
          Event.DeleteFileW "\\\\?\\D:\\a.txt" true, Event.poll false,
          Event.FindClose true, Event.leave] = none ∧
    (Linux.directoryManager.removeDirectoryContents Fs.posix
        ⟨"/d", some (fun _ => false)⟩ 1 ⟨oneFileTree, 0, []⟩).map
          (fun w => (w.sys, w.trace))
      = some (oneFileTree, [Event.enter, Event.opendir (QString.toUtf8 "/d/") true,
          Event.poll false, Event.closedir, Event.leave]) :=
  ⟨fun _ os token hmono m_path depth w w' => posix_cancellation os token hmono m_path depth w w',
    by decide, by decide, by decide⟩

/-! ## Removal of a tree with ASCII names -/

namespace QString

theorem toUtf8_append (a b : String) : toUtf8 (a ++ b) = toUtf8 a ++ toUtf8 b := by
  simp [toUtf8, String.data_append]

theorem size_append (a b : String) : size (a ++ b) = size a + size b := by
  simp [size, String.data_append]

theorem isAscii_append {a b : String} (ha : isAscii a) (hb : isAscii b) : isAscii (a ++ b) := by
  intro c hc
  rw [String.data_append] at hc
  rcases List.mem_append.mp hc with h | h
  · exact ha c h
  · exact hb c h

theorem isAscii_slash : isAscii "/" := by decide

theorem char_eq_of_toNat_eq {c d : Char} (h : c.toNat = d.toNat) : c = d := by
  rw [← Char.ofNat_toNat c, ← Char.ofNat_toNat d, h]

theorem toUtf8_inj {a b : String} (ha : isAscii a) (hb : isAscii b)
    (h : toUtf8 a = toUtf8 b) : a = b := by
  rw [toUtf8_ascii ha, toUtf8_ascii hb] at h
  apply String.ext
  exact List.map_injective_iff.mpr (fun c d hcd => char_eq_of_toNat_eq hcd) h

theorem charOf_toNat (c : Char) : charOf c.toNat = c := by
  have hv : c.toNat.isValidChar := c.valid
  simp only [charOf, hv, if_true]
  exact Char.ofNat_toNat c

theorem decodeLoop_ascii : ∀ (l : List Char) (fuel : Nat),
    (∀ c ∈ l, 0 < c.toNat ∧ c.toNat < 0x80) → l.length ≤ fuel →
    decodeLoop fuel (l.map Char.toNat) = l
  | [], 0, _, _ => rfl
  | [], _ + 1, _, _ => rfl
  | c :: l, 0, _, h => by simp at h
  | c :: l, fuel + 1, ha, h => by
    have hc := ha c (List.mem_cons_self _ _)
    have ih := decodeLoop_ascii l fuel (fun d hd => ha d (List.mem_cons_of_mem _ hd))
      (by simp only [List.length_cons] at h; omega)
    have hstep : decodeStep (c.toNat :: l.map Char.toNat) = (charOf c.toNat, 1) := by
      simp [decodeStep, hc.2]
    simp only [List.map_cons, decodeLoop, hstep, List.drop_succ_cons, List.drop_zero, ih,
      charOf_toNat]

theorem fromUtf8_toUtf8 {s : String} (h : isAscii s) : fromUtf8 (toUtf8 s) = s := by
  apply String.ext
  simp only [fromUtf8, decodeUtf8, toUtf8_ascii h]
  exact decodeLoop_ascii s.data _ h (by simp)

end QString

theorem join_data (P n : String) : (P ++ "/" ++ n).data = P.data ++ '/' :: n.data := by
  simp [String.data_append]

theorem path_data (m : FsNode) : m.path.data = m.dir.data ++ '/' :: m.name.data :=
  join_data m.dir m.name

theorem under_of_atOrUnder_child {P n s : String} (h : AtOrUnder (P ++ "/" ++ n) s) :
    Under P s := by
  rcases h with rfl | ⟨r, hr⟩
  · exact ⟨n.data, join_data P n⟩
  · exact ⟨n.data ++ '/' :: r, by rw [hr, join_data]; simp⟩

theorem not_under_self (Q : String) : ¬ Under Q Q := by
  rintro ⟨r, hr⟩
  have := congrArg List.length hr
  simp at this

theorem under_child_join (P n : String) : Under P (P ++ "/" ++ n) :=
  ⟨n.data, join_data P n⟩

theorem list_sep : ∀ (a b x y : List Char), a ++ x = b ++ y → '/' ∉ a → '/' ∉ b →
    (x = [] ∨ ∃ r, x = '/' :: r) → (y = [] ∨ ∃ r, y = '/' :: r) → a = b
  | [], [], _, _, _, _, _, _, _ => rfl
  | [], d :: b, x, y, h, _, hb, hx, _ => by
    rcases hx with rfl | ⟨r, rfl⟩
    · simp at h
    · simp only [List.nil_append, List.cons_append, List.cons.injEq] at h
      exact absurd (h.1 ▸ List.mem_cons_self _ _) hb
  | c :: a, [], x, y, h, ha, _, _, hy => by
    rcases hy with rfl | ⟨r, rfl⟩
    · simp at h
    · simp only [List.nil_append, List.cons_append, List.cons.injEq] at h
      exact absurd (h.1 ▸ List.mem_cons_self _ _) ha
  | c :: a, d :: b, x, y, h, ha, hb, hx, hy => by
    simp only [List.cons_append, List.cons.injEq] at h
    have := list_sep a b x y h.2 (fun hm => ha (List.mem_cons_of_mem _ hm))
      (fun hm => hb (List.mem_cons_of_mem _ hm)) hx hy
    rw [h.1, this]

/-- Two entries of one directory with slash-free names that have a path in
common below them are the same entry. -/
theorem atOrUnder_sep {P n n' s : String} (hn : '/' ∉ n.data) (hn' : '/' ∉ n'.data)
    (h : AtOrUnder (P ++ "/" ++ n) s) (h' : AtOrUnder (P ++ "/" ++ n') s) : n = n' := by
  have e : ∃ x, s.data = P.data ++ '/' :: (n.data ++ x) ∧ (x = [] ∨ ∃ r, x = '/' :: r) := by
    rcases h with rfl | ⟨r, hr⟩
    · exact ⟨[], by rw [join_data]; simp, Or.inl rfl⟩
    · exact ⟨'/' :: r, by rw [hr, join_data]; simp, Or.inr ⟨r, rfl⟩⟩
  have e' : ∃ y, s.data = P.data ++ '/' :: (n'.data ++ y) ∧ (y = [] ∨ ∃ r, y = '/' :: r) := by
    rcases h' with rfl | ⟨r, hr⟩
    · exact ⟨[], by rw [join_data]; simp, Or.inl rfl⟩
    · exact ⟨'/' :: r, by rw [hr, join_data]; simp, Or.inr ⟨r, rfl⟩⟩
  obtain ⟨x, hx, cx⟩ := e
  obtain ⟨y, hy, cy⟩ := e'
  rw [hx] at hy
  have := List.append_cancel_left hy
  simp only [List.cons.injEq, true_and] at this
  exact String.ext (list_sep _ _ x y this hn hn' cx cy)

namespace Fs

theorem stripSlash_dir (P : String) :
    stripSlash (QString.toUtf8 (P ++ "/")) = QString.toUtf8 P := by
  have h : QString.toUtf8 (P ++ "/") = QString.toUtf8 P ++ [47] := by
    rw [QString.toUtf8_append]; rfl
  rw [h, stripSlash, List.getLast?_concat, if_pos rfl, List.dropLast_concat]

theorem stripSlash_entry (P n : String) (hn : nameOk n) :
    stripSlash (QString.toUtf8 (P ++ "/" ++ n)) = QString.toUtf8 (P ++ "/" ++ n) := by
  obtain ⟨ha, hne, hs, _, _⟩ := hn
  have hd : n.data = n.data.dropLast ++ [n.data.getLast hne] :=
    (List.dropLast_append_getLast hne).symm
  have hlast : n.data.getLast hne ≠ '/' := fun h => hs (h ▸ List.getLast_mem hne)
  have hb : QString.toUtf8 n = (n.data.dropLast.map Char.toNat) ++ [(n.data.getLast hne).toNat] := by
    rw [QString.toUtf8_ascii ha]
    conv_lhs => rw [hd]
    simp
  have : (QString.toUtf8 (P ++ "/" ++ n)).getLast? = some (n.data.getLast hne).toNat := by
    rw [QString.toUtf8_append, hb, ← List.append_assoc, List.getLast?_concat]
  rw [stripSlash, this, if_neg]
  intro h
  have h47 : (n.data.getLast hne).toNat = '/'.toNat := by
    simpa using h
  exact hlast (QString.char_eq_of_toNat_eq h47)

end Fs

namespace pathManager

theorem endsWithSlash_entry (P n : String) (hn : nameOk n) :
    QString.endsWithSlash (P ++ "/" ++ n) = false := by
  obtain ⟨_, hne, hs, _, _⟩ := hn
  have hd : n.data = n.data.dropLast ++ [n.data.getLast hne] :=
    (List.dropLast_append_getLast hne).symm
  have hlast : n.data.getLast hne ≠ '/' := fun h => hs (h ▸ List.getLast_mem hne)
  have : (P ++ "/" ++ n).data.getLast? = some (n.data.getLast hne) := by
    rw [join_data]
    conv_lhs => rw [hd]
    rw [show P.data ++ '/' :: (n.data.dropLast ++ [n.data.getLast hne])
      = (P.data ++ '/' :: n.data.dropLast) ++ [n.data.getLast hne] by simp,
      List.getLast?_concat]
  unfold QString.endsWithSlash
  rw [this]
  simpa using hlast

/-- The path manager of an ASCII directory path without trailing `/`. -/
theorem ofQString_dir (P : String) (hP : QString.isAscii P)
    (hs : QString.endsWithSlash P = false) (hfit : QString.size P + 1 < PATH_MAX) :
    ∃ pm, ofQString P = some pm ∧ Holds (QString.toUtf8 (P ++ "/")) pm ∧
      pm.path = QString.toUtf8 (P ++ "/") := by
  have h0 : (0 : Nat) < PATH_MAX := by unfold PATH_MAX; omega
  have hB : QString.toUtf8 (P ++ "/") = QString.toUtf8 P ++ [47] := by
    rw [QString.toUtf8_append]; rfl
  have hnz : ∀ b ∈ QString.toUtf8 P ++ [47], b ≠ 0 := by
    intro b hb
    rcases List.mem_append.mp hb with h | h
    · exact QString.toUtf8_ascii_ne_zero hP b h
    · simp at h; omega
  have hlen : (QString.toUtf8 P ++ [47]).length = QString.size P + 1 := by
    simp [QString.toUtf8_ascii_length hP]
  have htake : (QString.toUtf8 P ++ [47]).take (PATH_MAX - 1 - 0) = QString.toUtf8 P ++ [47] :=
    List.take_of_length_le (by rw [hlen]; omega)
  refine ⟨⟨QString.size P + 1, QString.toUtf8 P ++ [47]⟩, ?_, ?_, ?_⟩
  · simp only [ofQString, init, hs, Bool.false_eq_true, if_false, append_inside _ _ _ h0,
      List.length_nil, le_refl, if_true, List.take_zero, List.nil_append, Option.map_some',
      cstr_eq_self hnz, htake]
  · rw [hB]
    exact ⟨hlen.symm, Or.inl ⟨by rw [hlen]; omega, [], by simp⟩⟩
  · rw [hB]; rfl

theorem setPath_exact {B : List Nat} {pm : pathManager} (h : Holds B pm) (name : String)
    (hn : QString.isAscii name)
    (hfit : B.length + (QString.toUtf8 name).length ≤ PATH_MAX - 1) :
    ∃ pm', pm.setPath (QString.toUtf8 name) = some (pm', B ++ QString.toUtf8 name) ∧
      Holds B pm' := by
  obtain ⟨pm', hs, hh⟩ := setPath_holds h (QString.toUtf8 name)
  refine ⟨pm', ?_, hh⟩
  rw [hs, cstr_eq_self (QString.toUtf8_ascii_ne_zero hn),
    List.take_of_length_le (by rw [List.length_append]; exact hfit)]

theorem ofCString_ascii (s : String) (hs : QString.isAscii s) :
    ofCString (QString.toUtf8 s) = ofQString s := by
  rw [ofCString, cstr_eq_self (QString.toUtf8_ascii_ne_zero hs), QString.fromUtf8_toUtf8 hs,
    ofQString]

end pathManager

theorem under_path_of_atOrUnder_dir {Q : String} {m : FsNode} (h : AtOrUnder Q m.dir) :
    Under Q m.path := by
  rcases h with h | ⟨r, hr⟩
  · exact ⟨m.name.data, by rw [path_data, h]⟩
  · exact ⟨r ++ '/' :: m.name.data, by rw [path_data, hr]; simp⟩

/-- Every node laid out for the entries of `Q` has its directory at or below `Q`. -/
theorem layout_dir : ∀ (cs : FsForest) (Q : String) (m : FsNode),
    m ∈ cs.layout Q → AtOrUnder Q m.dir
  | FsForest.nil, _, _, h => by simp [FsForest.layout] at h
  | FsForest.cons (FsTree.file n c) ts, Q, m, h => by
    simp only [FsForest.layout, FsTree.layout, List.singleton_append, List.mem_cons] at h
    rcases h with rfl | h
    · exact Or.inl rfl
    · exact layout_dir ts Q m h
  | FsForest.cons (FsTree.dir n ds) ts, Q, m, h => by
    simp only [FsForest.layout, FsTree.layout, List.cons_append, List.mem_cons,
      List.mem_append] at h
    rcases h with rfl | h | h
    · exact Or.inl rfl
    · exact Or.inr (under_of_atOrUnder_child (layout_dir ds (Q ++ "/" ++ n) m h))
    · exact layout_dir ts Q m h

/-- Every node laid out for a tree in `Q` has its path at or below the path
of the tree. -/
theorem layout_path (t : FsTree) (Q : String) (m : FsNode) (h : m ∈ t.layout Q) :
    AtOrUnder (Q ++ "/" ++ t.name) m.path := by
  cases t with
  | file n c =>
    simp only [FsTree.layout, List.mem_singleton] at h
    subst h
    exact Or.inl rfl
  | dir n ds =>
    simp only [FsTree.layout, List.mem_cons] at h
    rcases h with rfl | h
    · exact Or.inl rfl
    · exact Or.inr (under_path_of_atOrUnder_dir (layout_dir ds _ m h))

theorem forest_layout_path : ∀ (cs : FsForest) (Q : String) (m : FsNode),
    m ∈ cs.layout Q → ∃ n ∈ cs.names, AtOrUnder (Q ++ "/" ++ n) m.path
  | FsForest.nil, _, _, h => by simp [FsForest.layout] at h
  | FsForest.cons t ts, Q, m, h => by
    simp only [FsForest.layout, List.mem_append] at h
    rcases h with h | h
    · exact ⟨t.name, List.mem_cons_self _ _, layout_path t Q m h⟩
    · obtain ⟨n, hn, hp⟩ := forest_layout_path ts Q m h
      exact ⟨n, List.mem_cons_of_mem _ hn, hp⟩

theorem nameOk_of_ok (t : FsTree) (Q : String) (h : t.ok Q) : nameOk t.name := by
  cases t with
  | file n c => exact h.1
  | dir n ds => exact h.1

theorem forest_nameOk : ∀ (cs : FsForest) (Q : String), cs.ok Q → ∀ n ∈ cs.names, nameOk n
  | FsForest.nil, _, _, n, hn => by simp [FsForest.names] at hn
  | FsForest.cons t ts, Q, h, n, hn => by
    simp only [FsForest.names, List.mem_cons] at hn
    rcases hn with rfl | hn
    · exact nameOk_of_ok t Q h.1
    · exact forest_nameOk ts Q h.2.2 n hn

theorem isAscii_join {P n : String} (hP : QString.isAscii P) (hn : QString.isAscii n) :
    QString.isAscii (P ++ "/" ++ n) :=
  QString.isAscii_append (QString.isAscii_append hP QString.isAscii_slash) hn

/-- The nodes laid out for trees with entry names in an ASCII directory are ASCII. -/
theorem layout_ascii : ∀ (cs : FsForest) (Q : String), QString.isAscii Q → cs.ok Q →
    ∀ m ∈ cs.layout Q, NodeAscii m
  | FsForest.nil, _, _, _, m, h => by simp [FsForest.layout] at h
  | FsForest.cons (FsTree.file n c) ts, Q, hQ, hok, m, h => by
    simp only [FsForest.layout, FsTree.layout, List.singleton_append, List.mem_cons] at h
    rcases h with rfl | h
    · exact ⟨hQ, hok.1.1.1⟩
    · exact layout_ascii ts Q hQ hok.2.2 m h
  | FsForest.cons (FsTree.dir n ds) ts, Q, hQ, hok, m, h => by
    simp only [FsForest.layout, FsTree.layout, List.cons_append, List.mem_cons,
      List.mem_append] at h
    rcases h with rfl | h | h
    · exact ⟨hQ, hok.1.1.1⟩
    · exact layout_ascii ds (Q ++ "/" ++ n) (isAscii_join hQ hok.1.1.1) hok.1.2.2 m h
    · exact layout_ascii ts Q hQ hok.2.2 m h

theorem nodeAscii_path {m : FsNode} (h : NodeAscii m) : QString.isAscii m.path :=
  isAscii_join h.1 h.2

theorem dir_ne_of_under {Q : String} {m : FsNode} (h : AtOrUnder (Q) m.dir) (n : String)
    (P : String) (hQ : Q = P ++ "/" ++ n) : m.dir ≠ P := by
  intro e
  subst hQ
  have := under_of_atOrUnder_child h
  rw [e] at this
  exact not_under_self P this

/-- The nodes of the layout whose directory is `Q` are the entries of `Q`. -/
theorem layout_children : ∀ (cs : FsForest) (Q : String), cs.ok Q →
    ((cs.layout Q).filter (fun c => c.dir == Q)).map FsNode.name = cs.names
  | FsForest.nil, _, _ => rfl
  | FsForest.cons (FsTree.file n c) ts, Q, hok => by
    have ih := layout_children ts Q hok.2.2
    simp only [FsForest.layout, FsTree.layout, List.singleton_append, List.filter_cons,
      beq_self_eq_true, if_true, List.map_cons, ih, FsForest.names, FsTree.name]
  | FsForest.cons (FsTree.dir n ds) ts, Q, hok => by
    have ih := layout_children ts Q hok.2.2
    have hnone : (ds.layout (Q ++ "/" ++ n)).filter (fun c => c.dir == Q) = [] := by
      rw [List.filter_eq_nil_iff]
      intro m hm
      have := dir_ne_of_under (layout_dir ds _ m hm) n Q rfl
      simpa using this
    simp only [FsForest.layout, FsTree.layout, List.cons_append, List.filter_cons,
      beq_self_eq_true, if_true, List.filter_append, hnone, List.nil_append, List.map_cons, ih,
      FsForest.names, FsTree.name]

namespace Fs

theorem resolve_mid (A R : Fs) (m : FsNode) (p : List Nat) (hm : NodeAscii m)
    (hp : stripSlash p = QString.toUtf8 m.path)
    (hA : ∀ a ∈ A, NodeAscii a ∧ a.path ≠ m.path) : resolve (A ++ m :: R) p = some m := by
  have hnone : A.find? (fun n => QString.toUtf8 n.path == stripSlash p) = none := by
    rw [List.find?_eq_none]
    intro a ha
    obtain ⟨haa, hne⟩ := hA a ha
    rw [hp]
    intro h
    exact hne (QString.toUtf8_inj (nodeAscii_path haa) (nodeAscii_path hm) (by simpa using h))
  rw [resolve, List.find?_append, hnone, Option.none_or, List.find?_cons, hp]
  simp

theorem filter_ne_self (L : Fs) (m : FsNode) (h : ∀ a ∈ L, a.path ≠ m.path) :
    L.filter (fun c => c != m) = L := by
  rw [List.filter_eq_self]
  intro a ha
  have : a ≠ m := fun e => h a ha (by rw [e])
  simpa using this

theorem filter_mid (A R : Fs) (m : FsNode) (hA : ∀ a ∈ A, a.path ≠ m.path)
    (hR : ∀ a ∈ R, a.path ≠ m.path) : (A ++ m :: R).filter (fun c => c != m) = A ++ R := by
  rw [List.filter_append, List.filter_cons, filter_ne_self A m hA, filter_ne_self R m hR]
  simp

theorem children_nil (L : Fs) (d : FsNode) (h : ∀ a ∈ L, a.dir ≠ d.path) :
    L.filter (fun c => c.dir == d.path) = [] := by
  rw [List.filter_eq_nil_iff]
  intro a ha
  simpa using h a ha

end Fs

theorem S_ISREG_file : S_ISREG (S_IFREG + 0o644) = true := by decide

theorem S_ISREG_dir : S_ISREG (S_IFDIR + 0o755) = false := by decide

theorem S_ISDIR_dir : S_ISDIR (S_IFDIR + 0o755) = true := by decide

namespace Linux

theorem step_stat (fs : Fs) (p : List Nat) (m : FsNode) (polls : Nat) (tr : List Event)
    (hc : cstr p = p) (hr : Fs.resolve fs p = some m) :
    stat Fs.posix p ⟨fs, polls, tr⟩
      = (some ⟨if m.isDir then S_IFDIR + 0o755 else S_IFREG + 0o644, m.ctime⟩,
          ⟨fs, polls, tr ++ [Event.stat p
            (some (if m.isDir then S_IFDIR + 0o755 else S_IFREG + 0o644))]⟩) := by
  simp only [stat, Fs.posix, hc, hr, Option.map_some']

theorem step_unlink (fs : Fs) (p : List Nat) (m : FsNode) (polls : Nat) (tr : List Event)
    (hc : cstr p = p) (hr : Fs.resolve fs p = some m) (hf : m.isDir = false) :
    unlink Fs.posix p ⟨fs, polls, tr⟩
      = ⟨fs.filter (fun c => c != m), polls, tr ++ [Event.unlink p true]⟩ := by
  simp [unlink, Fs.posix, hc, hr, hf]

theorem step_rmdir (fs : Fs) (p : List Nat) (d : FsNode) (polls : Nat) (tr : List Event)
    (hc : cstr p = p) (hr : Fs.resolve fs p = some d) (hd : d.isDir = true)
    (he : Fs.children fs d = []) :
    rmdir Fs.posix p ⟨fs, polls, tr⟩
      = ⟨fs.filter (fun c => c != d), polls, tr ++ [Event.rmdir p true]⟩ := by
  simp [rmdir, Fs.posix, hc, hr, hd, he]

theorem step_opendir (fs : Fs) (p : List Nat) (d : FsNode) (polls : Nat) (tr : List Event)
    (hc : cstr p = p) (hr : Fs.resolve fs p = some d) (hd : d.isDir = true) :
    opendir Fs.posix p ⟨fs, polls, tr⟩
      = (some ([46] :: [46, 46] :: (Fs.children fs d).map (fun c => QString.toUtf8 c.name)),
          ⟨fs, polls, tr ++ [Event.opendir p true]⟩) := by
  simp [opendir, Fs.posix, hc, hr, hd]

end Linux

namespace Linux.directoryManager

theorem removeLoop_skip_dots
    (recurse : pathManager → Function → World Fs → Option (World Fs))
    (fuel : Nat) (pm : pathManager) (names : List (List Nat)) (fs : Fs) (polls : Nat)
    (tr : List Event) :
    removeLoop none (removePath Fs.posix recurse) (fuel + 2) pm ([46] :: [46, 46] :: names)
        ⟨fs, polls, tr⟩
      = removeLoop none (removePath Fs.posix recurse) fuel pm names
          ⟨fs, polls, tr ++ [Event.readdir (some [46]), Event.readdir (some [46, 46])]⟩ := by
  have h1 : ∀ w : World Fs, removePath Fs.posix recurse pm [46] w = some (pm, w) := by
    intro w; simp [removePath, cstr]
  have h2 : ∀ w : World Fs, removePath Fs.posix recurse pm [46, 46] w = some (pm, w) := by
    intro w; simp [removePath, cstr]
  simp only [removeLoop, World.poll, readdir, h1, h2, World.log, List.append_assoc,
    List.singleton_append]

theorem nameOk_valid {n : String} (h : nameOk n) :
    (cstr (QString.toUtf8 n) != [46] && cstr (QString.toUtf8 n) != [46, 46]) = true := by
  obtain ⟨ha, _, _, h1, h2⟩ := h
  have e1 : QString.toUtf8 n ≠ [46] := fun e =>
    h1 (QString.toUtf8_inj ha (by decide : QString.isAscii ".") (e.trans (by decide)))
  have e2 : QString.toUtf8 n ≠ [46, 46] := fun e =>
    h2 (QString.toUtf8_inj ha (by decide : QString.isAscii "..") (e.trans (by decide)))
  rw [cstr_eq_self (QString.toUtf8_ascii_ne_zero ha)]
  simp [e1, e2]

theorem entry_fits {P n : String} (hP : QString.isAscii P) (hn : QString.isAscii n)
    (hfit : QString.size (P ++ "/" ++ n) < PATH_MAX) :
    (QString.toUtf8 (P ++ "/")).length + (QString.toUtf8 n).length ≤ PATH_MAX - 1 := by
  have h1 := QString.toUtf8_ascii_length (QString.isAscii_append hP QString.isAscii_slash)
  have h2 := QString.toUtf8_ascii_length hn
  rw [h1, h2, ← QString.size_append]
  omega

/-- `removePath` on an entry that is a regular file: one `stat`, one `unlink`. -/
theorem removePath_file
    (recurse : pathManager → Function → World Fs → Option (World Fs))
    (P n : String) (c : Int) (pm : pathManager) (A R : Fs) (polls : Nat) (tr : List Event)
    (hP : QString.isAscii P) (hn : nameOk n)
    (hfit : QString.size (P ++ "/" ++ n) < PATH_MAX)
    (hpm : pathManager.Holds (QString.toUtf8 (P ++ "/")) pm)
    (hA : ∀ a ∈ A, NodeAscii a ∧ a.path ≠ P ++ "/" ++ n)
    (hR : ∀ a ∈ R, a.path ≠ P ++ "/" ++ n) :
    ∃ pm', removePath Fs.posix recurse pm (QString.toUtf8 n)
        ⟨A ++ ⟨P, n, false, c⟩ :: R, polls, tr⟩
        = some (pm', ⟨A ++ R, polls, tr ++
            [Event.stat (QString.toUtf8 (P ++ "/" ++ n)) (some (S_IFREG + 0o644)),
              Event.unlink (QString.toUtf8 (P ++ "/" ++ n)) true]⟩) ∧
      pathManager.Holds (QString.toUtf8 (P ++ "/")) pm' := by
  obtain ⟨pm', hs, hh⟩ := pathManager.setPath_exact hpm n hn.1 (entry_fits hP hn.1 hfit)
  rw [← QString.toUtf8_append] at hs
  have hasc : QString.isAscii (P ++ "/" ++ n) := isAscii_join hP hn.1
  have hc : cstr (QString.toUtf8 (P ++ "/" ++ n)) = QString.toUtf8 (P ++ "/" ++ n) :=
    cstr_eq_self (QString.toUtf8_ascii_ne_zero hasc)
  have hnode : NodeAscii ⟨P, n, false, c⟩ := ⟨hP, hn.1⟩
  have hres : ∀ R', Fs.resolve (A ++ ⟨P, n, false, c⟩ :: R') (QString.toUtf8 (P ++ "/" ++ n))
      = some ⟨P, n, false, c⟩ := fun R' =>
    Fs.resolve_mid A R' _ _ hnode (Fs.stripSlash_entry P n hn) hA
  have hfil : (A ++ (⟨P, n, false, c⟩ : FsNode) :: R).filter
      (fun x => x != (⟨P, n, false, c⟩ : FsNode)) = A ++ R :=
    Fs.filter_mid A R ⟨P, n, false, c⟩ (fun a ha => (hA a ha).2) hR
  refine ⟨pm', ?_, hh⟩
  simp only [removePath, nameOk_valid hn, if_true, hs,
    step_stat _ _ _ polls tr hc (hres R), Bool.false_eq_true, if_false, S_ISREG_file,
    step_unlink _ _ _ polls _ hc (hres R) rfl, hfil, List.append_assoc,
    List.singleton_append]

end Linux.directoryManager

namespace Linux.directoryManager

/-- `removePath` on an entry that is a directory: one `stat`, then the
template on the path manager of the directory. -/
theorem removePath_dir
    (recurse : pathManager → Function → World Fs → Option (World Fs))
    (P n : String) (pm child : pathManager) (A R : Fs) (polls : Nat) (tr : List Event)
    (w₃ : World Fs)
    (hP : QString.isAscii P) (hn : nameOk n)
    (hfit : QString.size (P ++ "/" ++ n) < PATH_MAX)
    (hpm : pathManager.Holds (QString.toUtf8 (P ++ "/")) pm)
    (hA : ∀ a ∈ A, NodeAscii a ∧ a.path ≠ P ++ "/" ++ n)
    (hchild : pathManager.ofQString (P ++ "/" ++ n) = some child)
    (hrec : recurse child (Function.rmdir (QString.toUtf8 (P ++ "/" ++ n)))
        ⟨A ++ ⟨P, n, true, 0⟩ :: R, polls, tr ++
          [Event.stat (QString.toUtf8 (P ++ "/" ++ n)) (some (S_IFDIR + 0o755))]⟩ = some w₃) :
    ∃ pm', removePath Fs.posix recurse pm (QString.toUtf8 n)
        ⟨A ++ ⟨P, n, true, 0⟩ :: R, polls, tr⟩
        = some (pm', w₃) ∧
      pathManager.Holds (QString.toUtf8 (P ++ "/")) pm' := by
  obtain ⟨pm', hs, hh⟩ := pathManager.setPath_exact hpm n hn.1 (entry_fits hP hn.1 hfit)
  rw [← QString.toUtf8_append] at hs
  have hasc : QString.isAscii (P ++ "/" ++ n) := isAscii_join hP hn.1
  have hc : cstr (QString.toUtf8 (P ++ "/" ++ n)) = QString.toUtf8 (P ++ "/" ++ n) :=
    cstr_eq_self (QString.toUtf8_ascii_ne_zero hasc)
  have hnode : NodeAscii ⟨P, n, true, 0⟩ := ⟨hP, hn.1⟩
  have hres : Fs.resolve (A ++ ⟨P, n, true, 0⟩ :: R) (QString.toUtf8 (P ++ "/" ++ n))
      = some ⟨P, n, true, 0⟩ :=
    Fs.resolve_mid A R _ _ hnode (Fs.stripSlash_entry P n hn) hA
  refine ⟨pm', ?_, hh⟩
  simp only [removePath, nameOk_valid hn, if_true, hs,
    step_stat _ _ _ polls tr hc hres, S_ISREG_dir, S_ISDIR_dir, Bool.false_eq_true, if_false,
    pathManager.ofCString_ascii _ hasc, hchild, hrec, Option.map_some']

/-- The template on a directory, given what its loop does after "." and "..". -/
theorem template_dir (d : Nat) (Q : String) (f : Function) (child pm' : pathManager)
    (A R : Fs) (node : FsNode) (names : List String) (polls : Nat) (tr t : List Event)
    (fs' : Fs)
    (hdir : node.isDir = true) (hpath : node.path = Q) (hnode : NodeAscii node)
    (hchild : child.path = QString.toUtf8 (Q ++ "/"))
    (hA : ∀ a ∈ A, NodeAscii a ∧ a.path ≠ node.path)
    (hkids : (Fs.children (A ++ node :: R) node).map FsNode.name = names)
    (hloop : removeLoop none
        (removePath Fs.posix (removeDirectoryTemplate Fs.posix none d))
        (names.length + 1) child (names.map QString.toUtf8)
        ⟨A ++ node :: R, polls, tr ++ [Event.enter,
          Event.opendir (QString.toUtf8 (Q ++ "/")) true,
          Event.readdir (some [46]), Event.readdir (some [46, 46])]⟩
        = some (pm', ⟨fs', polls, tr ++ t⟩)) :
    removeDirectoryTemplate Fs.posix none (d + 1) child f ⟨A ++ node :: R, polls, tr⟩
      = some (((f.call Fs.posix ⟨fs', polls, tr ++ t⟩).log Event.closedir).log Event.leave) := by
  have hasc : QString.isAscii (Q ++ "/") :=
    QString.isAscii_append (hpath ▸ nodeAscii_path hnode) QString.isAscii_slash
  have hc : cstr (QString.toUtf8 (Q ++ "/")) = QString.toUtf8 (Q ++ "/") :=
    cstr_eq_self (QString.toUtf8_ascii_ne_zero hasc)
  have hres : Fs.resolve (A ++ node :: R) (QString.toUtf8 (Q ++ "/")) = some node :=
    Fs.resolve_mid A R _ _ hnode (by rw [Fs.stripSlash_dir, hpath]) hA
  have hkids' : (Fs.children (A ++ node :: R) node).map (fun c => QString.toUtf8 c.name)
      = names.map QString.toUtf8 := by
    rw [← hkids, List.map_map]
    rfl
  have hfuel : (([46] : List Nat) :: [46, 46] :: names.map QString.toUtf8).length + 1
      = (names.length + 1) + 2 := by simp
  simp only [removeDirectoryTemplate, World.log, hchild,
    step_opendir _ _ _ polls _ hc hres hdir, hkids', hfuel, removeLoop_skip_dots,
    List.append_assoc, List.singleton_append, List.cons_append, List.nil_append]
  rw [hloop]
  simp [unique_rsc_release, World.log]

end Linux.directoryManager

theorem outside_child {P : String} (n : String) {L : Fs} (h : Outside P L) :
    Outside (P ++ "/" ++ n) L := by
  intro a ha
  exact ⟨(h a ha).1, fun hu => (h a ha).2 (under_of_atOrUnder_child (Or.inr hu))⟩

theorem outside_ne {P : String} (n : String) {L : Fs} (h : Outside P L) :
    ∀ a ∈ L, NodeAscii a ∧ a.path ≠ P ++ "/" ++ n := by
  intro a ha
  exact ⟨(h a ha).1, fun e => (h a ha).2 (e ▸ under_child_join P n)⟩

theorem outside_append {P : String} {L₁ L₂ : Fs} (h₁ : Outside P L₁) (h₂ : Outside P L₂) :
    Outside P (L₁ ++ L₂) := by
  intro a ha
  rcases List.mem_append.mp ha with h | h
  · exact h₁ a h
  · exact h₂ a h

/-- The nodes laid out for the other entries of `P` are neither at nor below
the entry `n`. -/
theorem siblings_apart (P n : String) (ts : FsForest) (hP : QString.isAscii P)
    (hok : ts.ok P) (hn : nameOk n) (hnot : n ∉ ts.names) :
    ∀ m ∈ ts.layout P, NodeAscii m ∧ ¬ AtOrUnder (P ++ "/" ++ n) m.path := by
  intro m hm
  refine ⟨layout_ascii ts P hP hok m hm, fun h => ?_⟩
  obtain ⟨n', hn', hp⟩ := forest_layout_path ts P m hm
  have := atOrUnder_sep hn.2.2.1 (forest_nameOk ts P hok n' hn').2.2.1 h hp
  exact hnot (this ▸ hn')

theorem children_nil_of_outside {Q : String} {L : Fs} (d : FsNode) (hd : d.path = Q)
    (h : Outside Q L) : L.filter (fun c => c.dir == d.path) = [] := by
  apply Fs.children_nil
  intro a ha e
  apply (h a ha).2
  rw [← hd, ← e]
  exact ⟨a.name.data, path_data a⟩

theorem join_ne_self (P n : String) : P ≠ P ++ "/" ++ n := by
  intro e
  have := congrArg (fun s => s.data.length) e
  simp [String.data_append] at this

namespace Linux.directoryManager

theorem removeLoop_nil
    (rmPath : pathManager → List Nat → World Fs → Option (pathManager × World Fs))
    (fuel : Nat) (pm : pathManager) (fs : Fs) (polls : Nat) (tr : List Event) :
    removeLoop none rmPath (fuel + 1) pm [] ⟨fs, polls, tr⟩
      = some (pm, ⟨fs, polls, tr ++ [Event.readdir none]⟩) := by
  simp only [removeLoop, World.poll, readdir, World.log]

theorem removeLoop_cons
    (rmPath : pathManager → List Nat → World Fs → Option (pathManager × World Fs))
    (fuel : Nat) (pm pm₁ : pathManager) (n : List Nat) (rest : List (List Nat)) (fs : Fs)
    (polls : Nat) (tr : List Event) (w₁ : World Fs)
    (h : rmPath pm n ⟨fs, polls, tr ++ [Event.readdir (some n)]⟩ = some (pm₁, w₁)) :
    removeLoop none rmPath (fuel + 1) pm (n :: rest) ⟨fs, polls, tr⟩
      = removeLoop none rmPath fuel pm₁ rest w₁ := by
  simp only [removeLoop, World.poll, readdir, World.log, h]

end Linux.directoryManager

namespace Linux.directoryManager

/-- The loop of the template empties a directory of ASCII entries: run on
the names of the entries of `P`, it removes their nodes, and those only, in
post-order. -/
theorem emptyOut : ∀ (cs : FsForest) (depth : Nat) (P : String) (pm : pathManager) (A B : Fs)
    (fuel polls : Nat) (tr : List Event),
    QString.isAscii P → pathManager.Holds (QString.toUtf8 (P ++ "/")) pm → cs.ok P →
    cs.height ≤ depth → Outside P A → Outside P B → cs.names.length < fuel →
    ∃ pm' t, removeLoop none
        (removePath Fs.posix (removeDirectoryTemplate Fs.posix none depth))
        fuel pm (cs.names.map QString.toUtf8) ⟨A ++ (cs.layout P ++ B), polls, tr⟩
        = some (pm', ⟨A ++ B, polls, tr ++ t⟩) ∧
      pathManager.Holds (QString.toUtf8 (P ++ "/")) pm' ∧
      t.filter Event.removal = cs.removals P
  | _, _, _, _, _, _, 0, _, _, _, _, _, _, _, _, hf => by omega
  | FsForest.nil, depth, P, pm, A, B, fuel + 1, polls, tr, _, hpm, _, _, _, _, _ =>
    ⟨pm, [Event.readdir none], by
      simp only [FsForest.names, FsForest.layout, List.nil_append, List.map_nil]
      exact removeLoop_nil _ fuel pm _ polls tr, hpm, rfl⟩
  | FsForest.cons (FsTree.file n c) ts, depth, P, pm, A, B, fuel + 1, polls, tr,
      hP, hpm, hok, hh, hA, hB, hf => by
    have hn : nameOk n := hok.1.1
    have hsib := siblings_apart P n ts hP hok.2.2 hn hok.2.1
    have hR : ∀ a ∈ ts.layout P ++ B, a.path ≠ P ++ "/" ++ n := by
      intro a ha
      rcases List.mem_append.mp ha with h | h
      · exact fun e => (hsib a h).2 (Or.inl e)
      · exact (outside_ne n hB a h).2
    obtain ⟨pm₁, hrm, hpm₁⟩ := removePath_file
      (removeDirectoryTemplate Fs.posix none depth) P n c pm A (ts.layout P ++ B) polls
      (tr ++ [Event.readdir (some (QString.toUtf8 n))]) hP hn hok.1.2 hpm (outside_ne n hA) hR
    have hts : ts.height ≤ depth := by
      simp only [FsForest.height] at hh
      omega
    obtain ⟨pm₂, t₂, hl, hpm₂, ht₂⟩ := emptyOut ts depth P pm₁ A B fuel polls
      (tr ++ [Event.readdir (some (QString.toUtf8 n))] ++
        [Event.stat (QString.toUtf8 (P ++ "/" ++ n)) (some (S_IFREG + 0o644)),
          Event.unlink (QString.toUtf8 (P ++ "/" ++ n)) true])
      hP hpm₁ hok.2.2 hts hA hB (by simp only [FsForest.names, List.length_cons] at hf; omega)
    refine ⟨pm₂, [Event.readdir (some (QString.toUtf8 n)),
        Event.stat (QString.toUtf8 (P ++ "/" ++ n)) (some (S_IFREG + 0o644)),
        Event.unlink (QString.toUtf8 (P ++ "/" ++ n)) true] ++ t₂, ?_, hpm₂, ?_⟩
    · simp only [FsForest.names, FsForest.layout, FsTree.layout, FsTree.name,
        List.singleton_append, List.cons_append, List.nil_append, List.map_cons]
      rw [removeLoop_cons _ _ _ _ _ _ _ _ _ _ hrm, hl]
      simp
    · simp [List.filter_cons, Event.removal, ht₂, FsForest.removals, FsTree.removals]
  | FsForest.cons (FsTree.dir n ds) ts, 0, _, _, _, _, _ + 1, _, _, _, _, _, hh, _, _, _ => by
    simp only [FsForest.height, FsTree.height] at hh
    omega
  | FsForest.cons (FsTree.dir n ds) ts, d + 1, P, pm, A, B, fuel + 1, polls, tr,
      hP, hpm, hok, hh, hA, hB, hf => by
    have hn : nameOk n := hok.1.1
    have hfitd : QString.size (P ++ "/" ++ n) + 1 < PATH_MAX := hok.1.2.1
    have hds : ds.ok (P ++ "/" ++ n) := hok.1.2.2
    have hQ : QString.isAscii (P ++ "/" ++ n) := isAscii_join hP hn.1
    have hsib := siblings_apart P n ts hP hok.2.2 hn hok.2.1
    have hheight : ds.height ≤ d ∧ ts.height ≤ d + 1 := by
      simp only [FsForest.height, FsTree.height] at hh
      omega
    obtain ⟨child, hchild, hch, hcp⟩ := pathManager.ofQString_dir (P ++ "/" ++ n) hQ
      (pathManager.endsWithSlash_entry P n hn) hfitd
    have hnodeA : NodeAscii (⟨P, n, true, 0⟩ : FsNode) := ⟨hP, hn.1⟩
    have hA' : Outside (P ++ "/" ++ n) (A ++ [(⟨P, n, true, 0⟩ : FsNode)]) := by
      refine outside_append (outside_child n hA) ?_
      intro a ha
      simp only [List.mem_singleton] at ha
      subst ha
      exact ⟨hnodeA, not_under_self _⟩
    have hB' : Outside (P ++ "/" ++ n) (ts.layout P ++ B) :=
      outside_append (fun m hm => ⟨(hsib m hm).1, fun hu => (hsib m hm).2 (Or.inr hu)⟩)
        (outside_child n hB)
    have hR : ∀ a ∈ ts.layout P ++ B, a.path ≠ P ++ "/" ++ n := by
      intro a ha
      rcases List.mem_append.mp ha with h | h
      · exact fun e => (hsib a h).2 (Or.inl e)
      · exact (outside_ne n hB a h).2
    -- the loop inside the directory
    obtain ⟨pm'', t₁, hl₁, _, ht₁⟩ := emptyOut ds d (P ++ "/" ++ n) child
      (A ++ [(⟨P, n, true, 0⟩ : FsNode)]) (ts.layout P ++ B) (ds.names.length + 1) polls
      (tr ++ [Event.readdir (some (QString.toUtf8 n)),
        Event.stat (QString.toUtf8 (P ++ "/" ++ n)) (some (S_IFDIR + 0o755)), Event.enter,
        Event.opendir (QString.toUtf8 (P ++ "/" ++ n ++ "/")) true,
        Event.readdir (some [46]), Event.readdir (some [46, 46])])
      hQ hch hds hheight.1 hA' hB' (Nat.lt_succ_self _)
    -- what the directory lists
    have hkids : (Fs.children (A ++ (⟨P, n, true, 0⟩ : FsNode)
        :: (ds.layout (P ++ "/" ++ n) ++ (ts.layout P ++ B))) ⟨P, n, true, 0⟩).map FsNode.name
        = ds.names := by
      have e1 := children_nil_of_outside (⟨P, n, true, 0⟩ : FsNode) rfl (outside_child n hA)
      have e2 := children_nil_of_outside (⟨P, n, true, 0⟩ : FsNode) rfl hB'
      have e3 : (P == (⟨P, n, true, 0⟩ : FsNode).path) = false := by
        simpa [FsNode.path] using join_ne_self P n
      have e4 := layout_children ds (P ++ "/" ++ n) hds
      simp only [Fs.children, List.filter_append, List.filter_cons, e1, e2, e3,
        Bool.false_eq_true, if_false, List.nil_append, List.append_nil]
      exact e4
    have hkids' : Fs.children (A ++ (⟨P, n, true, 0⟩ : FsNode) :: (ts.layout P ++ B))
        ⟨P, n, true, 0⟩ = [] := by
      have e1 := children_nil_of_outside (⟨P, n, true, 0⟩ : FsNode) rfl (outside_child n hA)
      have e2 := children_nil_of_outside (⟨P, n, true, 0⟩ : FsNode) rfl hB'
      have e3 : (P == (⟨P, n, true, 0⟩ : FsNode).path) = false := by
        simpa [FsNode.path] using join_ne_self P n
      simp only [Fs.children, List.filter_append, List.filter_cons, e1, e2, e3,
        Bool.false_eq_true, if_false, List.nil_append]
    have hcq : cstr (QString.toUtf8 (P ++ "/" ++ n)) = QString.toUtf8 (P ++ "/" ++ n) :=
      cstr_eq_self (QString.toUtf8_ascii_ne_zero hQ)
    have hres : Fs.resolve (A ++ (⟨P, n, true, 0⟩ : FsNode) :: (ts.layout P ++ B))
        (QString.toUtf8 (P ++ "/" ++ n)) = some ⟨P, n, true, 0⟩ :=
      Fs.resolve_mid A _ _ _ hnodeA (Fs.stripSlash_entry P n hn) (outside_ne n hA)
    have hfil : (A ++ (⟨P, n, true, 0⟩ : FsNode) :: (ts.layout P ++ B)).filter
        (fun x => x != (⟨P, n, true, 0⟩ : FsNode)) = A ++ (ts.layout P ++ B) :=
      Fs.filter_mid A _ ⟨P, n, true, 0⟩ (fun a ha => (outside_ne n hA a ha).2) hR
    -- the template on the directory
    have htemp := template_dir d (P ++ "/" ++ n)
      (Function.rmdir (QString.toUtf8 (P ++ "/" ++ n))) child pm'' A
      (ds.layout (P ++ "/" ++ n) ++ (ts.layout P ++ B)) ⟨P, n, true, 0⟩ ds.names polls
      (tr ++ [Event.readdir (some (QString.toUtf8 n)),
        Event.stat (QString.toUtf8 (P ++ "/" ++ n)) (some (S_IFDIR + 0o755))])
      ([Event.enter, Event.opendir (QString.toUtf8 (P ++ "/" ++ n ++ "/")) true,
        Event.readdir (some [46]), Event.readdir (some [46, 46])] ++ t₁)
      (A ++ (⟨P, n, true, 0⟩ : FsNode) :: (ts.layout P ++ B))
      rfl rfl hnodeA hcp (outside_ne n hA) hkids
      (by
        simp only [List.append_assoc, List.singleton_append, List.cons_append,
          List.nil_append] at hl₁ ⊢
        exact hl₁)
    simp only [Function.call, step_rmdir _ _ _ polls _ hcq hres rfl hkids', hfil, World.log]
      at htemp
    obtain ⟨pm₁, hrm, hpm₁⟩ := removePath_dir
      (removeDirectoryTemplate Fs.posix none (d + 1)) P n pm child A
      (ds.layout (P ++ "/" ++ n) ++ (ts.layout P ++ B)) polls
      (tr ++ [Event.readdir (some (QString.toUtf8 n))]) _ hP hn (by omega) hpm (outside_ne n hA) hchild
      (by
        simp only [List.append_assoc, List.singleton_append, List.cons_append,
          List.nil_append] at htemp ⊢
        exact htemp)
    obtain ⟨pm₂, t₂, hl, hpm₂, ht₂⟩ := emptyOut ts (d + 1) P pm₁ A B fuel polls _
      hP hpm₁ hok.2.2 hheight.2 hA hB
      (by simp only [FsForest.names, List.length_cons] at hf; omega)
    refine ⟨pm₂, [Event.readdir (some (QString.toUtf8 n)),
        Event.stat (QString.toUtf8 (P ++ "/" ++ n)) (some (S_IFDIR + 0o755)), Event.enter,
        Event.opendir (QString.toUtf8 (P ++ "/" ++ n ++ "/")) true,
        Event.readdir (some [46]), Event.readdir (some [46, 46])] ++ t₁ ++
        [Event.rmdir (QString.toUtf8 (P ++ "/" ++ n)) true, Event.closedir, Event.leave]
        ++ t₂, ?_, hpm₂, ?_⟩
    · simp only [FsForest.names, FsForest.layout, FsTree.layout, FsTree.name,
        List.cons_append, List.append_assoc, List.map_cons]
      rw [removeLoop_cons _ _ _ _ _ _ _ _ _ _ hrm, hl]
      simp
    · simp [List.filter_cons, List.filter_append, Event.removal, ht₁, ht₂, FsForest.removals,
        FsTree.removals]
termination_by cs => sizeOf cs

end Linux.directoryManager

namespace Linux

/-- On a directory `parent/name` that holds the ASCII tree `cs` with paths
that fit the path buffer, `removeDirectoryContents()` returns, leaves the
directory alone in the file system, and its removals are the post-order
removals of `cs`; `removeDirectory()` does the same and then removes the
directory. -/
theorem removeDirectory_ascii_tree (parent name : String) (cs : FsForest)
    (depth polls : Nat) (tr : List Event) (hP : QString.isAscii parent)
    (hok : (FsTree.dir name cs).ok parent) (hd : cs.height < depth) :
    ∃ t,
      directoryManager.removeDirectoryContents Fs.posix ⟨parent ++ "/" ++ name, none⟩ depth
          ⟨(FsTree.dir name cs).layout parent, polls, tr⟩
        = some ⟨[⟨parent, name, true, 0⟩], polls,
            tr ++ t ++ [Event.closedir, Event.leave]⟩ ∧
      directoryManager.removeDirectory Fs.posix ⟨parent ++ "/" ++ name, none⟩ depth
          ⟨(FsTree.dir name cs).layout parent, polls, tr⟩
        = some ⟨[], polls,
            tr ++ t ++ [Event.rmdir (QString.toUtf8 (parent ++ "/" ++ name)) true,
              Event.closedir, Event.leave]⟩ ∧
      t.filter Event.removal = cs.removals (parent ++ "/" ++ name) := by
  obtain ⟨d, rfl⟩ : ∃ d, depth = d + 1 := ⟨depth - 1, by omega⟩
  have hn : nameOk name := hok.1
  have hQ : QString.isAscii (parent ++ "/" ++ name) := isAscii_join hP hn.1
  have hnodeA : NodeAscii (⟨parent, name, true, 0⟩ : FsNode) := ⟨hP, hn.1⟩
  obtain ⟨child, hchild, hch, hcp⟩ := pathManager.ofQString_dir (parent ++ "/" ++ name) hQ
    (pathManager.endsWithSlash_entry parent name hn) hok.2.1
  have hA : Outside (parent ++ "/" ++ name) [(⟨parent, name, true, 0⟩ : FsNode)] := by
    intro a ha
    simp only [List.mem_singleton] at ha
    subst ha
    exact ⟨hnodeA, not_under_self _⟩
  have hB : Outside (parent ++ "/" ++ name) ([] : Fs) := by
    intro a ha
    simp at ha
  obtain ⟨pm', t₁, hl, _, ht₁⟩ := directoryManager.emptyOut cs d (parent ++ "/" ++ name) child
    [(⟨parent, name, true, 0⟩ : FsNode)] [] (cs.names.length + 1) polls
    (tr ++ [Event.enter, Event.opendir (QString.toUtf8 (parent ++ "/" ++ name ++ "/")) true,
      Event.readdir (some [46]), Event.readdir (some [46, 46])])
    hQ hch hok.2.2 (by omega) hA hB (Nat.lt_succ_self _)
  have e3 : (parent == (⟨parent, name, true, 0⟩ : FsNode).path) = false := by
    simpa [FsNode.path] using join_ne_self parent name
  have hkids : (Fs.children ([] ++ (⟨parent, name, true, 0⟩ : FsNode)
      :: (cs.layout (parent ++ "/" ++ name) ++ [])) ⟨parent, name, true, 0⟩).map FsNode.name
      = cs.names := by
    have e4 := layout_children cs (parent ++ "/" ++ name) hok.2.2
    simp only [Fs.children, List.nil_append, List.append_nil, List.filter_cons, e3,
      Bool.false_eq_true, if_false]
    exact e4
  have hnoA : ∀ a ∈ ([] : Fs), NodeAscii a ∧
      a.path ≠ (⟨parent, name, true, 0⟩ : FsNode).path := by
    intro a ha
    simp at ha
  have htemp := fun f => directoryManager.template_dir d (parent ++ "/" ++ name) f child pm' []
    (cs.layout (parent ++ "/" ++ name) ++ []) ⟨parent, name, true, 0⟩ cs.names polls tr
    ([Event.enter, Event.opendir (QString.toUtf8 (parent ++ "/" ++ name ++ "/")) true,
      Event.readdir (some [46]), Event.readdir (some [46, 46])] ++ t₁)
    [(⟨parent, name, true, 0⟩ : FsNode)]
    rfl rfl hnodeA hcp hnoA hkids
    (by
      simp only [List.append_assoc, List.singleton_append, List.cons_append,
        List.nil_append, List.append_nil] at hl ⊢
      exact hl)
  have hcq : cstr (QString.toUtf8 (parent ++ "/" ++ name))
      = QString.toUtf8 (parent ++ "/" ++ name) :=
    cstr_eq_self (QString.toUtf8_ascii_ne_zero hQ)
  have hres : Fs.resolve [(⟨parent, name, true, 0⟩ : FsNode)]
      (QString.toUtf8 (parent ++ "/" ++ name)) = some ⟨parent, name, true, 0⟩ :=
    Fs.resolve_mid [] [] _ _ hnodeA (Fs.stripSlash_entry parent name hn) hnoA
  have hempty : Fs.children [(⟨parent, name, true, 0⟩ : FsNode)] ⟨parent, name, true, 0⟩
      = [] := by
    simp only [Fs.children, List.filter_cons, e3, Bool.false_eq_true, if_false,
      List.filter_nil]
  refine ⟨[Event.enter, Event.opendir (QString.toUtf8 (parent ++ "/" ++ name ++ "/")) true,
      Event.readdir (some [46]), Event.readdir (some [46, 46])] ++ t₁, ?_, ?_, ?_⟩
  · have h := htemp Function.nothing
    simp only [List.nil_append, List.append_nil] at h
    simp only [directoryManager.removeDirectoryContents, hchild, FsTree.layout, h,
      Function.call, World.log, List.append_assoc, List.singleton_append,
      List.cons_append, List.nil_append]
  · have h := htemp (Function.rmdir (QString.toUtf8 (parent ++ "/" ++ name)))
    simp only [List.nil_append, List.append_nil] at h
    simp only [directoryManager.removeDirectory, hchild, FsTree.layout, h,
      Function.call, step_rmdir _ _ _ polls _ hcq hres rfl hempty,
      World.log, List.append_assoc, List.singleton_append, List.cons_append,
      List.nil_append]
    simp
  · simp [List.filter_cons, List.filter_append, Event.removal, ht₁]

end Linux

/-- The tree of the specification under `/root` is an instance of
`Linux.removeDirectory_ascii_tree`. -/
theorem removeDirectory_ascii_tree_sample :
    (FsTree.dir "root" specTree).layout ""
      = [⟨"", "root", true, 0⟩, ⟨"/root", "a.txt", false, 5⟩, ⟨"/root", "sub", true, 0⟩,
          ⟨"/root/sub", "b.txt", false, 7⟩] ∧
    specTree.removals "/root"
      = [Event.unlink (QString.toUtf8 "/root/a.txt") true,
          Event.unlink (QString.toUtf8 "/root/sub/b.txt") true,
          Event.rmdir (QString.toUtf8 "/root/sub") true] ∧
    ∃ t,
      Linux.directoryManager.removeDirectoryContents Fs.posix ⟨"" ++ "/" ++ "root", none⟩ 2
          ⟨(FsTree.dir "root" specTree).layout "", 0, []⟩
        = some ⟨[⟨"", "root", true, 0⟩], 0, [] ++ t ++ [Event.closedir, Event.leave]⟩ ∧
      Linux.directoryManager.removeDirectory Fs.posix ⟨"" ++ "/" ++ "root", none⟩ 2
          ⟨(FsTree.dir "root" specTree).layout "", 0, []⟩
        = some ⟨[], 0,
            [] ++ t ++ [Event.rmdir (QString.toUtf8 ("" ++ "/" ++ "root")) true,
              Event.closedir, Event.leave]⟩ ∧
      t.filter Event.removal = specTree.removals ("" ++ "/" ++ "root") :=
  ⟨by decide, by decide,
    Linux.removeDirectory_ascii_tree "" "root" specTree 2 0 [] (by decide)
      (by simp only [specTree, FsTree.ok, FsForest.ok, nameOk, FsTree.name, FsForest.names]
          decide)
      (by decide)⟩

/-- C2: for a directory `parent/name` with ASCII names that holds a tree of
regular files and directories whose paths fit the path buffer, both
operations return; `removeDirectoryContents()` removes what the directory
holds in post-order (the entries of a subdirectory before the subdirectory)
and leaves the directory, and `removeDirectory()` removes the directory as
well.  On the tree of the specification under `/root`, `sub/b.txt` is
unlinked before `sub` is removed.  On the directory `/é` holding `a.txt`, with
a file `éa.txt` beside the directory, every native call succeeds, the file
beside the directory is unlinked, and `a.txt` is still in `/é` when
`removeDirectoryContents()` returns. -/
theorem removeDirectory_postorder_ascii_only :
    (∀ (parent name : String) (cs : FsForest) (depth polls : Nat) (tr : List Event),
      QString.isAscii parent → (FsTree.dir name cs).ok parent → cs.height < depth →
      ∃ t,
        Linux.directoryManager.removeDirectoryContents Fs.posix
            ⟨parent ++ "/" ++ name, none⟩ depth
            ⟨(FsTree.dir name cs).layout parent, polls, tr⟩
          = some ⟨[⟨parent, name, true, 0⟩], polls,
              tr ++ t ++ [Event.closedir, Event.leave]⟩ ∧
        Linux.directoryManager.removeDirectory Fs.posix
            ⟨parent ++ "/" ++ name, none⟩ depth
            ⟨(FsTree.dir name cs).layout parent, polls, tr⟩
          = some ⟨[], polls,
              tr ++ t ++ [Event.rmdir (QString.toUtf8 (parent ++ "/" ++ name)) true,
                Event.closedir, Event.leave]⟩ ∧
        t.filter Event.removal = cs.removals (parent ++ "/" ++ name)) ∧
    (Linux.directoryManager.removeDirectoryContents Fs.posix ⟨"/root", none⟩ 2
        ⟨sampleTree, 0, []⟩).map (fun w => (w.sys, w.trace.filter Event.removal))
      = some ([⟨"", "root", true, 0⟩],
          [Event.unlink (QString.toUtf8 "/root/a.txt") true,
            Event.unlink (QString.toUtf8 "/root/sub/b.txt") true,
            Event.rmdir (QString.toUtf8 "/root/sub") true]) ∧
    (Linux.directoryManager.removeDirectory Fs.posix ⟨"/root", none⟩ 2
        ⟨sampleTree, 0, []⟩).map (fun w => (w.sys, w.trace.filter Event.removal))
      = some ([],
          [Event.unlink (QString.toUtf8 "/root/a.txt") true,
            Event.unlink (QString.toUtf8 "/root/sub/b.txt") true,
            Event.rmdir (QString.toUtf8 "/root/sub") true,
            Event.rmdir (QString.toUtf8 "/root") true]) ∧
    (Linux.directoryManager.removeDirectoryContents Fs.posix ⟨"/é", none⟩ 1
        ⟨accentTree, 0, []⟩).map (fun w => (w.sys, w.trace))
      = some ([⟨"", "é", true, 0⟩, ⟨"/é", "a.txt", false, 5⟩],
          [Event.enter, Event.opendir (QString.toUtf8 "/é/") true,
            Event.readdir (some (QString.toUtf8 ".")),
            Event.readdir (some (QString.toUtf8 "..")),
            Event.readdir (some (QString.toUtf8 "a.txt")),
            Event.stat (QString.toUtf8 "/éa.txt") (some (S_IFREG + 0o644)),
            Event.unlink (QString.toUtf8 "/éa.txt") true,
            Event.readdir none, Event.closedir, Event.leave]) :=
  ⟨Linux.removeDirectory_ascii_tree, by decide, by decide, by decide⟩
